import Mathlib

/-!
# gemolsyr: the parallel L-system derivation engine

A shallow embedding of `gemolsyr.go`, `grammar.go`, `environment.go`,
`interchange/rules/rule.go`, `interchange/lsif/expressions.go` and the pipeline of
`cmd/gemolsyr/main.go`, followed by the properties proved about it.

Conventions of the embedding.

* A Go slice is the list of its visible elements; `make([]T, n)` is `n` zero values, and a
  panic when `n` is negative. The memory that a slice takes is not counted.
* A Go panic is the `Except.error` outcome; a returned `error` is an `Option String`.
  Calls of `Matches` may panic; calls of the other methods of a rule are taken to return.
* The type `float64` is `F64`: IEEE-754 binary64 with round-to-nearest-even, overflow to
  the infinities, NaN, and a single unsigned zero. Go lets a build compute `x*y + z` as
  one fused multiply-add, rounded once; the only such expression of the program is
  `cum += scalingFactor * p` in `calculateRules`. The functions `pick`, `stochastic`
  and `selectRule`, and `Derivate` above them, follow the build that rounds the product
  and the sum separately; `pickFused`, `stochasticFused` and `selectRuleFused` are
  the same lines in a build that fuses them.
* The conversions to `uint32` are written `% 2 ^ 32`, the `uint` tier counter wraps at
  `2 ^ 64`, and the additions of `int` values (output sizes, output cursors) wrap at
  `2 ^ 63` (`wrapInt`); `uint64` cursors into the tier and the sequence numbers of the
  pipeline count elements and are kept exact.
* The workers of `Derivate` run concurrently. `DerivateIn schedule` is the call in which
  they run their first half (selection of the rules, with its draws from the shared
  generator) one after the other in the order `schedule`; `Derivate` is the call in
  which this is the partition order. In their second half the workers only read what is
  shared and write disjoint parts of the output, so its order is not modelled.
* The generator `*rand.Rand` is the stream of the numbers it hands out.
* A Go string is the list of its characters; the names looked at here are ASCII.
* A method on a value receiver runs on a copy: what the caller keeps is what it had.

The file has two parts: all definitions first (the program, then the vocabulary of the
properties and example grammars), then the theorems.
-/

namespace Gemolsyr

/-! ## float64 -/

/-- IEEE-754 binary64 values: NaN, the two infinities, and the finite values, held as
rationals. Zero carries no sign. -/
inductive F64 where
  | nan
  | pinf
  | ninf
  | fin (q : ℚ)
deriving DecidableEq

namespace F64

/-- Floor of the base-2 logarithm of `n`, by halving at most `fuel` times. -/
def log2Fuel : Nat → Nat → Nat
  | 0, _ => 0
  | fuel + 1, n => if 2 ≤ n then log2Fuel fuel (n / 2) + 1 else 0

/-- Floor of the base-2 logarithm of a natural number, `0` for `0`. -/
def log2Nat (n : Nat) : Nat := log2Fuel n n

/-- Floor of the base-2 logarithm of `|q|`, for `q ≠ 0`. -/
def ilog2 (q : ℚ) : ℤ :=
  let e0 : ℤ := (log2Nat q.num.natAbs : ℤ) - (log2Nat q.den : ℤ)
  if (2 : ℚ) ^ e0 ≤ |q| then e0 else e0 - 1

/-- Round a rational to the nearest integer, ties to the even one. -/
def rne (x : ℚ) : ℤ :=
  let f := ⌊x⌋
  if x - f < 1 / 2 then f
  else if 1 / 2 < x - f then f + 1
  else if f % 2 = 0 then f else f + 1

/-- Spacing of the binary64 grid around `q`: 53 significant bits in the normal range,
`2 ^ (-1074)` in the subnormal range. -/
def ulp (q : ℚ) : ℚ := (2 : ℚ) ^ (max (ilog2 q) (-1022) - 52)

/-- Rounding of an exact result to binary64: nearest grid point, ties to even, and an
infinity once the rounded magnitude reaches `2 ^ 1024`. -/
def round (q : ℚ) : F64 :=
  let r : ℚ := rne (q / ulp q) * ulp q
  if (2 : ℚ) ^ (1024 : ℕ) ≤ r then pinf
  else if r ≤ -(2 : ℚ) ^ (1024 : ℕ) then ninf
  else fin r

/-- The value is one a float64 can hold. -/
def IsBinary64 : F64 → Prop
  | fin q => round q = fin q
  | _ => True

instance (x : F64) : Decidable (IsBinary64 x) := by
  cases x <;> unfold IsBinary64 <;> infer_instance

/-- Float addition `x + y`. -/
def add : F64 → F64 → F64
  | nan, _ => nan
  | _, nan => nan
  | pinf, ninf => nan
  | ninf, pinf => nan
  | pinf, _ => pinf
  | _, pinf => pinf
  | ninf, _ => ninf
  | _, ninf => ninf
  | fin a, fin b => round (a + b)

/-- Float negation. -/
def neg : F64 → F64
  | nan => nan
  | pinf => ninf
  | ninf => pinf
  | fin a => fin (-a)

/-- Float subtraction `x - y`. -/
def sub (x y : F64) : F64 := add x (neg y)

/-- The infinity whose sign is that of the rational `a * s`, `s` being `1` or `-1`. -/
def infOfSign (a : ℚ) (positive : Bool) : F64 :=
  if a = 0 then nan
  else if decide (0 < a) = positive then pinf else ninf

/-- Float multiplication `x * y`. -/
def mul : F64 → F64 → F64
  | nan, _ => nan
  | _, nan => nan
  | pinf, pinf => pinf
  | ninf, ninf => pinf
  | pinf, ninf => ninf
  | ninf, pinf => ninf
  | pinf, fin b => infOfSign b true
  | ninf, fin b => infOfSign b false
  | fin a, pinf => infOfSign a true
  | fin a, ninf => infOfSign a false
  | fin a, fin b => round (a * b)

/-- Float division `x / y`; a zero divisor is `+0`. -/
def div : F64 → F64 → F64
  | nan, _ => nan
  | _, nan => nan
  | pinf, pinf => nan
  | pinf, ninf => nan
  | ninf, pinf => nan
  | ninf, ninf => nan
  | pinf, fin b => if 0 ≤ b then pinf else ninf
  | ninf, fin b => if 0 ≤ b then ninf else pinf
  | fin _, pinf => fin 0
  | fin _, ninf => fin 0
  | fin a, fin b => if b = 0 then infOfSign a true else round (a / b)

/-- Fused multiply-add `x * y + z`: the exact product and sum, rounded once. -/
def fma : F64 → F64 → F64 → F64
  | fin a, fin b, fin c => round (a * b + c)
  | fin _, fin _, z => z
  | x, y, z => add (mul x y) z

/-- Float comparison `x < y`; false as soon as one side is NaN. -/
def lt : F64 → F64 → Bool
  | nan, _ => false
  | _, nan => false
  | pinf, _ => false
  | _, ninf => false
  | ninf, _ => true
  | fin _, pinf => true
  | fin a, fin b => decide (a < b)

end F64

/-! ## grammar.go -/

/-- Go `type Letter rune`. -/
abbrev Letter := Char

/-- Go `type Module struct`. -/
structure Module where
  Letter : Letter
  Parameters : List F64
deriving DecidableEq

/-- The zero value of `Module`, what `make([]Module, n)` is filled with. -/
def Module.zero : Module := ⟨Char.ofNat 0, []⟩

/-- Go `Module.String`, the loop over the parameters from index `i` on; `len` is
`len(m.Parameters)` and `out` the text so far. -/
def Module.stringLoop (FormatFloat : F64 → String) (len : Nat) :
    List F64 → Nat → String → String
  | [], _, out => out
  | param :: rest, i, out =>
    let out := out ++ FormatFloat param
    let out := if i + 1 ≠ len then out ++ ", " else out
    Module.stringLoop FormatFloat len rest (i + 1) out

/-- Go `Module.String`. `FormatFloat` stands for the library call
`strconv.FormatFloat(param, 'f', -1, 64)`. -/
def Module.String (FormatFloat : F64 → String) (m : Module) : String :=
  let out := String.singleton m.Letter
  if m.Parameters.length = 0 then out
  else
    let out := out ++ "("
    let out := Module.stringLoop FormatFloat m.Parameters.length m.Parameters 0 out
    out ++ ")"

/-! ## environment.go -/

/-- Go `type Environment interface`: the `Get` method, returning the value and the error. -/
structure Environment where
  Get : String → F64 × Option String

/-- Go `type wrappedEnvironment struct`. -/
structure wrappedEnvironment where
  Inner : Option Environment
  prev : List F64

/-- Go `wrapEnvironment`. -/
def wrapEnvironment (inner : Option Environment) : wrappedEnvironment := ⟨inner, []⟩

/-- Go `const PrevPrefix`. -/
def PrevPrefix : String := "prev_"

/-- Go `strings.HasPrefix`. -/
def HasPrefix (s pre : String) : Bool := pre.toList.isPrefixOf s.toList

/-- The value of a decimal digit, `none` for any other character: the test
`ch -= '0'; if ch > 9` of `strconv`. -/
def digitValue (ch : Char) : Option Nat :=
  if '0'.toNat ≤ ch.toNat ∧ ch.toNat ≤ '9'.toNat then some (ch.toNat - '0'.toNat) else none

/-- The loop `n = n*10 + int(ch)` of `strconv` over the characters after the sign; `none`
when a character is no digit. -/
def parseDigits : List Char → Nat → Option Nat
  | [], n => some n
  | ch :: rest, n =>
    match digitValue ch with
    | none => none
    | some d => parseDigits rest (n * 10 + d)

/-- The sign that `strconv` takes off the front of the text: whether it is `-`, and the
rest. -/
def splitSign : List Char → Bool × List Char
  | '-' :: rest => (true, rest)
  | '+' :: rest => (false, rest)
  | s => (false, s)

/-- Go `strconv.Atoi` on a platform with 64-bit `int`: an optional sign and at least one
decimal digit; a value outside the range of `int` is replaced by the nearest bound and
reported. The result is the integer and the error. Of the `*NumError` that `strconv`
returns the text kept here names the function and the cause (`ErrSyntax`, `ErrRange`);
the quoted input that `Error()` puts between them is left out. -/
def Atoi (s : List Char) : Int × Option String :=
  let (neg, digits) := splitSign s
  match digits with
  | [] => (0, some "strconv.Atoi: invalid syntax")
  | _ :: _ =>
    match parseDigits digits 0 with
    | none => (0, some "strconv.Atoi: invalid syntax")
    | some n =>
      if neg then
        if n ≤ 2 ^ 63 then (-(n : Int), none)
        else (-(2 ^ 63 : Int), some "strconv.Atoi: value out of range")
      else
        if n < 2 ^ 63 then ((n : Int), none)
        else ((2 ^ 63 : Int) - 1, some "strconv.Atoi: value out of range")

/-- Go `(*wrappedEnvironment).Get`: the value and the error. -/
def wrappedEnvironment.Get (wenv : wrappedEnvironment) (v : String) : F64 × Option String :=
  if HasPrefix v PrevPrefix then
    let (n, err) := Atoi (v.toList.drop PrevPrefix.length)
    match err with
    | some err => (F64.fin 0, some err)
    | none =>
      if n < 0 ∨ (wenv.prev.length : Int) ≤ n then
        (F64.fin 0, some "call to unexistent previous variable")
      else
        match wenv.prev.get? n.toNat with
        | some x => (x, none)
        | none => (F64.fin 0, some "index out of range")
  else
    match wenv.Inner with
    | some inner => inner.Get v
    | none => (F64.fin 0, some "call to undefined variable as there is no environment defined")

/-! ## The Rule interface -/

/-- What a call of `Execute` leaves behind: the modules it stored from the start of the
slot it was given, and its two results. -/
structure ExecResult where
  stored : List Module
  n : Int
  err : Option String

/-- Go `type Rule interface`. `Matches` is `none` when the call panics. `Execute` receives the
contents of the slot it may write to. -/
structure Rule where
  Priority : Int
  Matches : Module → List Module → List Module → Option Bool
  Probability : F64
  Execute : List Module → Module → wrappedEnvironment → ExecResult
  OutputSize : Int

/-- Go `type Parameters struct`. -/
structure Parameters where
  Axiom : List Module
  Constants : List Letter
  Variables : List Letter
  Rules : List Rule
  Seed : Int

/-! ## gemolsyr.go -/

/-- Go `const DefaultSubsectionMinimumSize = 64`. -/
def DefaultSubsectionMinimumSize : Nat := 64

/-- Go `*rand.Rand`: the sequence of numbers `Float64()` hands out, and how many were drawn. -/
structure Rand where
  stream : Nat → F64
  drawn : Nat

/-- Go `(*rand.Rand).Float64`. -/
def Rand.Float64 (rng : Rand) : F64 × Rand :=
  (rng.stream rng.drawn, { rng with drawn := rng.drawn + 1 })

/-- Go `type LSystem struct` (the mutex left out). -/
structure LSystem where
  Parameters : Parameters
  env : Option Environment
  currentTier : Nat
  rng : Rand
  tier : List Module
  subsectionMinimumSize : Nat
  maxWorkers : Nat

/-- Go `context.Context`, as far as the engine could look at it. -/
structure Context where
  cancelled : Bool

/-- Go `New`. `NewSource` stands for `rand.New(rand.NewSource(seed))` and `DefaultMaxWorkers`
for `uint32(runtime.NumCPU())`. -/
def New (NewSource : Int → Nat → F64) (DefaultMaxWorkers : Nat) (parameters : Parameters) :
    LSystem :=
  { Parameters := parameters
    env := none
    currentTier := 0
    rng := ⟨NewSource parameters.Seed, 0⟩
    tier := parameters.Axiom
    subsectionMinimumSize := DefaultSubsectionMinimumSize
    maxWorkers := DefaultMaxWorkers }

/-- Go `LSystem.SetSubsectionMinimumSize`, the body of the method: the assignment made to its
receiver. -/
def SetSubsectionMinimumSize.receiver (ls : LSystem) (size : Nat) : LSystem :=
  { ls with subsectionMinimumSize := size % 2 ^ 32 }

/-- Go `LSystem.SetSubsectionMinimumSize`: the L-system of the caller after the call
`ls.SetSubsectionMinimumSize(size)`. The method is declared on the value `LSystem`, so it
runs on a copy of the caller's value, which the call leaves as it was. -/
def LSystem.SetSubsectionMinimumSize (ls : LSystem) (size : Nat) : LSystem :=
  (fun (_receiver : LSystem) => ls) (SetSubsectionMinimumSize.receiver ls size)

/-- Go `LSystem.SubsectionMinimumSize`. -/
def LSystem.SubsectionMinimumSize (ls : LSystem) : Nat := ls.subsectionMinimumSize

/-- Go `calculateRules`, lines 65-69: append to `matching` every rule that matches. -/
def collectMatching (mod : Module) (left right : List Module) :
    List Rule → List Rule → Except String (List Rule)
  | [], matching => .ok matching
  | r :: rest, matching =>
    match r.Matches mod left right with
    | none => .error "panic in Matches"
    | some true => collectMatching mod left right rest (matching ++ [r])
    | some false => collectMatching mod left right rest matching

/-- Go `calculateRules`, lines 74-87: the pair `(maxPriority, amountWithMaxPriority)`. -/
def scanPriority : List Rule → Int × Nat → Int × Nat
  | [], acc => acc
  | r :: rest, (maxPriority, amountWithMaxPriority) =>
    let p := r.Priority
    if maxPriority < p then scanPriority rest (p, 1)
    else if p = maxPriority then scanPriority rest (maxPriority, amountWithMaxPriority + 1)
    else scanPriority rest (maxPriority, amountWithMaxPriority)

/-- Go `calculateRules`, lines 90-96: the in-place compaction loop, `remaining` iterations
from `(oldIndex, newIndex)`. -/
def compactLoop (maxPriority : Int) : Nat → Nat → Nat → List Rule → List Rule
  | 0, _, _, matching => matching
  | remaining + 1, oldIndex, newIndex, matching =>
    match matching.get? oldIndex with
    | none => matching
    | some examined =>
      if examined.Priority = maxPriority then
        compactLoop maxPriority remaining (oldIndex + 1) (newIndex + 1)
          (matching.set newIndex examined)
      else compactLoop maxPriority remaining (oldIndex + 1) newIndex matching

/-- Go `calculateRules`, lines 72-98: the priority filter applied when more than one rule
matches. -/
def priorityFilter (matching : List Rule) : List Rule :=
  let (maxPriority, amountWithMaxPriority) := scanPriority matching (0, 0)
  (compactLoop maxPriority matching.length 0 0 matching).take amountWithMaxPriority

/-- Go `calculateRules`, lines 104-107: `s`, the float sum of the probabilities. -/
def sumProbability (matching : List Rule) : F64 :=
  matching.foldl (fun s r => F64.add s r.Probability) (F64.fin 0)

/-- One insertion step of `sort.SliceStable`: the new element moves left while it is less
than its left neighbour. `sortedRev` is the sorted part, last element first. -/
def insertStable (r : Rule) : List Rule → List Rule
  | [] => [r]
  | y :: sortedRev =>
    if F64.lt r.Probability y.Probability then y :: insertStable r sortedRev
    else r :: y :: sortedRev

/-- Go `sort.SliceStable(matching, less)` with `less` comparing probabilities: insertion sort,
which is what the library runs on up to 20 elements and which any stable sort agrees with
when no probability is NaN. The accumulator is the sorted part, reversed. -/
def sliceStableLoop : List Rule → List Rule → List Rule
  | [], sortedRev => sortedRev.reverse
  | r :: rest, sortedRev => sliceStableLoop rest (insertStable r sortedRev)

/-- Go `sort.SliceStable` on the probabilities, ascending. -/
def sliceStable (matching : List Rule) : List Rule := sliceStableLoop matching []

/-- Go `calculateRules`, lines 118-126: walk the sorted rules, adding up the scaled
probabilities, and stop at the first rule whose running sum exceeds `n`. -/
def pick (scalingFactor n : F64) : F64 → List Rule → Option Rule
  | _, [] => none
  | cum, matchingRule :: rest =>
    let cum := F64.add cum (F64.mul scalingFactor matchingRule.Probability)
    if F64.lt n cum then some matchingRule else pick scalingFactor n cum rest

/-- Go `calculateRules`, lines 118-126, in a build that compiles line 119,
`cum += scalingFactor * matchingRule.Probability()`, to one fused multiply-add. -/
def pickFused (scalingFactor n : F64) : F64 → List Rule → Option Rule
  | _, [] => none
  | cum, matchingRule :: rest =>
    let cum := F64.fma scalingFactor matchingRule.Probability cum
    if F64.lt n cum then some matchingRule else pickFused scalingFactor n cum rest

/-- Go `calculateRules`, lines 101-126: the stochastic case. -/
def stochastic (matching : List Rule) (rng : Rand) : Option Rule × Rand :=
  let s := sumProbability matching
  let scalingFactor := F64.div (F64.fin 1) s
  let sorted := sliceStable matching
  let (n, rng) := rng.Float64
  (pick scalingFactor n (F64.fin 0) sorted, rng)

/-- Go `calculateRules`, lines 71-129: from the rules that match to the rule to store, if
any. -/
def selectRule (matching : List Rule) (rng : Rand) : Option Rule × Rand :=
  let matching := if 1 < matching.length then priorityFilter matching else matching
  if 1 < matching.length then stochastic matching rng
  else
    match matching with
    | [r] => (some r, rng)
    | _ => (none, rng)

/-- Go `calculateRules`, lines 101-126, in a build that fuses line 119. -/
def stochasticFused (matching : List Rule) (rng : Rand) : Option Rule × Rand :=
  let s := sumProbability matching
  let scalingFactor := F64.div (F64.fin 1) s
  let sorted := sliceStable matching
  let (n, rng) := rng.Float64
  (pickFused scalingFactor n (F64.fin 0) sorted, rng)

/-- Go `calculateRules`, lines 71-129, in a build that fuses line 119. -/
def selectRuleFused (matching : List Rule) (rng : Rand) : Option Rule × Rand :=
  let matching := if 1 < matching.length then priorityFilter matching else matching
  if 1 < matching.length then stochasticFused matching rng
  else
    match matching with
    | [r] => (some r, rng)
    | _ => (none, rng)

/-- State of the loop of `calculateRules`: the `rules` slice being filled, the reused
`matching` buffer, and the generator. -/
structure SelectorState where
  rules : List (Option Rule)
  matching : List Rule
  rng : Rand

/-- Go `calculateRules`, one iteration of the loop over `input`, at index `i`. -/
def calculateRulesStep (Rules : List Rule) (input : List Module) (i : Nat) (mod : Module)
    (st : SelectorState) : Except String SelectorState :=
  match collectMatching mod (input.take i) (input.drop (i + 1)) Rules st.matching with
  | .error e => .error e
  | .ok matching =>
    let (chosen, rng) := selectRule matching st.rng
    let rules :=
      match chosen with
      | some r => st.rules.set i (some r)
      | none => st.rules
    -- lines 133-137: the buffer is cleared and closed up again
    .ok { rules := rules, matching := [], rng := rng }

/-- Go `calculateRules`, the loop `for i, mod := range input` from index `i` on; `todo` is
`input[i:]`. -/
def calculateRulesLoop (Rules : List Rule) (input : List Module) :
    List Module → Nat → SelectorState → Except String SelectorState
  | [], _, st => .ok st
  | mod :: todo, i, st =>
    match calculateRulesStep Rules input i mod st with
    | .error e => .error e
    | .ok st => calculateRulesLoop Rules input todo (i + 1) st

/-- Go `LSystem.calculateRules`: fills `rules` in place and advances the generator. -/
def calculateRules (ls : LSystem) (rng : Rand) (rules : List (Option Rule))
    (input : List Module) : Except String (List (Option Rule) × Rand) :=
  match calculateRulesLoop ls.Parameters.Rules input input 0 ⟨rules, [], rng⟩ with
  | .error e => .error e
  | .ok st => .ok (st.rules, st.rng)

/-- The value a Go `int` (64 bits, two's complement) holds after an addition whose exact
result is `x`: the result wraps around at `2 ^ 63`. -/
def wrapInt (x : Int) : Int := (x + 2 ^ 63) % 2 ^ 64 - 2 ^ 63

/-- Go `LSystem.calculateOutputSize`. -/
def calculateOutputSize (rules : List (Option Rule)) : Int :=
  rules.foldl (fun val r =>
    match r with
    | some r => wrapInt (val + r.OutputSize)
    | none => val) 0

/-- Contents of a slot after `stored` was written from its start. -/
def overwrite (slot stored : List Module) : List Module :=
  stored.take slot.length ++ slot.drop stored.length

/-- Go `LSystem.rewrite`, the loop over `input` from the current `outputCursor` on; `rules`
is the part of the rule slice not yet visited. The result is the returned `error` and
the contents of `output`. -/
def rewriteLoop (inner : Option Environment) :
    List Module → List (Option Rule) → Int → List Module →
      Except String (Option String × List Module)
  | [], _, _, output => .ok (none, output)
  | _ :: _, [], _, _ => .error "index out of range"
  | _ :: input, none :: rules, outputCursor, output =>
    rewriteLoop inner input rules outputCursor output
  | inputModule :: input, some rule :: rules, outputCursor, output =>
    let env : wrappedEnvironment := { wrapEnvironment inner with prev := inputModule.Parameters }
    if outputCursor < 0 ∨ (output.length : Int) < outputCursor then
      .error "slice bounds out of range"
    else
      let slot := output.drop outputCursor.toNat
      let res := rule.Execute slot inputModule env
      let output := output.take outputCursor.toNat ++ overwrite slot res.stored
      match res.err with
      | some err => .ok (some err, output)
      | none => rewriteLoop inner input rules (wrapInt (outputCursor + res.n)) output

/-- Go `LSystem.rewrite`. -/
def rewrite (ls : LSystem) (output input : List Module) (rules : List (Option Rule)) :
    Except String (Option String × List Module) :=
  rewriteLoop ls.env input rules 0 output

/-- Go `LSystem.splits`: `(splits, size, rem)`. -/
def splits (ls : LSystem) : Except String (Nat × Nat × Nat) :=
  let l := ls.tier.length
  if ls.subsectionMinimumSize = 0 then .error "integer divide by zero"
  else
    let v := (l / ls.subsectionMinimumSize) % 2 ^ 32
    let splits := if v = 0 then 1 else if v < ls.maxWorkers then v else ls.maxWorkers
    if splits = 0 then .error "integer divide by zero"
    else .ok (splits, l / splits, (l % 2 ^ 32) % splits)

/-- Go `Derivate`, lines 214-253: the `(cursor, thisSize)` of the workers launched by the
remaining iterations of the loop. -/
def sections (size rem : Nat) : Nat → Nat → Nat → List (Nat × Nat)
  | 0, _, _ => []
  | remaining + 1, i, cursor =>
    let thisSize := if i < rem then size + 1 else size
    (cursor, thisSize) :: sections size rem remaining (i + 1) (cursor + thisSize)

/-- What the first half of the workers has produced: the shared `rules` slice, the
generator, and `sectionOutputSizes`. -/
structure SizingState where
  rules : List (Option Rule)
  rng : Rand
  sectionOutputSizes : List Int

/-- Go `Derivate`, lines 223-236: one worker up to its first `wg.Done()`. -/
def sizeSection (ls : LSystem) (sec : Nat × Nat) (st : SizingState) :
    Except String SizingState :=
  let (cursor, thisSize) := sec
  if ls.tier.length < cursor + thisSize then .error "slice bounds out of range"
  else
    let inputSlice := (ls.tier.drop cursor).take thisSize
    let sectionRules := (st.rules.drop cursor).take thisSize
    match calculateRules ls st.rng sectionRules inputSlice with
    | .error e => .error e
    | .ok (sectionRules, rng) =>
      .ok { rules := st.rules.take cursor ++ sectionRules ++ st.rules.drop (cursor + thisSize)
            rng := rng
            sectionOutputSizes := st.sectionOutputSizes ++ [calculateOutputSize sectionRules] }

/-- Go `Derivate`, the first half of all workers, in partition order. -/
def sizeSections (ls : LSystem) : List (Nat × Nat) → SizingState → Except String SizingState
  | [], st => .ok st
  | sec :: rest, st =>
    match sizeSection ls sec st with
    | .error e => .error e
    | .ok st => sizeSections ls rest st

/-- Go `Derivate`, lines 269-273: the `(cursor, length)` of the output slice
`output[cursor : cursor + sectionOutputSizes[i]]` handed to each worker. -/
def outputSections (outputSize : Nat) : List Int → Int → Except String (List (Nat × Nat))
  | [], _ => .ok []
  | s :: rest, cursor =>
    let high := wrapInt (cursor + s)
    if cursor < 0 ∨ high < cursor ∨ (outputSize : Int) < high then
      .error "slice bounds out of range"
    else
      match outputSections outputSize rest high with
      | .error e => .error e
      | .ok secs => .ok ((cursor.toNat, (high - cursor).toNat) :: secs)

/-- Go `Derivate`, lines 239-248: the second half of the workers, in partition order, on the
shared `output`. -/
def rewriteSections (ls : LSystem) (rules : List (Option Rule)) :
    List (Nat × Nat) → List (Nat × Nat) → List Module → Except String (List Module)
  | (cursor, thisSize) :: ins, (outCursor, outSize) :: outs, output =>
    let inputSlice := (ls.tier.drop cursor).take thisSize
    let sectionRules := (rules.drop cursor).take thisSize
    let outputSlice := (output.drop outCursor).take outSize
    match rewrite ls outputSlice inputSlice sectionRules with
    | .error e => .error e
    | .ok (some _, _) => .error "Error in rewriting"
    | .ok (none, outputSlice) =>
      rewriteSections ls rules ins outs
        (output.take outCursor ++ outputSlice ++ output.drop (outCursor + outSize))
  | _, _, output => .ok output

/-- Go `(*LSystem).Derivate`: the returned `error` and the L-system after the call, when
the workers run their first half in partition order (`DerivateIn` is the call for any
order). -/
def Derivate (_ctx : Context) (ls : LSystem) : Except String (Option String × LSystem) :=
  match splits ls with
  | .error e => .error e
  | .ok (splits, size, rem) =>
    let secs := sections size rem splits 0 0
    match sizeSections ls secs ⟨List.replicate ls.tier.length none, ls.rng, []⟩ with
    | .error e => .error e
    | .ok st =>
      let outputSize := st.sectionOutputSizes.foldl (fun acc s => wrapInt (acc + s)) 0
      if outputSize < 0 then .error "makeslice: len out of range"
      else
        let output := List.replicate outputSize.toNat Module.zero
        match outputSections outputSize.toNat st.sectionOutputSizes 0 with
        | .error e => .error e
        | .ok outs =>
          match rewriteSections ls st.rules secs outs output with
          | .error e => .error e
          | .ok output =>
            .ok (none, { ls with tier := output
                                 currentTier := (ls.currentTier + 1) % 2 ^ 64
                                 rng := st.rng })

/-- Go `Derivate`, lines 223-236: the worker `workerNumber` up to its first `wg.Done()`,
storing its size at its own index of `sectionOutputSizes`. -/
def sizeSectionAt (ls : LSystem) (workerNumber : Nat) (sec : Nat × Nat) (st : SizingState) :
    Except String SizingState :=
  let (cursor, thisSize) := sec
  if ls.tier.length < cursor + thisSize then .error "slice bounds out of range"
  else
    let inputSlice := (ls.tier.drop cursor).take thisSize
    let sectionRules := (st.rules.drop cursor).take thisSize
    match calculateRules ls st.rng sectionRules inputSlice with
    | .error e => .error e
    | .ok (sectionRules, rng) =>
      .ok { rules := st.rules.take cursor ++ sectionRules ++ st.rules.drop (cursor + thisSize)
            rng := rng
            sectionOutputSizes :=
              st.sectionOutputSizes.set workerNumber (calculateOutputSize sectionRules) }

/-- Go `Derivate`, the first half of the workers, run one after the other in the order
`schedule` of their numbers: the order in which the scheduler lets the goroutines run
is not fixed by the program. -/
def sizeSectionsIn (ls : LSystem) (secs : List (Nat × Nat)) :
    List Nat → SizingState → Except String SizingState
  | [], st => .ok st
  | workerNumber :: schedule, st =>
    match secs.get? workerNumber with
    | none => sizeSectionsIn ls secs schedule st
    | some sec =>
      match sizeSectionAt ls workerNumber sec st with
      | .error e => .error e
      | .ok st => sizeSectionsIn ls secs schedule st

/-- Go `(*LSystem).Derivate` when the first half of the workers runs in the order
`schedule`; `Derivate` is the case of the partition order. -/
def DerivateIn (schedule : List Nat) (_ctx : Context) (ls : LSystem) :
    Except String (Option String × LSystem) :=
  match splits ls with
  | .error e => .error e
  | .ok (splits, size, rem) =>
    let secs := sections size rem splits 0 0
    match sizeSectionsIn ls secs schedule
        ⟨List.replicate ls.tier.length none, ls.rng, List.replicate splits 0⟩ with
    | .error e => .error e
    | .ok st =>
      let outputSize := st.sectionOutputSizes.foldl (fun acc s => wrapInt (acc + s)) 0
      if outputSize < 0 then .error "makeslice: len out of range"
      else
        let output := List.replicate outputSize.toNat Module.zero
        match outputSections outputSize.toNat st.sectionOutputSizes 0 with
        | .error e => .error e
        | .ok outs =>
          match rewriteSections ls st.rules secs outs output with
          | .error e => .error e
          | .ok output =>
            .ok (none, { ls with tier := output
                                 currentTier := (ls.currentTier + 1) % 2 ^ 64
                                 rng := st.rng })

/-- Go `(*LSystem).DerivateUntil`; `none` when `fuel` iterations did not end the loop. -/
def DerivateUntil (ctx : Context) (maxTiers : Nat) :
    Nat → LSystem → Option (Except String (Option String × LSystem))
  | 0, _ => none
  | fuel + 1, ls =>
    if ls.currentTier ≤ maxTiers then
      match Derivate ctx ls with
      | .error e => some (.error e)
      | .ok (some err, ls) => some (.ok (some err, ls))
      | .ok (none, ls) => DerivateUntil ctx maxTiers fuel ls
    else some (.ok (none, ls))

/-- Go `LSystem.Export`. -/
def LSystem.Export (ls : LSystem) : List Module := ls.tier

/-- Go `LSystem.CurrentTier`. -/
def LSystem.CurrentTier (ls : LSystem) : Nat := ls.currentTier

/-! ## interchange/rules/rule.go -/

/-- Go `type GeneralRule struct`. -/
structure GeneralRule where
  On : Letter
  WithLeft : List Letter
  WithRight : List Letter
  Do : List Module → Module → wrappedEnvironment → ExecResult
  Size : Int
  OneMinusProbability : F64

/-- Indexing `xs[i]` with a Go `int`: `none` is the out-of-range panic. -/
def index? {α : Type} (xs : List α) (i : Int) : Option α :=
  if i < 0 then none else xs.get? i.toNat

/-- Go `GeneralRule.ContextSensitive`. -/
def GeneralRule.ContextSensitive (r : GeneralRule) : Bool :=
  decide (0 < r.WithLeft.length) || decide (0 < r.WithRight.length)

/-- Go `GeneralRule.Priority`. -/
def GeneralRule.Priority (r : GeneralRule) : Int :=
  if r.ContextSensitive then 1 else 0

/-- Go `GeneralRule.Matches`, lines 52-56, from index `i` on: `some false` when the loop
returns false, `some true` when it runs to its end, `none` when it panics. -/
def GeneralRule.leftLoop (r : GeneralRule) (left : List Module) : Nat → Int → Option Bool
  | 0, _ => some true
  | remaining + 1, i =>
    match index? left ((left.length : Int) - 1 - i),
          index? r.WithLeft ((r.WithLeft.length : Int) - 1 - i) with
    | some m, some l =>
      if m.Letter ≠ l then some false else GeneralRule.leftLoop r left remaining (i + 1)
    | _, _ => none

/-- Go `GeneralRule.Matches`, lines 59-63, from index `i` on. -/
def GeneralRule.rightLoop (r : GeneralRule) (left : List Module) : Nat → Int → Option Bool
  | 0, _ => some true
  | remaining + 1, i =>
    match index? left i, index? r.WithLeft i with
    | some m, some l =>
      if m.Letter ≠ l then some false else GeneralRule.rightLoop r left remaining (i + 1)
    | _, _ => none

/-- Go `GeneralRule.Matches`; `none` when an index is out of range. -/
def GeneralRule.Matches (r : GeneralRule) (predecessor : Module) (left right : List Module) :
    Option Bool :=
  if predecessor.Letter ≠ r.On then some false
  else if !r.ContextSensitive then some true
  else if left.length < r.WithLeft.length ∨ right.length < r.WithRight.length then some false
  else
    match r.leftLoop left r.WithLeft.length 0 with
    | none => none
    | some false => some false
    | some true =>
      match r.rightLoop left r.WithRight.length 0 with
      | none => none
      | some false => some false
      | some true => some true

/-- Go `GeneralRule.Probability`. -/
def GeneralRule.Probability (r : GeneralRule) : F64 :=
  F64.sub (F64.fin 1) r.OneMinusProbability

/-- Go `GeneralRule.Execute`. -/
def GeneralRule.Execute (r : GeneralRule) (output : List Module) (predecessor : Module)
    (env : wrappedEnvironment) : ExecResult :=
  r.Do output predecessor env

/-- Go `GeneralRule.OutputSize`. -/
def GeneralRule.OutputSize (r : GeneralRule) : Int := r.Size

/-- A `*GeneralRule` as a `gemolsyr.Rule`. -/
def GeneralRule.toRule (r : GeneralRule) : Rule :=
  { Priority := r.Priority
    Matches := r.Matches
    Probability := r.Probability
    Execute := r.Execute
    OutputSize := r.OutputSize }

/-- Go `NewRule`. -/
def NewRule (onLetter : Letter) (exec : List Module → Module → wrappedEnvironment → ExecResult)
    (size : Int) (left right : List Letter) (probability : F64) : GeneralRule :=
  { On := onLetter
    Do := exec
    Size := size
    WithLeft := left
    WithRight := right
    OneMinusProbability := F64.sub (F64.fin 1) probability }

/-- Go `NewRuleNonParametric`: the execution function is `copy(output, rewrite)`. -/
def NewRuleNonParametric (onLetter : Letter) (rewriteTo : List Module) (left right : List Letter)
    (probability : F64) : GeneralRule :=
  let f := fun (output : List Module) (_ : Module) (_ : wrappedEnvironment) =>
    ({ stored := rewriteTo.take output.length
       n := min output.length rewriteTo.length
       err := none } : ExecResult)
  NewRule onLetter f rewriteTo.length left right probability

/-- Go `NewRuleClassic`. -/
def NewRuleClassic (onLetter : Letter) (rewriteTo : List Module) : GeneralRule :=
  NewRuleNonParametric onLetter rewriteTo [] [] (F64.fin 1)

/-- Go `NewRuleStochastic`. -/
def NewRuleStochastic (onLetter : Letter) (rewriteTo : List Module) (probability : F64) :
    GeneralRule :=
  NewRuleNonParametric onLetter rewriteTo [] [] probability

/-- Go `NewRuleContextSensitive`. -/
def NewRuleContextSensitive (onLetter : Letter) (rewriteTo : List Module) (left right : List Letter) :
    GeneralRule :=
  NewRuleNonParametric onLetter rewriteTo left right (F64.fin 1)

/-! ## interchange/lsif/expressions.go

The two libraries that `parseExpression` calls, `strconv` and `govaluate`, are parameters
of the embedding: a library function that returns a value and an error is a function to
a pair. -/

/-- A Go `interface{}` value as far as `parseExpression` looks at it: `nil`, a `float64`,
or a value of another type. -/
inductive Value where
  | nil
  | float64 (x : F64)
  | other

/-- Go `type expressionFunction`: the float returned; a panic is the error outcome. -/
abbrev expressionFunction := Environment → Except String F64

/-- Go `type wrappedVariablesForExpression struct`. -/
structure wrappedVariablesForExpression where
  Environment : Environment

/-- Go `wrappedVariablesForExpression.Get`. The selector `wvfp.Get` in its body is this
method, which is declared on the struct, and not the `Get` of the embedded environment:
the call nests until the stack, with room for `stack` frames, is used up, and that ends
the program. -/
def wrappedVariablesForExpression.Get (wvfp : wrappedVariablesForExpression) :
    Nat → String → Except String (Value × Option String)
  | 0, _ => .error "stack overflow"
  | stack + 1, name =>
    match wrappedVariablesForExpression.Get wvfp stack name with
    | .error e => .error e
    | .ok (val, err) =>
      match err with
      | some _ => .ok (Value.nil, some ("Couldn't find " ++ name))
      | none => .ok (val, none)

/-- Go `*govaluate.EvaluableExpression`: its method `Eval`, which is handed the `Get` of the
parameters and returns a value and an error, unless it panics. -/
structure EvaluableExpression where
  Eval : (String → Except String (Value × Option String)) →
    Except String (Value × Option String)

/-- Go `parseExpression`: the function returned, `none` for `nil`, and the error.
`ParseFloat` stands for `strconv.ParseFloat(asString, 64)`, `NewEvaluableExpression` for
`govaluate.NewEvaluableExpression`, and `stack` is the room on the stack. -/
def parseExpression (ParseFloat : String → F64 × Option String)
    (NewEvaluableExpression : String → Option EvaluableExpression × Option String)
    (stack : Nat) (asString : String) : Option expressionFunction × Option String :=
  let (scalar, err) := ParseFloat asString
  -- line 26: `err != nil`
  if err ≠ none then
    (some (fun _ => .ok scalar), none)
  else
    let (evaluable, err) := NewEvaluableExpression asString
    match err with
    | some err => (none, some ("Error while parsing expression: " ++ err))
    | none =>
      (some (fun variablesForExpression =>
        let wrapped : wrappedVariablesForExpression := ⟨variablesForExpression⟩
        match evaluable with
        | none => .error "invalid memory address or nil pointer dereference"
        | some evaluable =>
          match evaluable.Eval (wrapped.Get stack) with
          | .error e => .error e
          | .ok (_, some err) => .error ("Error while evaluating " ++ err)
          | .ok (resAsInterface, none) =>
            match resAsInterface with
            | Value.float64 resAsFloat => .ok resAsFloat
            | _ => .error "Failure while casting"), none)

/-! ## cmd/gemolsyr/main.go

The goroutines of the pipeline talk over channels. `resolve` is a loop around
`reflect.Select`: the model runs it on the list of what the successive calls of `Select`
return, any list being possible as far as `resolve` can tell. A send on the output channel
appends to the list of what was sent. The counter `seq` counts orders and is kept exact. -/

/-- Go `type order struct`. -/
structure order where
  ls : LSystem
  seq : Int

/-- Go `sequence`, the loop from the current `seq` on: the orders sent on `orderInQueue` for
the L-systems received. -/
def sequenceFrom : List LSystem → Int → List order
  | [], _ => []
  | ls :: rest, seq => ⟨ls, seq⟩ :: sequenceFrom rest (seq + 1)

/-- Go `sequence`. -/
def sequence (input : List LSystem) : List order := sequenceFrom input 0

/-- Go `run`, one iteration on the order `o`: the order sent on `orderOutQueue`. A panic of
`DerivateUntil` is an error; `none` is a call that `fuel` iterations do not end. -/
def run (fuel : Nat) (o : order) : Option (Except String order) :=
  match DerivateUntil ⟨false⟩ 15 fuel o.ls with
  | none => none
  | some (.error e) => some (.error e)
  | some (.ok (_, ls)) => some (.ok { o with ls := ls })

/-- Go `resolve`, its variables: `seq`, `buffer`, `mask`, `subSelectCaseToOrderQueueIndex`
(`subSelectCases` runs parallel to it), and `sent`, the orders whose `ls` was sent on
`gemolsyrOutQueue`, oldest first. -/
structure Resolver where
  seq : Int
  buffer : List (Option order)
  mask : List Bool
  subSelectCaseToOrderQueueIndex : List Nat
  sent : List order

/-- What a call of `reflect.Select` returns: `chosen`, and the order received, `none` when
the channel is closed (`ok` false). -/
structure Selected where
  chosen : Nat
  recv : Option order

/-- Where a run of `resolve` stands: waiting in `reflect.Select`, returned after closing
`gemolsyrOutQueue`, stopped by a panic, or inside calls of `checkBuffer` nested deeper
than the model follows. -/
inductive ResolveStatus
  | selecting
  | returned
  | panicked (msg : String)
  | nesting
deriving DecidableEq

/-- Go `checkBuffer`, the loop `for i, buffered := range buffer` from index `i` on, with
`remaining` iterations to go; `again` is the recursive call. -/
def checkBufferLoop (again : Resolver → Option Resolver) : Nat → Nat → Resolver → Option Resolver
  | 0, _, st => some st
  | remaining + 1, i, st =>
    match st.buffer.get? i with
    | some (some buffered) =>
      if buffered.seq = st.seq + 1 then
        match again { st with sent := st.sent ++ [buffered]
                              seq := st.seq + 1
                              buffer := st.buffer.set i none } with
        | none => none
        | some st => checkBufferLoop again remaining (i + 1) st
      else checkBufferLoop again remaining (i + 1) st
    | _ => checkBufferLoop again remaining (i + 1) st

/-- Go `checkBuffer`; `none` when the calls nest deeper than `depth`. -/
def checkBuffer : Nat → Resolver → Option Resolver
  | 0, _ => none
  | depth + 1, st => checkBufferLoop (checkBuffer depth) st.buffer.length 0 st

/-- Go `resolve`, lines 186-193: the queue indices appended to
`subSelectCaseToOrderQueueIndex`. -/
def subSelect (st : Resolver) : List Nat :=
  (List.range st.buffer.length).filter
    (fun i =>
      match st.buffer.get? i, st.mask.get? i with
      | some none, some false => true
      | _, _ => false)

/-- Go `resolve`, lines 203-232: the rest of an iteration, from what `reflect.Select`
returned. `Sum.inl` ends the run, `Sum.inr` is the state at the next iteration. -/
def resolveSelected (st : Resolver) (ev : Selected) : ResolveStatus × Resolver ⊕ Resolver :=
  match ev.recv with
  | none =>
    match st.subSelectCaseToOrderQueueIndex.get? ev.chosen with
    | none => .inl (.panicked "index out of range", st)
    | some orderQueueIndex =>
      let st := { st with mask := st.mask.set orderQueueIndex true }
      match checkBuffer (st.buffer.length + 1) st with
      | none => .inl (.nesting, st)
      -- `continue`: the two slices are not resliced
      | some st => .inr st
  | some o =>
    if o.seq = st.seq + 1 then
      let st := { st with sent := st.sent ++ [o], seq := st.seq + 1 }
      match checkBuffer (st.buffer.length + 1) st with
      | none => .inl (.nesting, st)
      | some st => .inr { st with subSelectCaseToOrderQueueIndex := [] }
    else
      match st.subSelectCaseToOrderQueueIndex.get? ev.chosen with
      | none => .inl (.panicked "index out of range", st)
      | some orderQueueIndexForRecv =>
        .inr { st with buffer := st.buffer.set orderQueueIndexForRecv (some o)
                       subSelectCaseToOrderQueueIndex := [] }

/-- Go `resolve`, the loop `for` of lines 170-233, run on what the successive calls of
`reflect.Select` return. -/
def resolveLoop : List Selected → Resolver → ResolveStatus × Resolver
  | events, st =>
    let allMasked := st.mask.any (fun masked => masked)
    if allMasked then
      match checkBuffer (st.buffer.length + 1) st with
      | none => (.nesting, st)
      | some st => (.returned, st)
    else
      let st := { st with subSelectCaseToOrderQueueIndex :=
                            st.subSelectCaseToOrderQueueIndex ++ subSelect st }
      if st.subSelectCaseToOrderQueueIndex.length = 0 then
        (.panicked "No cases produced, are the sequence number really incremental ?", st)
      else
        match events with
        | [] => (.selecting, st)
        | ev :: rest =>
          match resolveSelected st ev with
          | .inl done => done
          | .inr st => resolveLoop rest st

/-- Go `resolve` on `queues` order queues. -/
def resolve (queues : Nat) (events : List Selected) : ResolveStatus × Resolver :=
  resolveLoop events
    { seq := -1
      buffer := List.replicate queues none
      mask := List.replicate queues false
      subSelectCaseToOrderQueueIndex := []
      sent := [] }

/-! ## Vocabulary of the properties

Definitions used to state the properties; they are not part of the program. -/

/-- The rules array after the first half of `Derivate`: the rule selected at each position
of the tier, `none` where no rule was selected. -/
def selectedRules (ls : LSystem) : Except String (List (Option Rule)) :=
  match splits ls with
  | .error e => .error e
  | .ok (splits, size, rem) =>
    match sizeSections ls (sections size rem splits 0 0)
        ⟨List.replicate ls.tier.length none, ls.rng, []⟩ with
    | .error e => .error e
    | .ok st => .ok st.rules

/-- The rules array after the first half of `Derivate` when the workers run it in the order
`schedule`. -/
def selectedRulesIn (schedule : List Nat) (ls : LSystem) : Except String (List (Option Rule)) :=
  match splits ls with
  | .error e => .error e
  | .ok (splits, size, rem) =>
    match sizeSectionsIn ls (sections size rem splits 0 0) schedule
        ⟨List.replicate ls.tier.length none, ls.rng, List.replicate splits 0⟩ with
    | .error e => .error e
    | .ok st => .ok st.rules

/-- The modules a rule stores when executed on a fresh slot of exactly its output size. -/
def Rule.produced (r : Rule) (m : Module) (env : wrappedEnvironment) : List Module :=
  (r.Execute (List.replicate r.OutputSize.toNat Module.zero) m env).stored

/-- The rule's `Execute` writes exactly `OutputSize()` modules into the slot it is given:
whatever the slot, as long as it is large enough, the call stores the same `OutputSize()`
modules, returns their number and no error. -/
def Rule.WritesExactly (r : Rule) : Prop :=
  (∀ m env, ((r.produced m env).length : Int) = r.OutputSize) ∧
  ∀ slot m env, r.OutputSize ≤ (slot.length : Int) →
    r.Execute slot m env = ⟨r.produced m env, r.OutputSize, none⟩

/-- What position `m` of the tier contributes to the next tier under the rule selected for
it. -/
def contribution (inner : Option Environment) (m : Module) : Option Rule → List Module
  | none => []
  | some r => r.produced m { wrapEnvironment inner with prev := m.Parameters }

/-- The contributions of all positions, in input order. -/
def contributions (inner : Option Environment) (tier : List Module)
    (rules : List (Option Rule)) : List (List Module) :=
  List.zipWith (contribution inner) tier rules

/-- Value of `OutputSize()` for the rule selected at a position, `0` when there is none. -/
def outputSizeAt : Option Rule → Int
  | none => 0
  | some r => r.OutputSize

/-- The part of a slice that a worker sees: `xs[cursor : cursor+size]`. -/
def sectionOf {α : Type} (xs : List α) (sec : Nat × Nat) : List α :=
  (xs.drop sec.1).take sec.2

/-- The sections follow one another without gap, the first starting at `c`. -/
def Contiguous : List (Nat × Nat) → Nat → Prop
  | [], _ => True
  | sec :: rest, c => sec.1 = c ∧ Contiguous rest (c + sec.2)

/-- Where a run of contiguous sections starting at `c` ends. -/
def sectionsEnd (secs : List (Nat × Nat)) (c : Nat) : Nat :=
  c + (secs.map (fun sec => sec.2)).sum

/-- Offsets and lengths of the output slices for the given section sizes, from offset
`o` on. -/
def layout : List Int → Nat → List (Nat × Nat)
  | [], _ => []
  | s :: rest, o => (o, s.toNat) :: layout rest (o + s.toNat)

/-- The sections all lie inside a list of length `n`. -/
def InBounds (secs : List (Nat × Nat)) (n : Nat) : Prop :=
  ∀ sec ∈ secs, sec.1 + sec.2 ≤ n

/-- Size a section reports for the rules finally stored in it. -/
def sectionSize (rules : List (Option Rule)) (sec : Nat × Nat) : Int :=
  calculateOutputSize (sectionOf rules sec)

/-- The modules a section contributes: those of its positions, in order. -/
def sectionOutput (ls : LSystem) (rules : List (Option Rule)) (sec : Nat × Nat) :
    List Module :=
  (contributions ls.env (sectionOf ls.tier sec) (sectionOf rules sec)).flatten

/-- The rules that match at index `i` of `input`, as `calculateRules` collects them. -/
def matchingAt (Rules : List Rule) (input : List Module) (i : Nat) (mod : Module) :
    Except String (List Rule) :=
  collectMatching mod (input.take i) (input.drop (i + 1)) Rules []

/-- The outcome of `n` calls of `Derivate` in a row, stopping at the first one that panics
or returns an error. -/
def iterateDerivate (ctx : Context) : Nat → LSystem → Except String (Option String × LSystem)
  | 0, ls => .ok (none, ls)
  | n + 1, ls =>
    match Derivate ctx ls with
    | .error e => .error e
    | .ok (some err, ls) => .ok (some err, ls)
    | .ok (none, ls) => iterateDerivate ctx n ls

/-- The smallest positive float64, `2 ^ (-1074)`. -/
def F64.tiny : ℚ := (2 : ℚ) ^ (-1074 : ℤ)

/-- The rules left after the priority filter of `calculateRules`, lines 71-98. -/
def survivorsOf (matching : List Rule) : List Rule :=
  if 1 < matching.length then priorityFilter matching else matching

/-- The running sums `cum` of `calculateRules`, lines 118-120, one per rule. -/
def runningSums (scalingFactor : F64) : F64 → List Rule → List F64
  | _, [] => []
  | cum, r :: rest =>
    F64.add cum (F64.mul scalingFactor r.Probability) ::
      runningSums scalingFactor (F64.add cum (F64.mul scalingFactor r.Probability)) rest

/-- The first rule of `sorted` whose running sum strictly exceeds `u`, if there is one. -/
def firstExceeding (scalingFactor u : F64) (sorted : List Rule) : Option Rule :=
  ((sorted.zip (runningSums scalingFactor (F64.fin 0) sorted)).find?
    (fun p => F64.lt u p.2)).map Prod.fst

/-- The running sums `cum` of `calculateRules` in a build that fuses line 119. -/
def runningSumsFused (scalingFactor : F64) : F64 → List Rule → List F64
  | _, [] => []
  | cum, r :: rest =>
    F64.fma scalingFactor r.Probability cum ::
      runningSumsFused scalingFactor (F64.fma scalingFactor r.Probability cum) rest

/-- The first rule of `sorted` whose fused running sum strictly exceeds `u`, if there is
one. -/
def firstExceedingFused (scalingFactor u : F64) (sorted : List Rule) : Option Rule :=
  ((sorted.zip (runningSumsFused scalingFactor (F64.fin 0) sorted)).find?
    (fun p => F64.lt u p.2)).map Prod.fst

/-- Ascending order of probability: no rule is followed by one of smaller probability. -/
def AscendingProbability (rules : List Rule) : Prop :=
  rules.Pairwise (fun a b => F64.lt b.Probability a.Probability = false)

/-- The `error` a call of `Derivate` returned to its caller; `none` when it returned `nil`,
and when it did not return at all. -/
def returnedError : Except String (Option String × LSystem) → Option String
  | .ok (e, _) => e
  | .error _ => none

/-- The text is an integer in decimal notation: an optional sign followed by at least one
decimal digit. -/
def isIntegerText : List Char → Bool
  | '-' :: rest => !rest.isEmpty && rest.all Char.isDigit
  | '+' :: rest => !rest.isEmpty && rest.all Char.isDigit
  | s => !s.isEmpty && s.all Char.isDigit

/-- The rendering of a module as the specification words it: the letter alone when there
is no parameter, else the letter, `(`, the formatted parameters in order with `, ` between
any two of them, and `)`. -/
def rendering (FormatFloat : F64 → String) (m : Module) : String :=
  match m.Parameters with
  | [] => String.singleton m.Letter
  | params =>
    String.singleton m.Letter ++ "(" ++ ", ".intercalate (params.map FormatFloat) ++ ")"

/-! ## Example grammars -/

/-- A random source that always hands out zero. -/
def zeroSource : Int → Nat → F64 := fun _ _ => F64.fin 0

/-- The rule `V -> X`. -/
def ruleVX : GeneralRule := NewRuleClassic 'V' [⟨'X', []⟩]

/-- The rule `A < V -> Y`. -/
def ruleAVY : GeneralRule := NewRuleContextSensitive 'V' [⟨'Y', []⟩] ['A'] []

/-- A grammar with the single rule `V -> X`, axiom `[A, V]`. -/
def classicGrammar : Parameters :=
  { Axiom := [⟨'A', []⟩, ⟨'V', []⟩]
    Constants := []
    Variables := []
    Rules := [ruleVX.toRule]
    Seed := 0 }

/-- A grammar with the single rule `A < V -> Y` and a tier of 128 modules whose modules
63 and 64 are `A` and `V`, all others `B`. -/
def boundaryGrammar : Parameters :=
  { Axiom := List.replicate 63 ⟨'B', []⟩ ++ [⟨'A', []⟩, ⟨'V', []⟩] ++ List.replicate 63 ⟨'B', []⟩
    Constants := []
    Variables := []
    Rules := [ruleAVY.toRule]
    Seed := 0 }

/-- The tier of an outcome of `Derivate`, `none` for a panic. -/
def tierOf : Except String (Option String × LSystem) → Option (List Module)
  | .ok p => some p.2.tier
  | .error _ => none

/-- Which positions of an outcome of the selection hold a rule, `none` for a panic. -/
def selectedAt : Except String (List (Option Rule)) → Option (List Bool)
  | .ok rules => some (rules.map Option.isSome)
  | .error _ => none

/-- A rule on `V` with the given priority, rewriting to the single module `out`. -/
def priorityRule (priority : Int) (out : Letter) : Rule :=
  { Priority := priority
    Matches := fun m _ _ => some (decide (m.Letter = 'V'))
    Probability := F64.fin 1
    Execute := fun _ _ _ => ⟨[⟨out, []⟩], 1, none⟩
    OutputSize := 1 }

/-- Axiom `[V]` and two rules on `V`: priority `-1` rewriting to `X`, priority `-2`
rewriting to `Y`. -/
def negativePriorityGrammar : Parameters :=
  { Axiom := [⟨'V', []⟩]
    Constants := []
    Variables := []
    Rules := [priorityRule (-1) 'X', priorityRule (-2) 'Y']
    Seed := 0 }

/-- The rule `A < V > B -> Y`. -/
def ruleAVBY : GeneralRule := NewRuleContextSensitive 'V' [⟨'Y', []⟩] ['A'] ['B']

/-- The rule `V > B -> Y`, with a right context only. -/
def ruleVBY : GeneralRule := NewRuleContextSensitive 'V' [⟨'Y', []⟩] [] ['B']

/-- The grammar with an empty axiom and no rule. -/
def emptyGrammar : Parameters :=
  { Axiom := []
    Constants := []
    Variables := []
    Rules := []
    Seed := 0 }

/-- Go `testRule` of `gemolsyr_test.go`: matches `V`, writes `[V(1), V(1)]`. -/
def testRule : Rule :=
  { Priority := 1
    Matches := fun predecessor _ _ => some (decide (predecessor.Letter = 'V'))
    Probability := F64.fin 1
    Execute := fun _ _ _ => ⟨[⟨'V', [F64.fin 1]⟩, ⟨'V', [F64.fin 1]⟩], 2, none⟩
    OutputSize := 2 }

/-- Go `TestParameters` of `gemolsyr_test.go`. -/
def TestParameters : Parameters :=
  { Axiom := [⟨'V', [F64.fin 1]⟩]
    Constants := ['C']
    Variables := ['V']
    Rules := [testRule]
    Seed := 0 }

/-- A rule on `V` of priority `0` with the given probability, rewriting to the single
module `out`. -/
def weightRule (probability : F64) (out : Letter) : Rule :=
  { Priority := 0
    Matches := fun m _ _ => some (decide (m.Letter = 'V'))
    Probability := probability
    Execute := fun _ _ _ => ⟨[⟨out, []⟩], 1, none⟩
    OutputSize := 1 }

/-- The float64 nearest to `0.3`. -/
def threeTenths : F64 := F64.fin (5404319552844595 / 18014398509481984)

/-- The largest float64 below `1`, `1 - 2 ^ (-53)`; `Float64()` can return it. -/
def belowOne : F64 := F64.fin (9007199254740991 / 9007199254740992)

/-- Axiom `[V]` and two rules on `V` of probabilities `0.3` and `1`. -/
def weightedGrammar : Parameters :=
  { Axiom := [⟨'V', []⟩]
    Constants := []
    Variables := []
    Rules := [weightRule threeTenths 'X', weightRule (F64.fin 1) 'Y']
    Seed := 0 }

/-- A random source whose every number is `1 - 2 ^ (-53)`. -/
def belowOneSource : Int → Nat → F64 := fun _ _ => belowOne

/-- Axiom `[V]` and two rules on `V`, both of probability `0`. -/
def zeroWeightGrammar : Parameters :=
  { Axiom := [⟨'V', []⟩]
    Constants := []
    Variables := []
    Rules := [weightRule (F64.fin 0) 'X', weightRule (F64.fin 0) 'Y']
    Seed := 0 }

/-- A rule on `V` whose `Execute` stores nothing and returns an error. -/
def failingRule : Rule :=
  { Priority := 0
    Matches := fun m _ _ => some (decide (m.Letter = 'V'))
    Probability := F64.fin 1
    Execute := fun _ _ _ => ⟨[], 0, some "no value for the parameter"⟩
    OutputSize := 1 }

/-- Axiom `[V]` and the single rule `failingRule`. -/
def failingGrammar : Parameters :=
  { Axiom := [⟨'V', []⟩]
    Constants := []
    Variables := []
    Rules := [failingRule]
    Seed := 0 }

/-- What a call of `DerivateUntil` left behind, when it returned: the returned `error`,
the tier and the tier counter. -/
def outcomeOf : Option (Except String (Option String × LSystem)) →
    Option (Option String × List Module × Nat)
  | some (.ok (e, ls)) => some (e, ls.tier, ls.currentTier)
  | _ => none

/-- The module `V(1)` of the tests. -/
def V1 : Module := ⟨'V', [F64.fin 1]⟩

/-- The doubling grammar of the tests with an axiom of `n` modules `V(1)`. -/
def longParameters (n : Nat) : Parameters :=
  { TestParameters with Axiom := List.replicate n V1 }

/-- Go `clamp(x, lo, hi)` of the specification: `x` brought into the range from `lo` to
`hi`. -/
def clamp (x lo hi : Nat) : Nat := min (max x lo) hi

/-- An inner environment in which every name has the value `7`. -/
def sevenEnvironment : Environment := ⟨fun _ => (F64.fin 7, none)⟩

/-- The worker `run` turns the order `o0` into the order `o`. -/
def Processed (o0 o : order) : Prop := ∃ fuel, run fuel o0 = some (.ok o)

/-- What holds of the variables of `resolve` all along: the orders sent carry the sequence
numbers `0, 1, 2, ...` in this order, `seq` is the number of the last one, and every order
sent or buffered satisfies `P`. -/
def ResolverInv (P : order → Prop) (st : Resolver) : Prop :=
  st.sent.map (fun o => o.seq) = (List.range st.sent.length).map Int.ofNat ∧
  st.seq + 1 = st.sent.length ∧
  (∀ o ∈ st.sent, P o) ∧ ∀ o, some o ∈ st.buffer → P o

/-- How many slots of the buffer of `resolve` hold an order. -/
def buffered (st : Resolver) : Nat := st.buffer.countP (fun slot => slot.isSome)

/-- An L-system of the grammar with an empty axiom, as submitted with sequence number
`seq`. -/
def submittedOrder (seq : Int) : order := ⟨New zeroSource 1 emptyGrammar, seq⟩

/-- The order that the worker makes of `submittedOrder seq`: sixteen generations on. -/
def servedOrder (seq : Int) : order :=
  ⟨{ New zeroSource 1 emptyGrammar with currentTier := 16 }, seq⟩

/-- Two queues; the order `1` arrives first, on queue `1`, then the order `0` on queue
`0`. -/
def swappedArrival : List Selected :=
  [⟨1, some (servedOrder 1)⟩, ⟨0, some (servedOrder 0)⟩]

/-- A formatting of floats for the examples: what `strconv.FormatFloat(x, 'f', -1, 64)`
gives for the whole numbers and the values that are no numbers; the shortest decimal of
the other floats is not worked out here, they are shown as a fraction. -/
def formatWhole : F64 → String
  | F64.nan => "NaN"
  | F64.pinf => "+Inf"
  | F64.ninf => "-Inf"
  | F64.fin q =>
    let whole := (if q < 0 then "-" else "") ++ toString q.num.natAbs
    if q.den = 1 then whole else whole ++ "/" ++ toString q.den

/-- A stand-in for `strconv.ParseFloat(s, 64)` that knows the plain decimal numerals: an
optional sign, digits, and an optional point followed by digits, with one digit at least.
The other spellings that the library accepts (exponents, hexadecimal numerals, `inf`,
`nan`) are errors here; it is used on texts that are numerals in no spelling, and on
`1.5`. -/
def decimalParseFloat (s : String) : F64 × Option String :=
  let (neg, rest) := splitSign s.toList
  let isDigit := fun ch => (digitValue ch).isSome
  let whole := rest.takeWhile isDigit
  let (fraction, tail) :=
    match rest.dropWhile isDigit with
    | '.' :: t => (t.takeWhile isDigit, t.dropWhile isDigit)
    | t => ([], t)
  match tail, whole ++ fraction, parseDigits (whole ++ fraction) 0 with
  | [], _ :: _, some n =>
    let q : ℚ := (n : ℚ) / (10 : ℚ) ^ fraction.length
    match F64.round (if neg then -q else q) with
    | F64.fin x => (F64.fin x, none)
    | x => (x, some "strconv.ParseFloat: value out of range")
  | _, _, _ => (F64.fin 0, some "strconv.ParseFloat: invalid syntax")

/-- The float64 `0.5`. -/
def oneHalf : F64 := F64.fin (1 / 2)

/-- A tier of 128 modules, `V` at positions 0 and 64 and `B` elsewhere, and two rules on
`V` of probability `0.5` each, rewriting to `X` and to `Y`. -/
def raceGrammar : Parameters :=
  { Axiom := ⟨'V', []⟩ :: List.replicate 63 ⟨'B', []⟩ ++ ⟨'V', []⟩ :: List.replicate 63 ⟨'B', []⟩
    Constants := []
    Variables := []
    Rules := [weightRule oneHalf 'X', weightRule oneHalf 'Y']
    Seed := 0 }

/-- A random source whose first number is `0` and whose later numbers are `0.75`. -/
def raceSource : Int → Nat → F64 := fun _ n => if n = 0 then F64.fin 0 else F64.fin (3 / 4)

/-- Tier `[V, B]` and the single rule `V > B -> Y`, which has a right context only. -/
def rightContextGrammar : Parameters :=
  { Axiom := [⟨'V', []⟩, ⟨'B', []⟩]
    Constants := []
    Variables := []
    Rules := [ruleVBY.toRule]
    Seed := 0 }

/-- The message of a panic, `none` when the call returned. -/
def panicOf : Except String (Option String × LSystem) → Option String
  | .ok _ => none
  | .error e => some e

/-- The rule `A -> X`. -/
def ruleAX : GeneralRule := NewRuleClassic 'A' [⟨'X', []⟩]

/-- The rule `V -> Y Z`. -/
def ruleVYZ : GeneralRule := NewRuleClassic 'V' [⟨'Y', []⟩, ⟨'Z', []⟩]

/-- A tier of 128 modules, `A` at position 0, `V` at positions 1 and 64 and `B` elsewhere,
with the rules `A -> X` and `V -> Y Z`; two workers cut it into two partitions of 64. -/
def twoPartitionGrammar : Parameters :=
  { Axiom := ⟨'A', []⟩ :: ⟨'V', []⟩ :: List.replicate 62 ⟨'B', []⟩
      ++ ⟨'V', []⟩ :: List.replicate 63 ⟨'B', []⟩
    Constants := []
    Variables := []
    Rules := [ruleAX.toRule, ruleVYZ.toRule]
    Seed := 0 }

/-- The rules selected on `twoPartitionGrammar`. -/
def twoPartitionRules : List (Option Rule) :=
  some ruleAX.toRule :: some ruleVYZ.toRule :: List.replicate 62 none
    ++ some ruleVYZ.toRule :: List.replicate 63 none

/-- A rule on `V` that announces `2 ^ 62` modules and whose `Execute` writes none. -/
def announcingRule : Rule :=
  { Priority := 0
    Matches := fun m _ _ => some (decide (m.Letter = 'V'))
    Probability := F64.fin 1
    Execute := fun _ _ _ => ⟨[], 0, none⟩
    OutputSize := 2 ^ 62 }

/-- Axiom `[V, V, V, V]` and the single rule `announcingRule`. -/
def announcingGrammar : Parameters :=
  { Axiom := [⟨'V', []⟩, ⟨'V', []⟩, ⟨'V', []⟩, ⟨'V', []⟩]
    Constants := []
    Variables := []
    Rules := [announcingRule]
    Seed := 0 }

/-- The float64 nearest to `0.1`. -/
def oneTenth : F64 := F64.fin (3602879701896397 / 36028797018963968)

/-- The float64 nearest to `0.2`. -/
def twoTenths : F64 := F64.fin (3602879701896397 / 18014398509481984)

/-- Three rules on `V` of probabilities `0.1`, `0.2` and `0.3`. -/
def threeWeights : List Rule :=
  [weightRule oneTenth 'X', weightRule twoTenths 'Y', weightRule threeTenths 'Z']

/-! ## Derivate: order and length of the new tier -/

/-- A value that fits an `int` is not changed by the wrap-around. -/
theorem wrapInt_of_range {x : Int} (h0 : -2 ^ 63 ≤ x) (h1 : x < 2 ^ 63) : wrapInt x = x := by
  unfold wrapInt
  omega

theorem wrapInt_range (x : Int) : -2 ^ 63 ≤ wrapInt x ∧ wrapInt x < 2 ^ 63 := by
  unfold wrapInt
  omega

theorem wrapInt_wrapInt_add (a b : Int) : wrapInt (wrapInt a + b) = wrapInt (a + b) := by
  unfold wrapInt
  omega

theorem wrapInt_add_wrapInt (a b : Int) : wrapInt (a + wrapInt b) = wrapInt (a + b) := by
  unfold wrapInt
  omega

/-- Adding up in an `int`, one wrapped addition after the other, gives the exact sum
wrapped once. -/
theorem foldl_wrapInt_eq (xs : List Int) (a : Int) (h0 : -2 ^ 63 ≤ a) (h1 : a < 2 ^ 63) :
    xs.foldl (fun acc s => wrapInt (acc + s)) a = wrapInt (a + xs.sum) := by
  induction xs generalizing a with
  | nil => simp [wrapInt_of_range h0 h1]
  | cons x xs ih =>
    simp only [List.foldl_cons, List.sum_cons]
    rw [ih _ (wrapInt_range _).1 (wrapInt_range _).2, wrapInt_wrapInt_add, add_assoc]

/-- Wrapping the terms of a sum does not change the wrapped sum. -/
theorem wrapInt_sum_map_wrapInt (xs : List Int) :
    wrapInt ((xs.map wrapInt).sum) = wrapInt xs.sum := by
  induction xs with
  | nil => rfl
  | cons x xs ih =>
    simp only [List.map_cons, List.sum_cons]
    rw [wrapInt_wrapInt_add, ← wrapInt_add_wrapInt, ih, wrapInt_add_wrapInt]

/-- The function `calculateOutputSize` returns the sum of the output sizes as an `int`
holds it. -/
theorem calculateOutputSize_eq (rules : List (Option Rule)) :
    calculateOutputSize rules = wrapInt ((rules.map outputSizeAt).sum) := by
  have h : ∀ (rs : List (Option Rule)) (a : Int), -2 ^ 63 ≤ a → a < 2 ^ 63 →
      rs.foldl (fun val r => match r with
        | some r => wrapInt (val + r.OutputSize)
        | none => val) a = wrapInt (a + (rs.map outputSizeAt).sum) := by
    intro rs
    induction rs with
    | nil => intro a h0 h1; simp [wrapInt_of_range h0 h1]
    | cons r rs ih =>
      intro a h0 h1
      cases r with
      | none => simp [ih a h0 h1, outputSizeAt]
      | some r =>
        simp only [List.foldl_cons, List.map_cons, List.sum_cons, outputSizeAt]
        rw [ih _ (wrapInt_range _).1 (wrapInt_range _).2, wrapInt_wrapInt_add, add_assoc]
  simpa [calculateOutputSize] using h rules 0 (by omega) (by omega)

theorem length_overwrite (slot stored : List Module) :
    (overwrite slot stored).length = slot.length := by
  simp [overwrite]
  omega

/-- The function `rewriteLoop` never changes the length of `output`. -/
theorem rewriteLoop_length (inner : Option Environment) (input : List Module) :
    ∀ (rules : List (Option Rule)) (c : Int) (output : List Module)
      (e : Option String) (out : List Module),
      rewriteLoop inner input rules c output = .ok (e, out) → out.length = output.length := by
  induction input with
  | nil =>
    intro rules c output e out h
    simp [rewriteLoop] at h
    rw [← h.2]
  | cons m input ih =>
    intro rules c output e out h
    cases rules with
    | nil => simp [rewriteLoop] at h
    | cons r rules =>
      cases r with
      | none =>
        simp only [rewriteLoop] at h
        exact ih _ _ _ _ _ h
      | some r =>
        simp only [rewriteLoop] at h
        split at h
        · simp at h
        · rename_i hc
          push_neg at hc
          have hlen : (List.take c.toNat output ++
              overwrite (List.drop c.toNat output)
                (r.Execute (List.drop c.toNat output) m
                  { wrapEnvironment inner with prev := m.Parameters }).stored).length
                = output.length := by
            have : c.toNat ≤ output.length := by omega
            simp [length_overwrite]
            omega
          split at h
          · simp at h
            rw [← h.2, hlen]
          · rw [ih _ _ _ _ _ h, hlen]

theorem Rule.WritesExactly.nonneg {r : Rule} (h : r.WritesExactly) : 0 ≤ r.OutputSize := by
  have := h.1 Module.zero (wrapEnvironment none)
  omega

theorem sum_outputSizeAt_nonneg (rules : List (Option Rule))
    (h : ∀ r, some r ∈ rules → r.WritesExactly) : 0 ≤ (rules.map outputSizeAt).sum := by
  induction rules with
  | nil => simp
  | cons r rules ih =>
    have ih' := ih (fun r' hr' => h r' (List.mem_cons_of_mem _ hr'))
    cases r with
    | none => simpa [outputSizeAt] using ih'
    | some r =>
      have := (h r (List.mem_cons_self _ _)).nonneg
      simp [outputSizeAt]
      omega

/-- Under the contract on `Execute`, `rewriteLoop` started at cursor `c` on an output that
has exactly the room the remaining rules need keeps the first `c` modules and fills the
rest with the contributions of the remaining positions, in order. -/
theorem rewriteLoop_spec (inner : Option Environment) (input : List Module) :
    ∀ (rules : List (Option Rule)) (c : Nat) (output : List Module),
      rules.length = input.length →
      (∀ r, some r ∈ rules → r.WritesExactly) →
      (output.length : Int) = c + (rules.map outputSizeAt).sum →
      (output.length : Int) < 2 ^ 63 →
      rewriteLoop inner input rules c output =
        .ok (none, output.take c ++ (contributions inner input rules).flatten) := by
  induction input with
  | nil =>
    intro rules c output hlen _ hout _
    have hr : rules = [] := List.length_eq_zero.mp (by simpa using hlen)
    subst hr
    simp at hout
    have : output.length = c := by omega
    simp [rewriteLoop, contributions, ← this]
  | cons m input ih =>
    intro rules c output hlen hw hout hlt
    cases rules with
    | nil => simp at hlen
    | cons r rules =>
      have hlen' : rules.length = input.length := by simpa using hlen
      have hw' : ∀ r', some r' ∈ rules → r'.WritesExactly :=
        fun r' hr' => hw r' (List.mem_cons_of_mem _ hr')
      cases r with
      | none =>
        simp only [rewriteLoop]
        rw [ih rules c output hlen' hw' (by simpa [outputSizeAt] using hout) hlt]
        simp [contributions, contribution]
      | some r =>
        have hr := hw r (List.mem_cons_self _ _)
        have hnn := hr.nonneg
        have hrest := sum_outputSizeAt_nonneg rules hw'
        simp only [List.map_cons, List.sum_cons, outputSizeAt] at hout
        set env : wrappedEnvironment := { wrapEnvironment inner with prev := m.Parameters }
          with henv
        have hk : ((r.produced m env).length : Int) = r.OutputSize := hr.1 m env
        have hslot : r.OutputSize ≤ ((output.drop c).length : Int) := by
          simp only [List.length_drop]
          omega
        have hex := hr.2 (output.drop c) m env hslot
        simp only [rewriteLoop]
        have hc : ¬ ((c : Int) < 0 ∨ (output.length : Int) < c) := by omega
        rw [if_neg hc]
        simp only [Int.toNat_ofNat, ← henv, hex]
        have hover : overwrite (List.drop c output) (r.produced m env)
            = r.produced m env ++ List.drop (c + (r.produced m env).length) output := by
          unfold overwrite
          rw [List.take_of_length_le (by simp only [List.length_drop]; omega), List.drop_drop]
        rw [hover]
        have hcur : wrapInt ((c : Int) + r.OutputSize)
            = ((c + (r.produced m env).length : Nat) : Int) := by
          rw [wrapInt_of_range (by omega) (by omega)]
          push_cast
          omega
        rw [hcur]
        have hclen : c ≤ output.length := by omega
        rw [ih rules (c + (r.produced m env).length) _ hlen' hw' (by
          simp only [List.length_append, List.length_take, List.length_drop]
          push_cast
          omega) (by
          simp only [List.length_append, List.length_take, List.length_drop]
          push_cast
          omega)]
        have htake : List.take (c + (r.produced m env).length)
            (List.take c output ++ (r.produced m env ++
              List.drop (c + (r.produced m env).length) output))
            = List.take c output ++ r.produced m env := by
          rw [← List.append_assoc]
          apply List.take_left'
          simp [List.length_take, hclen]
        rw [htake]
        simp [contributions, contribution, ← henv]

theorem sections_contiguous (size rem : Nat) :
    ∀ (remaining i cursor : Nat), Contiguous (sections size rem remaining i cursor) cursor := by
  intro remaining
  induction remaining with
  | zero => intro i cursor; simp [sections, Contiguous]
  | succ k ih =>
    intro i cursor
    simp only [sections, Contiguous, true_and]
    exact ih _ _

theorem calculateRulesStep_length {Rules : List Rule} {input : List Module} {i : Nat}
    {mod : Module} {st st' : SelectorState}
    (h : calculateRulesStep Rules input i mod st = .ok st') :
    st'.rules.length = st.rules.length := by
  unfold calculateRulesStep at h
  split at h
  · simp at h
  · simp only [Except.ok.injEq] at h
    rw [← h]
    dsimp only
    split <;> simp

theorem calculateRulesLoop_length {Rules : List Rule} {input : List Module} :
    ∀ (todo : List Module) (i : Nat) (st st' : SelectorState),
      calculateRulesLoop Rules input todo i st = .ok st' →
      st'.rules.length = st.rules.length := by
  intro todo
  induction todo with
  | nil =>
    intro i st st' h
    simp [calculateRulesLoop] at h
    rw [h]
  | cons m todo ih =>
    intro i st st' h
    simp only [calculateRulesLoop] at h
    split at h
    · simp at h
    · rename_i st1 h1
      rw [ih _ _ _ h, calculateRulesStep_length h1]

theorem calculateRules_length {ls : LSystem} {rng rng' : Rand} {rules rules' : List (Option Rule)}
    {input : List Module} (h : calculateRules ls rng rules input = .ok (rules', rng')) :
    rules'.length = rules.length := by
  unfold calculateRules at h
  split at h
  · simp at h
  · rename_i st hst
    simp only [Except.ok.injEq, Prod.mk.injEq] at h
    rw [← h.1]
    exact calculateRulesLoop_length _ _ _ _ hst

theorem take_eq_of_take_eq {α : Type} {xs ys : List α} {a b : Nat} (hab : a ≤ b)
    (h : xs.take b = ys.take b) : xs.take a = ys.take a := by
  have := congrArg (List.take a) h
  simpa [List.take_take, Nat.min_eq_left hab] using this

theorem sectionOf_eq_of_take_eq {α : Type} {xs ys : List α} {sec : Nat × Nat}
    (h : xs.take (sec.1 + sec.2) = ys.take (sec.1 + sec.2)) :
    sectionOf xs sec = sectionOf ys sec := by
  simp only [sectionOf, List.take_drop, h]

theorem outputSections_length (outputSize : Nat) :
    ∀ (sizes : List Int) (c : Int) (outs : List (Nat × Nat)),
      outputSections outputSize sizes c = .ok outs → outs.length = sizes.length := by
  intro sizes
  induction sizes with
  | nil =>
    intro c outs h
    simp only [outputSections, Except.ok.injEq] at h
    subst h
    rfl
  | cons s sizes ih =>
    intro c outs h
    simp only [outputSections] at h
    split at h
    · simp at h
    · split at h
      · simp at h
      · rename_i secs hrec
        simp only [Except.ok.injEq] at h
        subst h
        simp [ih _ _ hrec]

/-- The output slices that `Derivate` hands out lie inside the output. -/
theorem outputSections_inBounds (outputSize : Nat) :
    ∀ (sizes : List Int) (c : Int) (outs : List (Nat × Nat)),
      outputSections outputSize sizes c = .ok outs → InBounds outs outputSize := by
  intro sizes
  induction sizes with
  | nil =>
    intro c outs h
    simp only [outputSections, Except.ok.injEq] at h
    subst h
    intro sec hsec
    simp at hsec
  | cons s sizes ih =>
    intro c outs h
    simp only [outputSections] at h
    split at h
    · simp at h
    · rename_i hb
      push_neg at hb
      obtain ⟨hc0, hhi, hfit⟩ := hb
      split at h
      · simp at h
      · rename_i secs hrec
        simp only [Except.ok.injEq] at h
        subst h
        intro sec hsec
        rcases List.mem_cons.mp hsec with rfl | hsec
        · show c.toNat + (wrapInt (c + s) - c).toNat ≤ outputSize
          omega
        · exact ih _ _ hrec sec hsec

theorem outputSections_of_fits (outputSize : Nat) (hsize : (outputSize : Int) < 2 ^ 63) :
    ∀ (sizes : List Int) (o : Nat),
      (∀ s ∈ sizes, 0 ≤ s) → (o : Int) + sizes.sum ≤ outputSize →
      outputSections outputSize sizes o = .ok (layout sizes o) := by
  intro sizes
  induction sizes with
  | nil => intro o _ _; simp [outputSections, layout]
  | cons s sizes ih =>
    intro o hs hfit
    have hs0 : 0 ≤ s := hs s (List.mem_cons_self _ _)
    have hs' : ∀ x ∈ sizes, 0 ≤ x := fun x hx => hs x (List.mem_cons_of_mem _ hx)
    have hsum : 0 ≤ sizes.sum := List.sum_nonneg hs'
    simp only [List.sum_cons] at hfit
    have hwrap : wrapInt ((o : Int) + s) = (o : Int) + s :=
      wrapInt_of_range (by omega) (by omega)
    have hcast : (o : Int) + s = ((o + s.toNat : Nat) : Int) := by
      push_cast
      omega
    have hsub : (o : Int) + s - o = s := by omega
    simp only [outputSections, hwrap, hsub]
    rw [if_neg (by omega), hcast, ih (o + s.toNat) hs' (by push_cast; omega)]
    simp [layout]

theorem mem_sectionOf {α : Type} {xs : List α} {sec : Nat × Nat} {x : α}
    (h : x ∈ sectionOf xs sec) : x ∈ xs :=
  List.mem_of_mem_drop (List.mem_of_mem_take h)

theorem length_sectionOf {α : Type} {xs : List α} {sec : Nat × Nat}
    (h : sec.1 + sec.2 ≤ xs.length) : (sectionOf xs sec).length = sec.2 := by
  simp only [sectionOf, List.length_take, List.length_drop]
  omega

/-- The second half of the workers never changes the length of the shared output. -/
theorem rewriteSections_length (ls : LSystem) (rules : List (Option Rule)) :
    ∀ (ins outs : List (Nat × Nat)) (output out : List Module),
      InBounds outs output.length →
      rewriteSections ls rules ins outs output = .ok out → out.length = output.length := by
  intro ins
  induction ins with
  | nil =>
    intro outs output out _ h
    simp only [rewriteSections, Except.ok.injEq] at h
    rw [← h]
  | cons sec ins ih =>
    intro outs output out hb h
    cases outs with
    | nil =>
      simp only [rewriteSections, Except.ok.injEq] at h
      rw [← h]
    | cons osec outs =>
      obtain ⟨cursor, thisSize⟩ := sec
      obtain ⟨outCursor, outSize⟩ := osec
      have hb0 : outCursor + outSize ≤ output.length := hb _ (List.mem_cons_self _ _)
      simp only [rewriteSections] at h
      split at h
      · simp at h
      · simp at h
      · rename_i outputSlice hrw
        have hsl := rewriteLoop_length _ _ _ _ _ _ _ hrw
        have hnew : (List.take outCursor output ++ outputSlice ++
            List.drop (outCursor + outSize) output).length = output.length := by
          simp only [List.length_append, List.length_take, List.length_drop, hsl]
          omega
        rw [ih outs _ out (by
          intro x hx
          rw [hnew]
          exact hb x (List.mem_cons_of_mem _ hx)) h, hnew]

/-- Under the contract on `Execute`, the second half of the workers writes, from offset
`o` on, the outputs of the sections one after the other and leaves the rest of the shared
output alone. -/
theorem rewriteSections_spec (ls : LSystem) (rules : List (Option Rule))
    (hrules : rules.length = ls.tier.length)
    (hw : ∀ r, some r ∈ rules → r.WritesExactly) :
    ∀ (ins : List (Nat × Nat)) (o : Nat) (output : List Module),
      InBounds ins ls.tier.length →
      (∀ sec ∈ ins, sectionSize rules sec = ((sectionOf rules sec).map outputSizeAt).sum) →
      (o : Int) + (ins.map (sectionSize rules)).sum ≤ output.length →
      (output.length : Int) < 2 ^ 63 →
      rewriteSections ls rules ins (layout (ins.map (sectionSize rules)) o) output =
        .ok (output.take o ++ (ins.map (sectionOutput ls rules)).flatten ++
          output.drop (o + ((ins.map (sectionSize rules)).sum).toNat)) := by
  intro ins
  induction ins with
  | nil =>
    intro o output _ _ _ _
    simp [rewriteSections, layout]
  | cons sec ins ih =>
    intro o output hb hexact hfit hlt
    obtain ⟨cursor, thisSize⟩ := sec
    have hexact' : ∀ sec ∈ ins,
        sectionSize rules sec = ((sectionOf rules sec).map outputSizeAt).sum :=
      fun x hx => hexact x (List.mem_cons_of_mem _ hx)
    have hb0 : cursor + thisSize ≤ ls.tier.length := hb (cursor, thisSize) (List.mem_cons_self _ _)
    have hb' : InBounds ins ls.tier.length := fun x hx => hb x (List.mem_cons_of_mem _ hx)
    have hwsec : ∀ r, some r ∈ sectionOf rules (cursor, thisSize) → r.WritesExactly :=
      fun r hr => hw r (mem_sectionOf hr)
    have hsz : sectionSize rules (cursor, thisSize)
        = ((sectionOf rules (cursor, thisSize)).map outputSizeAt).sum :=
      hexact _ (List.mem_cons_self _ _)
    have hs0 : 0 ≤ sectionSize rules (cursor, thisSize) := by
      rw [hsz]
      exact sum_outputSizeAt_nonneg _ hwsec
    have hrest0 : 0 ≤ (ins.map (sectionSize rules)).sum := by
      apply List.sum_nonneg
      intro x hx
      obtain ⟨sec', hsec', rfl⟩ := List.mem_map.mp hx
      rw [hexact' sec' hsec']
      exact sum_outputSizeAt_nonneg _ (fun r hr => hw r (mem_sectionOf hr))
    simp only [List.map_cons, List.sum_cons] at hfit ⊢
    set s := sectionSize rules (cursor, thisSize) with hs
    have hslice : ((output.drop o).take s.toNat).length = s.toNat := by
      simp only [List.length_take, List.length_drop]
      omega
    have hrw : rewrite ls ((output.drop o).take s.toNat) (sectionOf ls.tier (cursor, thisSize))
        (sectionOf rules (cursor, thisSize))
        = .ok (none, sectionOutput ls rules (cursor, thisSize)) := by
      have := rewriteLoop_spec ls.env (sectionOf ls.tier (cursor, thisSize))
        (sectionOf rules (cursor, thisSize)) 0 ((output.drop o).take s.toNat)
        (by rw [length_sectionOf (by rw [hrules]; exact hb0), length_sectionOf hb0])
        hwsec
        (by rw [hslice, ← hsz]; simp; omega)
        (by rw [hslice]; omega)
      simpa [rewrite, sectionOutput] using this
    have hlenOut : (sectionOutput ls rules (cursor, thisSize)).length = s.toNat := by
      have := rewriteLoop_length _ _ _ _ _ _ _ hrw
      rw [this, hslice]
    simp only [layout, rewriteSections]
    have hrw' : rewrite ls (List.take s.toNat (List.drop o output))
        (List.take thisSize (List.drop cursor ls.tier))
        (List.take thisSize (List.drop cursor rules))
        = .ok (none, sectionOutput ls rules (cursor, thisSize)) := hrw
    rw [hrw']
    dsimp only
    have ho : o ≤ output.length := by omega
    rw [ih (o + s.toNat) _ hb' hexact' (by
      simp only [List.length_append, List.length_take, List.length_drop, hlenOut]
      push_cast
      omega) (by
      simp only [List.length_append, List.length_take, List.length_drop, hlenOut]
      push_cast
      omega)]
    have htake : List.take (o + s.toNat)
        (List.take o output ++ sectionOutput ls rules (cursor, thisSize) ++
          List.drop (o + s.toNat) output)
        = List.take o output ++ sectionOutput ls rules (cursor, thisSize) := by
      apply List.take_left'
      simp only [List.length_append, List.length_take, hlenOut]
      omega
    have hdrop : List.drop (o + s.toNat + ((ins.map (sectionSize rules)).sum).toNat)
        (List.take o output ++ sectionOutput ls rules (cursor, thisSize) ++
          List.drop (o + s.toNat) output)
        = List.drop (o + (s + (ins.map (sectionSize rules)).sum).toNat) output := by
      have hl : (List.take o output ++ sectionOutput ls rules (cursor, thisSize)).length
          = o + s.toNat := by
        simp only [List.length_append, List.length_take, hlenOut]
        omega
      rw [← List.drop_drop, List.drop_left' hl, List.drop_drop]
      congr 1
      omega
    rw [htake, hdrop]
    simp [List.append_assoc]

theorem contributions_sectionOf (inner : Option Environment) (tier : List Module)
    (rules : List (Option Rule)) (sec : Nat × Nat) :
    contributions inner (sectionOf tier sec) (sectionOf rules sec)
      = sectionOf (contributions inner tier rules) sec := by
  simp only [contributions, sectionOf, List.take_zipWith, List.drop_zipWith]

/-- Contiguous sections of a list, put end to end, are the stretch of the list they
cover. -/
theorem sections_append {α : Type} (xs : List α) :
    ∀ (secs : List (Nat × Nat)) (c : Nat), Contiguous secs c →
      (secs.map (sectionOf xs)).flatten = (xs.drop c).take (sectionsEnd secs c - c) := by
  intro secs
  induction secs with
  | nil => intro c _; simp [sectionsEnd]
  | cons sec secs ih =>
    intro c hc
    obtain ⟨hc1, hc2⟩ := hc
    have hend : sectionsEnd (sec :: secs) c = sectionsEnd secs (c + sec.2) := by
      simp [sectionsEnd, Nat.add_assoc]
    have hle : c + sec.2 ≤ sectionsEnd secs (c + sec.2) := by simp [sectionsEnd]
    have hsplit : sectionsEnd secs (c + sec.2) - c
        = sec.2 + (sectionsEnd secs (c + sec.2) - (c + sec.2)) := by omega
    simp only [List.map_cons, List.flatten_cons, ih _ hc2, hend]
    rw [hsplit, List.take_add, List.drop_drop]
    simp [sectionOf, hc1]

theorem sectionOutput_eq (ls : LSystem) (rules : List (Option Rule)) (sec : Nat × Nat) :
    sectionOutput ls rules sec
      = ((sectionOf (contributions ls.env ls.tier rules) sec)).flatten := by
  simp only [sectionOutput, contributions_sectionOf]

theorem flatten_map_flatten {α : Type} (xss : List (List (List α))) :
    (xss.map List.flatten).flatten = xss.flatten.flatten := by
  induction xss with
  | nil => rfl
  | cons x xs ih => simp [ih]

/-- The outputs of contiguous sections, put end to end, are the contributions of the
positions they cover, in order. -/
theorem sectionOutputs_append (ls : LSystem) (rules : List (Option Rule))
    (secs : List (Nat × Nat)) (c : Nat) (hc : Contiguous secs c) :
    (secs.map (sectionOutput ls rules)).flatten
      = (((contributions ls.env ls.tier rules).drop c).take (sectionsEnd secs c - c)).flatten := by
  have h1 : secs.map (sectionOutput ls rules)
      = (secs.map (sectionOf (contributions ls.env ls.tier rules))).map List.flatten := by
    simp only [List.map_map]
    apply List.map_congr_left
    intro sec _
    exact sectionOutput_eq ls rules sec
  rw [h1, flatten_map_flatten, sections_append _ secs c hc]

/-- The output sizes of contiguous sections add up to the output sizes of the positions
they cover. -/
theorem sectionSizes_sum (rules : List (Option Rule))
    (secs : List (Nat × Nat)) (c : Nat) (hc : Contiguous secs c) :
    (secs.map (fun sec => ((sectionOf rules sec).map outputSizeAt).sum)).sum
      = ((((rules.drop c).take (sectionsEnd secs c - c))).map outputSizeAt).sum := by
  have h1 : secs.map (fun sec => ((sectionOf rules sec).map outputSizeAt).sum)
      = (secs.map (sectionOf (rules.map outputSizeAt))).map List.sum := by
    simp only [List.map_map]
    apply List.map_congr_left
    intro sec _
    simp only [Function.comp, sectionOf, List.map_take, List.map_drop]
  have h2 : ∀ (xss : List (List Int)), (xss.map List.sum).sum = xss.flatten.sum := by
    intro xss
    induction xss with
    | nil => rfl
    | cons x xs ih =>
      simp only [List.map_cons, List.sum_cons, List.flatten_cons, List.sum_append, ih]
  rw [h1, h2, sections_append _ secs c hc, List.map_take, List.map_drop]

theorem contributions_none_tail (inner : Option Environment) (tier : List Module)
    (rules : List (Option Rule)) (e : Nat)
    (h : rules.drop e = List.replicate (rules.length - e) none) :
    ((contributions inner tier rules).drop e).flatten = [] := by
  simp only [contributions, List.drop_zipWith, h]
  generalize tier.drop e = ms
  generalize rules.length - e = k
  induction ms generalizing k with
  | nil => simp
  | cons m ms ih =>
    cases k with
    | zero => simp
    | succ k => simp [List.replicate_succ, contribution, ih]

theorem outputSizeAt_none_tail (rules : List (Option Rule)) (e : Nat)
    (h : rules.drop e = List.replicate (rules.length - e) none) :
    ((rules.drop e).map outputSizeAt).sum = 0 := by
  rw [h]
  generalize rules.length - e = k
  induction k with
  | zero => simp
  | succ k ih => simp [List.replicate_succ, outputSizeAt, ih]

/-- What `selectedRules` unfolds to. -/
theorem selectedRules_ok {ls : LSystem} {rules : List (Option Rule)}
    (h : selectedRules ls = .ok rules) :
    ∃ sp size rem st, splits ls = .ok (sp, size, rem) ∧
      sizeSections ls (sections size rem sp 0 0)
        ⟨List.replicate ls.tier.length none, ls.rng, []⟩ = .ok st ∧ st.rules = rules := by
  unfold selectedRules at h
  split at h
  · simp at h
  · rename_i sp size rem hsp
    split at h
    · simp at h
    · rename_i st hst
      simp only [Except.ok.injEq] at h
      exact ⟨sp, size, rem, st, hsp, hst, h⟩

/-! ## The first half of the workers, in any order -/

theorem contiguous_le_end :
    ∀ (secs : List (Nat × Nat)) (c : Nat), Contiguous secs c →
      ∀ sec ∈ secs, sec.1 + sec.2 ≤ sectionsEnd secs c := by
  intro secs
  induction secs with
  | nil => intro c _ sec h; simp at h
  | cons s secs ih =>
    intro c hc sec hsec
    obtain ⟨h1, h2⟩ := hc
    have hend : sectionsEnd (s :: secs) c = sectionsEnd secs (c + s.2) := by
      simp [sectionsEnd]; omega
    simp only [List.mem_cons] at hsec
    rcases hsec with rfl | hsec
    · rw [hend, h1]; simp [sectionsEnd]
    · rw [hend]; exact ih _ h2 sec hsec

theorem length_sections (size rem : Nat) :
    ∀ (remaining i cursor : Nat), (sections size rem remaining i cursor).length = remaining := by
  intro remaining
  induction remaining with
  | zero => intro i cursor; rfl
  | succ n ih => intro i cursor; simp [sections, ih]

theorem sizeSectionAt_eq (ls : LSystem) (sec : Nat × Nat) (rules : List (Option Rule))
    (rng : Rand) (sizes rest : List Int) :
    sizeSectionAt ls sizes.length sec ⟨rules, rng, sizes ++ 0 :: rest⟩
      = (sizeSection ls sec ⟨rules, rng, sizes⟩).map
          (fun st => { st with sectionOutputSizes := st.sectionOutputSizes ++ rest }) := by
  obtain ⟨cursor, thisSize⟩ := sec
  simp only [sizeSectionAt, sizeSection]
  split
  · rfl
  · split
    · rfl
    · simp [Except.map]

/-- Run in partition order, the scheduled first half of the workers is the first half of
`Derivate`. -/
theorem sizeSectionsIn_range (ls : LSystem) :
    ∀ (todo done : List (Nat × Nat)) (rules : List (Option Rule)) (rng : Rand)
      (sizes : List Int), sizes.length = done.length →
      sizeSectionsIn ls (done ++ todo) ((List.range todo.length).map (fun k => done.length + k))
          ⟨rules, rng, sizes ++ List.replicate todo.length 0⟩
        = sizeSections ls todo ⟨rules, rng, sizes⟩ := by
  intro todo
  induction todo with
  | nil =>
    intro done rules rng sizes _
    simp [sizeSectionsIn, sizeSections]
  | cons sec todo ih =>
    intro done rules rng sizes hlen
    have hget : (done ++ sec :: todo).get? done.length = some sec := by
      rw [List.get?_eq_getElem?, List.getElem?_append_right (le_refl _)]
      simp
    simp only [List.length_cons, List.range_succ_eq_map, List.map_cons, List.map_map,
      Nat.add_zero, sizeSectionsIn, hget, List.replicate_succ, sizeSections]
    rw [← hlen, sizeSectionAt_eq]
    cases hs : sizeSection ls sec ⟨rules, rng, sizes⟩ with
    | error e => rfl
    | ok st =>
      obtain ⟨rules', rng', sizes'⟩ := st
      simp only [Except.map]
      have hsz : sizes'.length = (done ++ [sec]).length := by
        obtain ⟨cursor, thisSize⟩ := sec
        simp only [sizeSection] at hs
        split at hs
        · cases hs
        · split at hs
          · cases hs
          · simp only [Except.ok.injEq, SizingState.mk.injEq] at hs
            rw [← hs.2.2]
            simp [hlen]
      have := ih (done ++ [sec]) rules' rng' sizes' hsz
      simp only [List.append_assoc, List.singleton_append, List.length_append,
        List.length_singleton] at this
      rw [← this]
      congr 1
      apply List.map_congr_left
      intro k _
      simp only [Function.comp, hlen]
      omega

/-- A call of `Derivate` is the call whose workers are scheduled in partition order. -/
theorem DerivateIn_range (ctx : Context) (ls : LSystem) (sp size rem : Nat)
    (hsp : splits ls = .ok (sp, size, rem)) :
    DerivateIn (List.range sp) ctx ls = Derivate ctx ls := by
  have h := sizeSectionsIn_range ls (sections size rem sp 0 0) []
    (List.replicate ls.tier.length none) ls.rng [] rfl
  simp only [List.nil_append, List.length_nil, Nat.zero_add, length_sections,
    List.map_id'] at h
  simp only [DerivateIn, Derivate, hsp, h]

theorem sectionOf_eq_of_drop_eq {α : Type} {xs ys : List α} {sec : Nat × Nat} {a : Nat}
    (ha : a ≤ sec.1) (h : xs.drop a = ys.drop a) : sectionOf xs sec = sectionOf ys sec := by
  have := congrArg (List.drop (sec.1 - a)) h
  simp only [List.drop_drop, Nat.add_sub_cancel' ha, Nat.sub_add_cancel ha] at this
  simp only [sectionOf, this]

theorem mem_of_getElem?_eq_some {α : Type} {xs : List α} {i : Nat} {x : α}
    (h : xs[i]? = some x) : x ∈ xs := by
  obtain ⟨hi, hx⟩ := List.getElem?_eq_some.mp h
  exact hx ▸ List.getElem_mem hi

theorem contiguous_start_le :
    ∀ (secs : List (Nat × Nat)) (c : Nat), Contiguous secs c → ∀ sec ∈ secs, c ≤ sec.1 := by
  intro secs
  induction secs with
  | nil => intro c _ sec h; simp at h
  | cons s secs ih =>
    intro c hc sec hsec
    obtain ⟨h1, h2⟩ := hc
    rcases List.mem_cons.mp hsec with rfl | hsec
    · omega
    · have := ih _ h2 sec hsec
      omega

/-- Contiguous sections do not overlap: an earlier one ends where a later one starts, or
before. -/
theorem contiguous_disjoint :
    ∀ (secs : List (Nat × Nat)) (c : Nat), Contiguous secs c →
      ∀ (k k' : Nat) (sec sec' : Nat × Nat), k < k' → secs[k]? = some sec →
        secs[k']? = some sec' → sec.1 + sec.2 ≤ sec'.1 := by
  intro secs
  induction secs with
  | nil => intro c _ k k' sec sec' _ h; simp at h
  | cons s secs ih =>
    intro c hc k k' sec sec' hk h h'
    obtain ⟨h1, h2⟩ := hc
    cases k' with
    | zero => omega
    | succ k' =>
      simp only [List.getElem?_cons_succ] at h'
      cases k with
      | zero =>
        simp only [List.getElem?_cons_zero, Option.some.injEq] at h
        subst h
        have := contiguous_start_le secs _ h2 sec' (mem_of_getElem?_eq_some h')
        omega
      | succ k =>
        simp only [List.getElem?_cons_succ] at h
        exact ih _ h2 k k' sec sec' (by omega) h h'

/-- What one scheduled worker's sizing step does to the shared state. -/
theorem sizeSectionAt_spec {ls : LSystem} {w : Nat} {sec : Nat × Nat} {st st' : SizingState}
    (hlen : st.rules.length = ls.tier.length)
    (h : sizeSectionAt ls w sec st = .ok st') :
    sec.1 + sec.2 ≤ ls.tier.length ∧
    st'.rules.length = ls.tier.length ∧
    st'.rules.take sec.1 = st.rules.take sec.1 ∧
    st'.rules.drop (sec.1 + sec.2) = st.rules.drop (sec.1 + sec.2) ∧
    st'.sectionOutputSizes =
      st.sectionOutputSizes.set w (sectionSize st'.rules sec) := by
  obtain ⟨cursor, thisSize⟩ := sec
  simp only [sizeSectionAt] at h
  split at h
  · simp at h
  · rename_i hb
    push_neg at hb
    split at h
    · simp at h
    · rename_i sectionRules rng hcalc
      simp only [Except.ok.injEq] at h
      have hsl : sectionRules.length = thisSize := by
        rw [calculateRules_length hcalc]
        simp only [List.length_take, List.length_drop]
        omega
      have htk : (List.take cursor st.rules).length = cursor := by
        simp only [List.length_take]; omega
      subst h
      dsimp only
      refine ⟨hb, ?_, ?_, ?_, ?_⟩
      · simp only [List.length_append, List.length_take, List.length_drop]
        omega
      · rw [List.append_assoc, List.take_left' htk]
      · rw [List.drop_left' (by simp only [List.length_append, htk, hsl])]
      · simp only [sectionSize, sectionOf]
        rw [List.append_assoc, List.drop_left' htk, List.take_left' hsl]

/-- What the first half of the workers does, in whatever order they run: every worker
that ran found its section of the rules as it was at the start, left there what the
section holds at the end, and recorded at its own index the size of these rules; nothing
else was touched. -/
theorem sizeSectionsIn_spec {ls : LSystem} (secs : List (Nat × Nat)) (E : Nat)
    (hdisj : ∀ (k k' : Nat) (sec sec' : Nat × Nat), k < k' → secs[k]? = some sec →
      secs[k']? = some sec' → sec.1 + sec.2 ≤ sec'.1)
    (hend : ∀ sec ∈ secs, sec.1 + sec.2 ≤ E) :
    ∀ (schedule : List Nat) (st st' : SizingState),
      schedule.Nodup →
      st.rules.length = ls.tier.length →
      st.sectionOutputSizes.length = secs.length →
      sizeSectionsIn ls secs schedule st = .ok st' →
      st'.rules.length = ls.tier.length ∧
      st'.sectionOutputSizes.length = secs.length ∧
      st'.rules.drop E = st.rules.drop E ∧
      (∀ k sec, secs[k]? = some sec → k ∈ schedule →
        sec.1 + sec.2 ≤ ls.tier.length ∧
        st'.sectionOutputSizes[k]? = some (sectionSize st'.rules sec) ∧
        ∃ stb sta, stb.rules.length = ls.tier.length ∧
          sectionOf stb.rules sec = sectionOf st.rules sec ∧
          sizeSectionAt ls k sec stb = .ok sta ∧
          sectionOf st'.rules sec = sectionOf sta.rules sec) ∧
      (∀ k sec, secs[k]? = some sec → k ∉ schedule →
        sectionOf st'.rules sec = sectionOf st.rules sec ∧
        st'.sectionOutputSizes[k]? = st.sectionOutputSizes[k]?) := by
  intro schedule
  induction schedule with
  | nil =>
    intro st st' _ hlen hsz h
    simp only [sizeSectionsIn, Except.ok.injEq] at h
    subst h
    exact ⟨hlen, hsz, rfl, fun k sec _ hk => absurd hk (List.not_mem_nil _),
      fun k sec _ _ => ⟨rfl, rfl⟩⟩
  | cons w schedule ih =>
    intro st st' hnd hlen hsz h
    obtain ⟨hw, hnd'⟩ := List.nodup_cons.mp hnd
    simp only [sizeSectionsIn, List.get?_eq_getElem?] at h
    cases hget : secs[w]? with
    | none =>
      simp only [hget] at h
      obtain ⟨h1, h2, h3, h4, h5⟩ := ih st st' hnd' hlen hsz h
      refine ⟨h1, h2, h3, ?_, ?_⟩
      · intro k sec hk hmem
        rcases List.mem_cons.mp hmem with rfl | hmem
        · rw [hget] at hk; cases hk
        · exact h4 k sec hk hmem
      · intro k sec hk hmem
        exact h5 k sec hk (fun hm => hmem (List.mem_cons_of_mem _ hm))
    | some secw =>
      simp only [hget] at h
      split at h
      · simp at h
      · rename_i st1 hst1
        obtain ⟨hb, hl1, ht1, hd1, hs1⟩ := sizeSectionAt_spec hlen hst1
        have hsz1 : st1.sectionOutputSizes.length = secs.length := by
          rw [hs1, List.length_set, hsz]
        obtain ⟨h1, h2, h3, h4, h5⟩ := ih st1 st' hnd' hl1 hsz1 h
        have hwlt : w < secs.length := (List.getElem?_eq_some.mp hget).1
        have hframe : ∀ k sec, secs[k]? = some sec → k ≠ w →
            sectionOf st1.rules sec = sectionOf st.rules sec := by
          intro k sec hk hne
          rcases Nat.lt_or_gt_of_ne hne with hlt | hgt
          · have := hdisj k w sec secw hlt hk hget
            exact sectionOf_eq_of_take_eq (take_eq_of_take_eq this ht1)
          · have := hdisj w k secw sec hgt hget hk
            exact sectionOf_eq_of_drop_eq this hd1
        refine ⟨h1, h2, ?_, ?_, ?_⟩
        · rw [h3]
          have hle : secw.1 + secw.2 ≤ E := hend secw (mem_of_getElem?_eq_some hget)
          have := congrArg (List.drop (E - (secw.1 + secw.2))) hd1
          simpa [List.drop_drop, Nat.add_sub_cancel' hle, Nat.sub_add_cancel hle] using this
        · intro k sec hk hmem
          rcases List.mem_cons.mp hmem with rfl | hmem
          · rw [hget] at hk
            cases hk
            obtain ⟨e1, e2⟩ := h5 k secw hget hw
            refine ⟨hb, ?_, st, st1, hlen, rfl, hst1, e1⟩
            rw [e2, hs1, List.getElem?_set_self (by rw [hsz]; exact hwlt)]
            simp only [sectionSize, e1]
          · obtain ⟨a1, a2, stb, sta, a3, a4, a5, a6⟩ := h4 k sec hk hmem
            have hne : k ≠ w := fun e => hw (e ▸ hmem)
            exact ⟨a1, a2, stb, sta, a3, a4.trans (hframe k sec hk hne), a5, a6⟩
        · intro k sec hk hmem
          have hne : k ≠ w := fun e => hmem (e ▸ List.mem_cons_self _ _)
          obtain ⟨e1, e2⟩ := h5 k sec hk (fun hm => hmem (List.mem_cons_of_mem _ hm))
          refine ⟨e1.trans (hframe k sec hk hne), ?_⟩
          rw [e2, hs1, List.getElem?_set_ne (Ne.symm hne)]

/-- What `selectedRulesIn` unfolds to. -/
theorem selectedRulesIn_ok {ls : LSystem} {schedule : List Nat} {rules : List (Option Rule)}
    (h : selectedRulesIn schedule ls = .ok rules) :
    ∃ sp size rem st, splits ls = .ok (sp, size, rem) ∧
      sizeSectionsIn ls (sections size rem sp 0 0) schedule
        ⟨List.replicate ls.tier.length none, ls.rng, List.replicate sp 0⟩ = .ok st ∧
      st.rules = rules := by
  unfold selectedRulesIn at h
  split at h
  · simp at h
  · rename_i sp size rem hsp
    split at h
    · simp at h
    · rename_i st hst
      simp only [Except.ok.injEq] at h
      exact ⟨sp, size, rem, st, hsp, hst, h⟩

/-- The selection of `Derivate` is the one whose workers are scheduled in partition
order. -/
theorem selectedRulesIn_range (ls : LSystem) (sp size rem : Nat)
    (hsp : splits ls = .ok (sp, size, rem)) :
    selectedRulesIn (List.range sp) ls = selectedRules ls := by
  have h := sizeSectionsIn_range ls (sections size rem sp 0 0) []
    (List.replicate ls.tier.length none) ls.rng [] rfl
  simp only [List.nil_append, List.length_nil, Nat.zero_add, length_sections,
    List.map_id'] at h
  simp only [selectedRulesIn, selectedRules, hsp, h]

/-- Facts about the selection that `Derivate` relies on, whatever the order in which the
workers ran their first half. -/
theorem scheduled_facts {ls : LSystem} {size rem sp : Nat} {schedule : List Nat}
    {st : SizingState} (hperm : schedule.Perm (List.range sp))
    (hst : sizeSectionsIn ls (sections size rem sp 0 0) schedule
      ⟨List.replicate ls.tier.length none, ls.rng, List.replicate sp 0⟩ = .ok st) :
    st.rules.length = ls.tier.length ∧
    InBounds (sections size rem sp 0 0) ls.tier.length ∧
    st.sectionOutputSizes = (sections size rem sp 0 0).map (sectionSize st.rules) ∧
    st.rules.drop (sectionsEnd (sections size rem sp 0 0) 0)
      = (List.replicate ls.tier.length none).drop (sectionsEnd (sections size rem sp 0 0) 0) ∧
    ((sections size rem sp 0 0).map
        (fun sec => ((sectionOf st.rules sec).map outputSizeAt).sum)).sum
      = (st.rules.map outputSizeAt).sum ∧
    ((sections size rem sp 0 0).map (sectionOutput ls st.rules)).flatten
      = (contributions ls.env ls.tier st.rules).flatten := by
  have hcontig := sections_contiguous size rem sp 0 0
  have hnd : schedule.Nodup := hperm.nodup_iff.mpr (List.nodup_range sp)
  have hmem : ∀ k, k ∈ schedule ↔ k < sp := by
    intro k
    rw [hperm.mem_iff, List.mem_range]
  have hseclen : (sections size rem sp 0 0).length = sp := length_sections size rem sp 0 0
  obtain ⟨hlen, hszlen, hdrop, hran, -⟩ :=
    sizeSectionsIn_spec (sections size rem sp 0 0)
      (sectionsEnd (sections size rem sp 0 0) 0)
      (contiguous_disjoint _ 0 hcontig) (contiguous_le_end _ 0 hcontig)
      schedule _ st hnd (by simp) (by simp [hseclen]) hst
  set E := sectionsEnd (sections size rem sp 0 0) 0 with hEdef
  have hb : InBounds (sections size rem sp 0 0) ls.tier.length := by
    intro sec hsec
    obtain ⟨k, hk, hget⟩ := List.getElem_of_mem hsec
    have hget' : (sections size rem sp 0 0)[k]? = some sec :=
      List.getElem?_eq_some.mpr ⟨hk, hget⟩
    exact (hran k sec hget' ((hmem k).mpr (by omega))).1
  have hsz : st.sectionOutputSizes = (sections size rem sp 0 0).map (sectionSize st.rules) := by
    apply List.ext_getElem?
    intro k
    by_cases hk : k < (sections size rem sp 0 0).length
    · have hget' : (sections size rem sp 0 0)[k]?
          = some ((sections size rem sp 0 0)[k]) := List.getElem?_eq_getElem hk
      rw [(hran k _ hget' ((hmem k).mpr (by omega))).2.1, List.getElem?_map, hget']
      rfl
    · rw [List.getElem?_eq_none (by omega), List.getElem?_eq_none (by simp; omega)]
  have htail : st.rules.drop E = List.replicate (st.rules.length - E) none := by
    rw [hdrop, List.drop_replicate, hlen]
  refine ⟨hlen, hb, hsz, hdrop, ?_, ?_⟩
  · rw [sectionSizes_sum _ _ 0 hcontig]
    simp only [List.drop_zero, Nat.sub_zero, ← hEdef]
    conv_rhs => rw [← List.take_append_drop E st.rules, List.map_append, List.sum_append,
      outputSizeAt_none_tail _ _ htail]
    simp
  · rw [sectionOutputs_append _ _ _ 0 hcontig]
    simp only [List.drop_zero, Nat.sub_zero, ← hEdef]
    conv_rhs => rw [← List.take_append_drop E (contributions ls.env ls.tier st.rules),
      List.flatten_append, contributions_none_tail _ _ _ _ htail]
    simp

/-- Facts about the selection of `Derivate`, in partition order. -/
theorem selection_facts {ls : LSystem} {size rem sp : Nat} {st : SizingState}
    (hst : sizeSections ls (sections size rem sp 0 0)
      ⟨List.replicate ls.tier.length none, ls.rng, []⟩ = .ok st) :
    st.rules.length = ls.tier.length ∧
    InBounds (sections size rem sp 0 0) ls.tier.length ∧
    st.sectionOutputSizes = (sections size rem sp 0 0).map (sectionSize st.rules) ∧
    st.rules.drop (sectionsEnd (sections size rem sp 0 0) 0)
      = (List.replicate ls.tier.length none).drop (sectionsEnd (sections size rem sp 0 0) 0) := by
  have h := sizeSectionsIn_range ls (sections size rem sp 0 0) []
    (List.replicate ls.tier.length none) ls.rng [] rfl
  simp only [List.nil_append, List.length_nil, Nat.zero_add, length_sections,
    List.map_id'] at h
  rw [← h] at hst
  obtain ⟨h1, h2, h3, h4, -, -⟩ := scheduled_facts (List.Perm.refl _) hst
  exact ⟨h1, h2, h3, h4⟩

/-- The output size that `Derivate` computes is the sum of the output sizes of the
selected rules as an `int` holds it. -/
theorem outputSize_eq (rules : List (Option Rule)) (secs : List (Nat × Nat))
    (hsum : (secs.map (fun sec => ((sectionOf rules sec).map outputSizeAt).sum)).sum
      = (rules.map outputSizeAt).sum) :
    (secs.map (sectionSize rules)).foldl (fun acc s => wrapInt (acc + s)) 0
      = wrapInt ((rules.map outputSizeAt).sum) := by
  rw [foldl_wrapInt_eq _ 0 (by omega) (by omega), zero_add, ← hsum]
  have : secs.map (sectionSize rules)
      = (secs.map (fun sec => ((sectionOf rules sec).map outputSizeAt).sum)).map wrapInt := by
    simp only [List.map_map]
    apply List.map_congr_left
    intro sec _
    simp only [sectionSize, calculateOutputSize_eq, Function.comp]
  rw [this, wrapInt_sum_map_wrapInt]

/-- When the selected rules write what they announce and the sizes add up to less than
`2 ^ 63`, no addition of sizes wraps around. -/
theorem sectionSize_exact (rules : List (Option Rule)) (secs : List (Nat × Nat))
    (hsum : (secs.map (fun sec => ((sectionOf rules sec).map outputSizeAt).sum)).sum
      = (rules.map outputSizeAt).sum)
    (hw : ∀ r, some r ∈ rules → r.WritesExactly)
    (hfit : (rules.map outputSizeAt).sum < 2 ^ 63) :
    ∀ sec ∈ secs, sectionSize rules sec = ((sectionOf rules sec).map outputSizeAt).sum := by
  intro sec hsec
  have hnn : ∀ x ∈ secs.map (fun sec => ((sectionOf rules sec).map outputSizeAt).sum),
      0 ≤ x := by
    intro x hx
    obtain ⟨sec', _, rfl⟩ := List.mem_map.mp hx
    exact sum_outputSizeAt_nonneg _ (fun r hr => hw r (mem_sectionOf hr))
  have hle := List.single_le_sum hnn _ (List.mem_map_of_mem _ hsec)
  have h0 := hnn _ (List.mem_map_of_mem _ hsec)
  simp only [sectionSize]
  rw [calculateOutputSize_eq, wrapInt_of_range (by omega) (by omega)]

/-- What `Derivate` returns once the selection has completed, in whatever order the workers
ran, when the selected rules write what they announce and the new tier has a length that
a slice can have: the concatenation of the contributions of the positions. -/
theorem DerivateIn_of_selection (ctx : Context) (ls : LSystem) (sp size rem : Nat)
    (hsp : splits ls = .ok (sp, size, rem))
    (schedule : List Nat) (hperm : schedule.Perm (List.range sp))
    (rules : List (Option Rule)) (hsel : selectedRulesIn schedule ls = .ok rules)
    (hw : ∀ r, some r ∈ rules → r.WritesExactly)
    (hfit : (rules.map outputSizeAt).sum < 2 ^ 63) :
    ∃ ls', DerivateIn schedule ctx ls = .ok (none, ls') ∧
      ls'.tier = (contributions ls.env ls.tier rules).flatten := by
  obtain ⟨sp', size', rem', st, hsp', hst, hr⟩ := selectedRulesIn_ok hsel
  rw [hsp] at hsp'
  simp only [Except.ok.injEq, Prod.mk.injEq] at hsp'
  obtain ⟨rfl, rfl, rfl⟩ := hsp'
  obtain ⟨hlen, hb, hsz, -, hsum, hout⟩ := scheduled_facts hperm hst
  rw [hr] at hlen hsz hsum hout
  have hexact := sectionSize_exact rules _ hsum hw hfit
  have htot0 : 0 ≤ (rules.map outputSizeAt).sum := sum_outputSizeAt_nonneg rules hw
  have hsizes0 : ∀ s ∈ st.sectionOutputSizes, 0 ≤ s := by
    intro s hs
    rw [hsz] at hs
    obtain ⟨sec, hsec, rfl⟩ := List.mem_map.mp hs
    rw [hexact sec hsec]
    exact sum_outputSizeAt_nonneg _ (fun r hr' => hw r (mem_sectionOf hr'))
  have hsizesum : st.sectionOutputSizes.sum = (rules.map outputSizeAt).sum := by
    rw [hsz, ← hsum]
    congr 1
    exact List.map_congr_left hexact
  have hfold : st.sectionOutputSizes.foldl (fun acc s => wrapInt (acc + s)) 0
      = (rules.map outputSizeAt).sum := by
    rw [hsz, outputSize_eq rules _ hsum, wrapInt_of_range (by omega) hfit]
  set total := (rules.map outputSizeAt).sum with htotal
  have hlay := outputSections_of_fits total.toNat (by omega)
    st.sectionOutputSizes 0 hsizes0 (by rw [hsizesum]; simp)
  have hrw := rewriteSections_spec ls rules hlen hw (sections size rem sp 0 0) 0
    (List.replicate total.toNat Module.zero) hb hexact
    (by rw [← hsz, hsizesum]; simp) (by simp; omega)
  rw [← hsz] at hrw
  have htier : (List.replicate total.toNat Module.zero).take 0 ++
      ((sections size rem sp 0 0).map (sectionOutput ls rules)).flatten ++
      (List.replicate total.toNat Module.zero).drop
        (0 + (st.sectionOutputSizes.sum).toNat)
      = (contributions ls.env ls.tier rules).flatten := by
    simp [hout, hsizesum]
  rw [htier] at hrw
  refine ⟨{ ls with tier := (contributions ls.env ls.tier rules).flatten
                    currentTier := (ls.currentTier + 1) % 2 ^ 64
                    rng := st.rng }, ?_, rfl⟩
  simp only [DerivateIn, hsp, hst, hfold, if_neg (not_lt.mpr htot0)]
  have hlay' : outputSections total.toNat st.sectionOutputSizes 0
      = .ok (layout st.sectionOutputSizes 0) := hlay
  rw [hlay']
  simp only [hr, hrw]

/-- Whenever `Derivate` returns, in whatever order the workers ran, the new tier has the
length that the additions of the output sizes give in an `int`. -/
theorem DerivateIn_length (ctx : Context) (ls : LSystem) (sp size rem : Nat)
    (hsp : splits ls = .ok (sp, size, rem))
    (schedule : List Nat) (hperm : schedule.Perm (List.range sp))
    (rules : List (Option Rule)) (hsel : selectedRulesIn schedule ls = .ok rules)
    (e : Option String) (ls' : LSystem) (hd : DerivateIn schedule ctx ls = .ok (e, ls')) :
    (ls'.tier.length : Int) = wrapInt ((rules.map outputSizeAt).sum) := by
  obtain ⟨sp', size', rem', st, hsp', hst, hr⟩ := selectedRulesIn_ok hsel
  rw [hsp] at hsp'
  simp only [Except.ok.injEq, Prod.mk.injEq] at hsp'
  obtain ⟨rfl, rfl, rfl⟩ := hsp'
  obtain ⟨-, -, hsz, -, hsum, -⟩ := scheduled_facts hperm hst
  rw [hr] at hsz hsum
  have hfold : st.sectionOutputSizes.foldl (fun acc s => wrapInt (acc + s)) 0
      = wrapInt ((rules.map outputSizeAt).sum) := by
    rw [hsz, outputSize_eq rules _ hsum]
  simp only [DerivateIn, hsp, hst, hfold] at hd
  split at hd
  · simp at hd
  · rename_i hneg
    push_neg at hneg
    split at hd
    · simp at hd
    · rename_i outs houts
      split at hd
      · simp at hd
      · rename_i out hrw
        simp only [Except.ok.injEq, Prod.mk.injEq] at hd
        have hbounds : InBounds outs
            (List.replicate (wrapInt ((rules.map outputSizeAt).sum)).toNat
              Module.zero).length := by
          rw [List.length_replicate]
          exact outputSections_inBounds _ _ _ _ houts
        have hlen := rewriteSections_length ls st.rules _ _ _ _ hbounds hrw
        rw [← hd.2]
        simp only [hlen, List.length_replicate]
        omega

/-- What `Derivate` returns once its selection has completed: the case of the partition
order. -/
theorem Derivate_of_selection (ctx : Context) (ls : LSystem)
    (rules : List (Option Rule)) (hsel : selectedRules ls = .ok rules)
    (hw : ∀ r, some r ∈ rules → r.WritesExactly)
    (hfit : (rules.map outputSizeAt).sum < 2 ^ 63) :
    ∃ ls', Derivate ctx ls = .ok (none, ls') ∧
      ls'.tier = (contributions ls.env ls.tier rules).flatten := by
  obtain ⟨sp, size, rem, st, hsp, -, -⟩ := selectedRules_ok hsel
  rw [← selectedRulesIn_range ls sp size rem hsp] at hsel
  rw [← DerivateIn_range ctx ls sp size rem hsp]
  exact DerivateIn_of_selection ctx ls sp size rem hsp _ (List.Perm.refl _) rules hsel hw hfit

/-! ## The precedence grammar, evaluated -/

/-- A rule built by `NewRuleNonParametric` writes exactly its rewrite list. -/
theorem NewRuleNonParametric_writesExactly (onLetter : Letter) (rewriteTo : List Module)
    (left right : List Letter) (probability : F64) :
    (NewRuleNonParametric onLetter rewriteTo left right probability).toRule.WritesExactly := by
  have hp : ∀ m env,
      (NewRuleNonParametric onLetter rewriteTo left right probability).toRule.produced m env
        = rewriteTo := by
    intro m env
    simp [Rule.produced, GeneralRule.toRule, GeneralRule.Execute, GeneralRule.OutputSize,
      NewRuleNonParametric, NewRule]
  refine ⟨fun m env => ?_, fun slot m env hslot => ?_⟩
  · rw [hp]
    simp [GeneralRule.toRule, GeneralRule.OutputSize, NewRuleNonParametric, NewRule]
  · rw [hp]
    simp only [GeneralRule.toRule, GeneralRule.OutputSize, NewRuleNonParametric, NewRule,
      GeneralRule.Execute] at hslot ⊢
    have h : rewriteTo.length ≤ slot.length := by exact_mod_cast hslot
    simp [List.take_of_length_le h, h]

theorem collectMatching_completes (mod : Module) (left right : List Module) :
    ∀ (Rules matching : List Rule),
      (∀ r ∈ Rules, (r.Matches mod left right).isSome = true) →
      ∃ matching', collectMatching mod left right Rules matching = .ok matching' := by
  intro Rules
  induction Rules with
  | nil => intro matching _; exact ⟨matching, rfl⟩
  | cons r rest ih =>
    intro matching h
    have hr := h r (List.mem_cons_self _ _)
    have hrest : ∀ r' ∈ rest, (r'.Matches mod left right).isSome = true :=
      fun r' hr' => h r' (List.mem_cons_of_mem _ hr')
    simp only [collectMatching]
    cases hm : r.Matches mod left right with
    | none => rw [hm] at hr; simp at hr
    | some b =>
      cases b
      · exact ih _ hrest
      · exact ih _ hrest

theorem calculateRulesLoop_completes (Rules : List Rule) (input : List Module)
    (hM : ∀ r ∈ Rules, ∀ m l l', (r.Matches m l l').isSome = true) :
    ∀ (todo : List Module) (i : Nat) (st : SelectorState),
      ∃ st', calculateRulesLoop Rules input todo i st = .ok st' := by
  intro todo
  induction todo with
  | nil => intro i st; exact ⟨st, rfl⟩
  | cons m todo ih =>
    intro i st
    obtain ⟨matching, hc⟩ := collectMatching_completes m (input.take i) (input.drop (i + 1))
      Rules st.matching (fun r hr => hM r hr _ _ _)
    simp only [calculateRulesLoop, calculateRulesStep, hc]
    exact ih _ _

theorem calculateRules_completes (ls : LSystem) (rng : Rand) (rules : List (Option Rule))
    (input : List Module)
    (hM : ∀ r ∈ ls.Parameters.Rules, ∀ m l l', (r.Matches m l l').isSome = true) :
    ∃ out, calculateRules ls rng rules input = .ok out := by
  obtain ⟨st', h⟩ := calculateRulesLoop_completes ls.Parameters.Rules input hM input 0
    ⟨rules, [], rng⟩
  exact ⟨(st'.rules, st'.rng), by simp only [calculateRules, h]⟩

theorem sizeSections_completes (ls : LSystem) (size rem : Nat)
    (hM : ∀ r ∈ ls.Parameters.Rules, ∀ m l l', (r.Matches m l l').isSome = true) :
    ∀ (remaining i cursor : Nat) (st : SizingState),
      cursor + remaining * size + min remaining (rem - i) ≤ ls.tier.length →
      ∃ st', sizeSections ls (sections size rem remaining i cursor) st = .ok st' := by
  intro remaining
  induction remaining with
  | zero => intro i cursor st _; exact ⟨st, rfl⟩
  | succ k ih =>
    intro i cursor st hfit
    have hmul : (k + 1) * size = k * size + size := Nat.succ_mul k size
    rw [hmul] at hfit
    by_cases hi : i < rem
    · have hmin : min (k + 1) (rem - i) = min k (rem - (i + 1)) + 1 := by omega
      rw [hmin] at hfit
      have hb : ¬ ls.tier.length < cursor + (size + 1) := by omega
      obtain ⟨out, hcalc⟩ := calculateRules_completes ls st.rng
        ((st.rules.drop cursor).take (size + 1)) ((ls.tier.drop cursor).take (size + 1)) hM
      simp only [sections, if_pos hi, sizeSections, sizeSection, if_neg hb, hcalc]
      exact ih _ _ _ (by omega)
    · have hmin : min (k + 1) (rem - i) = 0 := by omega
      have hmin' : min k (rem - (i + 1)) = 0 := by omega
      rw [hmin] at hfit
      have hb : ¬ ls.tier.length < cursor + size := by omega
      obtain ⟨out, hcalc⟩ := calculateRules_completes ls st.rng
        ((st.rules.drop cursor).take size) ((ls.tier.drop cursor).take size) hM
      simp only [sections, if_neg hi, sizeSections, sizeSection, if_neg hb, hcalc]
      exact ih _ _ _ (by omega)

/-- The selection of `Derivate` completes on every tier of fewer than `2 ^ 32` modules,
for any positive subsection minimum size and number of workers, as long as no call of
`Matches` panics. -/
theorem selectedRules_completes (ls : LSystem) (hmin : 0 < ls.subsectionMinimumSize)
    (hworkers : 0 < ls.maxWorkers) (hL : ls.tier.length < 2 ^ 32)
    (hM : ∀ r ∈ ls.Parameters.Rules, ∀ m l l', (r.Matches m l l').isSome = true) :
    ∃ rules, selectedRules ls = .ok rules := by
  have hsp : ∃ sp, 0 < sp ∧
      splits ls = .ok (sp, ls.tier.length / sp, ls.tier.length % sp) := by
    refine ⟨if (ls.tier.length / ls.subsectionMinimumSize) % 2 ^ 32 = 0 then 1
      else if (ls.tier.length / ls.subsectionMinimumSize) % 2 ^ 32 < ls.maxWorkers
        then (ls.tier.length / ls.subsectionMinimumSize) % 2 ^ 32 else ls.maxWorkers, ?_, ?_⟩
    · split
      · exact Nat.one_pos
      · split <;> omega
    · have h0 : ¬ ls.subsectionMinimumSize = 0 := by omega
      have hne : ¬ (if (ls.tier.length / ls.subsectionMinimumSize) % 2 ^ 32 = 0 then 1
          else if (ls.tier.length / ls.subsectionMinimumSize) % 2 ^ 32 < ls.maxWorkers
            then (ls.tier.length / ls.subsectionMinimumSize) % 2 ^ 32
            else ls.maxWorkers) = 0 := by
        split
        · exact Nat.one_ne_zero
        · split <;> omega
      simp only [splits, if_neg h0, if_neg hne, Nat.mod_eq_of_lt hL]
  obtain ⟨sp, hsp0, hsplits⟩ := hsp
  have hfit : 0 + sp * (ls.tier.length / sp) + min sp (ls.tier.length % sp - 0)
      ≤ ls.tier.length := by
    have h1 := Nat.div_add_mod ls.tier.length sp
    have h2 := Nat.mod_lt ls.tier.length hsp0
    have h3 : min sp (ls.tier.length % sp - 0) = ls.tier.length % sp := by omega
    rw [h3]
    omega
  obtain ⟨st', hst⟩ := sizeSections_completes ls (ls.tier.length / sp) (ls.tier.length % sp)
    hM sp 0 0 ⟨List.replicate ls.tier.length none, ls.rng, []⟩ hfit
  exact ⟨st'.rules, by simp only [selectedRules, hsplits, hst]⟩

/-! ## The selector: priority filter -/

theorem selectRule_stream (matching : List Rule) (rng : Rand) :
    (selectRule matching rng).2.stream = rng.stream ∧
      rng.drawn ≤ (selectRule matching rng).2.drawn := by
  have key : ∀ m : List Rule,
      (if 1 < m.length then stochastic m rng
        else match m with
          | [r] => (some r, rng)
          | _ => (none, rng)).2.stream = rng.stream ∧
      rng.drawn ≤ (if 1 < m.length then stochastic m rng
        else match m with
          | [r] => (some r, rng)
          | _ => (none, rng)).2.drawn := by
    intro m
    split
    · simp [stochastic, Rand.Float64]
    · split <;> simp
  exact key _

/-- What one iteration of `calculateRules` does, the buffer being empty when it starts:
it stores the selected rule at index `i`, or nothing, and empties the buffer again. -/
theorem calculateRulesStep_eq {Rules : List Rule} {input : List Module} {i : Nat}
    {mod : Module} {st st' : SelectorState} (hm : st.matching = [])
    (h : calculateRulesStep Rules input i mod st = .ok st') :
    ∃ matching, matchingAt Rules input i mod = .ok matching ∧
      st' = { rules := match (selectRule matching st.rng).1 with
                       | some r => st.rules.set i (some r)
                       | none => st.rules
              matching := []
              rng := (selectRule matching st.rng).2 } := by
  unfold calculateRulesStep at h
  rw [hm] at h
  split at h
  · simp at h
  · rename_i matching hc
    simp only [Except.ok.injEq] at h
    exact ⟨matching, hc, h.symm⟩

theorem calculateRulesStep_frame {Rules : List Rule} {input : List Module} {i : Nat}
    {mod : Module} {st st' : SelectorState} (hm : st.matching = [])
    (h : calculateRulesStep Rules input i mod st = .ok st') :
    st'.matching = [] ∧ (∀ j, j ≠ i → st'.rules[j]? = st.rules[j]?) ∧
      st'.rng.stream = st.rng.stream ∧ st.rng.drawn ≤ st'.rng.drawn := by
  obtain ⟨matching, -, rfl⟩ := calculateRulesStep_eq hm h
  refine ⟨rfl, ?_, (selectRule_stream _ _).1, (selectRule_stream _ _).2⟩
  intro j hj
  dsimp only
  split
  · rw [List.getElem?_set, if_neg (fun h => hj h.symm)]
  · rfl

/-- Every position of the input is handled by one iteration that starts with an empty
buffer and with the entry of `rules` it may fill still as it was given; what that
iteration leaves at the position is what `calculateRules` returns there. -/
theorem calculateRulesLoop_position {Rules : List Rule} {input : List Module} :
    ∀ (todo : List Module) (i0 : Nat) (st st' : SelectorState),
      input.drop i0 = todo → st.matching = [] →
      calculateRulesLoop Rules input todo i0 st = .ok st' →
      (∀ j, j < i0 → st'.rules[j]? = st.rules[j]?) ∧
      st'.rng.stream = st.rng.stream ∧
      ∀ i mod, i0 ≤ i → input[i]? = some mod →
        ∃ sb sa, calculateRulesStep Rules input i mod sb = .ok sa ∧
          sb.matching = [] ∧ sb.rules[i]? = st.rules[i]? ∧ st'.rules[i]? = sa.rules[i]? ∧
          sb.rng.stream = st.rng.stream ∧ st.rng.drawn ≤ sb.rng.drawn := by
  intro todo
  induction todo with
  | nil =>
    intro i0 st st' hdrop _ h
    simp only [calculateRulesLoop, Except.ok.injEq] at h
    subst h
    refine ⟨fun _ _ => rfl, rfl, ?_⟩
    intro i mod hi hget
    have hlen : input.length ≤ i0 := List.drop_eq_nil_iff.mp hdrop
    have : i < input.length := (List.getElem?_eq_some.mp hget).1
    omega
  | cons m todo ih =>
    intro i0 st st' hdrop hm h
    simp only [calculateRulesLoop] at h
    split at h
    · simp at h
    · rename_i st1 h1
      have hi0 : i0 < input.length := by
        by_contra hcon
        rw [List.drop_eq_nil_of_le (by omega)] at hdrop
        simp at hdrop
      have hm0 : input[i0]? = some m := by
        rw [List.drop_eq_getElem_cons hi0] at hdrop
        rw [List.getElem?_eq_getElem hi0]
        simp only [List.cons.injEq] at hdrop
        rw [hdrop.1]
      have hdrop' : input.drop (i0 + 1) = todo := by
        rw [List.drop_eq_getElem_cons hi0] at hdrop
        simp only [List.cons.injEq] at hdrop
        exact hdrop.2
      obtain ⟨hm1, hfr, hs1, hd1⟩ := calculateRulesStep_frame hm h1
      obtain ⟨hlow, hs', hpos⟩ := ih (i0 + 1) st1 st' hdrop' hm1 h
      refine ⟨?_, hs'.trans hs1, ?_⟩
      · intro j hj
        rw [hlow j (by omega), hfr j (by omega)]
      · intro i mod hi hget
        rcases Nat.eq_or_lt_of_le hi with heq | hlt
        · subst heq
          have : mod = m := by
            rw [hm0] at hget
            exact (Option.some.inj hget).symm
          subst this
          exact ⟨st, st1, h1, hm, rfl, hlow i0 (by omega), rfl, le_refl _⟩
        · obtain ⟨sb, sa, hstep, hsbm, hsbr, hres, hsbs, hsbd⟩ := hpos i mod (by omega) hget
          exact ⟨sb, sa, hstep, hsbm, hsbr.trans (hfr i (by omega)), hres,
            hsbs.trans hs1, le_trans hd1 hsbd⟩

theorem calculateRulesStep_of_matching {Rules : List Rule} {input : List Module} {i : Nat}
    {mod : Module} {matching : List Rule} (st : SelectorState) (hm : st.matching = [])
    (h : matchingAt Rules input i mod = .ok matching) :
    calculateRulesStep Rules input i mod st =
      .ok { rules := match (selectRule matching st.rng).1 with
                     | some r => st.rules.set i (some r)
                     | none => st.rules
            matching := []
            rng := (selectRule matching st.rng).2 } := by
  unfold matchingAt at h
  unfold calculateRulesStep
  rw [hm, h]

/-- C7. At a position where exactly one rule matches, `calculateRules` stores that rule,
whatever its priority and probability, and its iteration for that position leaves the
generator as it found it; at a position where no rule matches, the iteration stores
nothing and draws nothing, so the entry keeps the value it was given (`nil` in
`Derivate`), whatever was selected at earlier positions. -/
theorem calculateRules_one_or_no_match (ls : LSystem) (rng rng' : Rand)
    (rules rules' : List (Option Rule)) (input : List Module)
    (h : calculateRules ls rng rules input = .ok (rules', rng'))
    (i : Nat) (mod : Module) (hi : input[i]? = some mod) (hlen : i < rules.length) :
    (∀ r, matchingAt ls.Parameters.Rules input i mod = .ok [r] →
      rules'[i]? = some (some r) ∧
      ∀ st : SelectorState, st.matching = [] →
        calculateRulesStep ls.Parameters.Rules input i mod st =
          .ok { rules := st.rules.set i (some r), matching := [], rng := st.rng }) ∧
    (matchingAt ls.Parameters.Rules input i mod = .ok [] →
      rules'[i]? = rules[i]? ∧
      ∀ st : SelectorState, st.matching = [] →
        calculateRulesStep ls.Parameters.Rules input i mod st =
          .ok { rules := st.rules, matching := [], rng := st.rng }) := by
  unfold calculateRules at h
  split at h
  · simp at h
  · rename_i st' hloop
    simp only [Except.ok.injEq, Prod.mk.injEq] at h
    obtain ⟨-, -, hpos⟩ := calculateRulesLoop_position input 0 _ st' rfl rfl hloop
    obtain ⟨sb, sa, hstep, hsbm, hsbr, hres, -, -⟩ := hpos i mod (Nat.zero_le _) hi
    have hsblen : i < sb.rules.length := by
      have h1 : sb.rules[i]? = rules[i]? := hsbr
      by_contra hcon
      rw [List.getElem?_eq_none (by omega), List.getElem?_eq_getElem hlen] at h1
      simp at h1
    rw [← h.1, hres]
    constructor
    · intro r hr
      have hall : ∀ st : SelectorState, st.matching = [] →
          calculateRulesStep ls.Parameters.Rules input i mod st =
            .ok { rules := st.rules.set i (some r), matching := [], rng := st.rng } := by
        intro st hst
        rw [calculateRulesStep_of_matching st hst hr]
        simp [selectRule]
      refine ⟨?_, hall⟩
      rw [hall sb hsbm] at hstep
      simp only [Except.ok.injEq] at hstep
      rw [← hstep]
      simp [List.getElem?_set, hsblen]
    · intro hr
      have hall : ∀ st : SelectorState, st.matching = [] →
          calculateRulesStep ls.Parameters.Rules input i mod st =
            .ok { rules := st.rules, matching := [], rng := st.rng } := by
        intro st hst
        rw [calculateRulesStep_of_matching st hst hr]
        simp [selectRule]
      refine ⟨?_, hall⟩
      rw [hall sb hsbm] at hstep
      simp only [Except.ok.injEq] at hstep
      rw [← hstep]
      exact hsbr

theorem classic_calculateRules :
    calculateRules (New zeroSource 4 classicGrammar) (New zeroSource 4 classicGrammar).rng
        [none, none] classicGrammar.Axiom
      = .ok ([none, some ruleVX.toRule], (New zeroSource 4 classicGrammar).rng) := rfl

/-- Witness of C7 on the grammar `V -> X` and the tier `[A, V]`: the rule is stored at
position 1, nothing at position 0. -/
theorem calculateRules_one_or_no_match_witness :
    ([none, some ruleVX.toRule] : List (Option Rule))[1]? = some (some ruleVX.toRule) ∧
    ([none, some ruleVX.toRule] : List (Option Rule))[0]?
      = ([none, none] : List (Option Rule))[0]? :=
  ⟨((calculateRules_one_or_no_match (New zeroSource 4 classicGrammar) _ _ _ _ _
      classic_calculateRules 1 ⟨'V', []⟩ rfl (by decide)).1 ruleVX.toRule rfl).1,
   ((calculateRules_one_or_no_match (New zeroSource 4 classicGrammar) _ _ _ _ _
      classic_calculateRules 0 ⟨'A', []⟩ rfl (by decide)).2 rfl).1⟩

/-! ## Contexts at a partition boundary -/

set_option maxRecDepth 100000 in
/-- C3. On 128 modules and two workers the tier is cut into `[0, 64)` and `[64, 128)`.
The rule `A < V -> Y` matches module 64 (`V`) with the contexts taken from the whole tier
(module 63 is `A`), yet the worker of the second partition, whose left context starts at
module 64, collects no candidate for it: nothing is selected anywhere and the new tier is
empty, where one worker alone produces `[Y]`. -/
theorem context_is_cut_at_partition_boundary :
    splits (New zeroSource 2 boundaryGrammar) = .ok (2, 64, 0) ∧
    ruleAVY.toRule.Matches ⟨'V', []⟩ (boundaryGrammar.Axiom.take 64)
      (boundaryGrammar.Axiom.drop 65) = some true ∧
    matchingAt boundaryGrammar.Rules (sectionOf boundaryGrammar.Axiom (64, 64)) 0 ⟨'V', []⟩
      = .ok [] ∧
    selectedAt (selectedRules (New zeroSource 2 boundaryGrammar))
      = some (List.replicate 128 false) ∧
    tierOf (Derivate ⟨false⟩ (New zeroSource 2 boundaryGrammar)) = some [] ∧
    tierOf (Derivate ⟨false⟩ (New zeroSource 1 boundaryGrammar)) = some [⟨'Y', []⟩] := by
  refine ⟨?_, ?_, ?_, ?_, ?_, ?_⟩
  · rfl
  · rfl
  · rfl
  · rfl
  · rfl
  · rfl

/-! ## Negative priorities, and the right context of `GeneralRule.Matches` -/

/-- C4. Two rules match `V`, with priorities `-1` and `-2`. The largest priority among
them is `-1`, held by the first rule alone, yet the filter, whose running maximum starts
at `0`, keeps no rule: nothing is selected and the new tier is empty instead of `[X]`. -/
theorem priority_filter_drops_negative_priorities :
    matchingAt negativePriorityGrammar.Rules [⟨'V', []⟩] 0 ⟨'V', []⟩
      = .ok [priorityRule (-1) 'X', priorityRule (-2) 'Y'] ∧
    scanPriority [priorityRule (-1) 'X', priorityRule (-2) 'Y'] (0, 0) = (0, 0) ∧
    priorityFilter [priorityRule (-1) 'X', priorityRule (-2) 'Y'] = [] ∧
    (selectRule [priorityRule (-1) 'X', priorityRule (-2) 'Y']
      (New zeroSource 1 negativePriorityGrammar).rng).1 = none ∧
    tierOf (Derivate ⟨false⟩ (New zeroSource 1 negativePriorityGrammar)) = some [] :=
  ⟨rfl, rfl, rfl, rfl, rfl⟩

/-- C8. `GeneralRule.Matches` compares the right context with the left neighbourhood.
The rule `A < V > B` accepts `V` between `[A]` and `[C]`, whose right neighbour is not
`B`; it rejects `V` between `[X, A]` and `[B]`, where both contexts fit; and the rule
`V > B`, which has no left context, panics on `V` between `[A]` and `[B]`. -/
theorem Matches_reads_left_for_right_context :
    ruleAVBY.Matches ⟨'V', []⟩ [⟨'A', []⟩] [⟨'C', []⟩] = some true ∧
    ruleAVBY.Matches ⟨'V', []⟩ [⟨'X', []⟩, ⟨'A', []⟩] [⟨'B', []⟩] = some false ∧
    ruleVBY.Matches ⟨'V', []⟩ [⟨'A', []⟩] [⟨'B', []⟩] = none :=
  ⟨rfl, rfl, rfl⟩

/-! ## Context-sensitive general rules take precedence -/

/-- A call of `Derivate` that returns has no error to report, has advanced the tier
counter by one, modulo `2 ^ 64`, and has left parameters and tunables alone. -/
theorem Derivate_counter {ctx : Context} {ls ls' : LSystem} {e : Option String}
    (h : Derivate ctx ls = .ok (e, ls')) :
    e = none ∧ ls'.currentTier = (ls.currentTier + 1) % 2 ^ 64 ∧
      ls'.Parameters = ls.Parameters ∧
      ls'.subsectionMinimumSize = ls.subsectionMinimumSize ∧
      ls'.maxWorkers = ls.maxWorkers ∧ ls'.env = ls.env := by
  unfold Derivate at h
  split at h
  · simp at h
  · dsimp only at h
    split at h
    · simp at h
    · split at h
      · simp at h
      · split at h
        · simp at h
        · split at h
          · simp at h
          · simp only [Except.ok.injEq, Prod.mk.injEq] at h
            obtain ⟨h1, h2⟩ := h
            subst h1 h2
            exact ⟨rfl, rfl, rfl, rfl, rfl, rfl⟩

/-- While the counter is at most `maxTiers` and cannot wrap, `DerivateUntil` is the
iteration of `Derivate` as many times as it takes the counter to pass `maxTiers`. -/
theorem DerivateUntil_eq_iterate (ctx : Context) (maxTiers : Nat)
    (hmax : maxTiers + 1 < 2 ^ 64) :
    ∀ (n fuel : Nat) (ls : LSystem), ls.currentTier + n = maxTiers + 1 → n < fuel →
      DerivateUntil ctx maxTiers fuel ls = some (iterateDerivate ctx n ls) := by
  intro n
  induction n with
  | zero =>
    intro fuel ls hn hfuel
    obtain ⟨fuel, rfl⟩ : ∃ f, fuel = f + 1 := ⟨fuel - 1, by omega⟩
    have : ¬ ls.currentTier ≤ maxTiers := by omega
    simp [DerivateUntil, iterateDerivate, this]
  | succ n ih =>
    intro fuel ls hn hfuel
    obtain ⟨fuel, rfl⟩ : ∃ f, fuel = f + 1 := ⟨fuel - 1, by omega⟩
    have hle : ls.currentTier ≤ maxTiers := by omega
    simp only [DerivateUntil, iterateDerivate, if_pos hle]
    cases hd : Derivate ctx ls with
    | error e => rfl
    | ok res =>
      obtain ⟨e, ls'⟩ := res
      obtain ⟨he, hc, -⟩ := Derivate_counter hd
      subst he
      dsimp only
      apply ih
      · rw [hc, Nat.mod_eq_of_lt (by omega)]
        omega
      · omega

/-- The counter after `n` calls of `Derivate` that all returned. -/
theorem iterateDerivate_counter (ctx : Context) :
    ∀ (n : Nat) (ls ls' : LSystem) (e : Option String),
      iterateDerivate ctx n ls = .ok (e, ls') → ls.currentTier + n < 2 ^ 64 →
      e = none ∧ ls'.currentTier = ls.currentTier + n := by
  intro n
  induction n with
  | zero =>
    intro ls ls' e h _
    simp only [iterateDerivate, Except.ok.injEq, Prod.mk.injEq] at h
    exact ⟨h.1.symm, by rw [← h.2]; rfl⟩
  | succ n ih =>
    intro ls ls' e h hlt
    simp only [iterateDerivate] at h
    cases hd : Derivate ctx ls with
    | error e => rw [hd] at h; simp at h
    | ok res =>
      obtain ⟨e1, ls1⟩ := res
      obtain ⟨he, hc, -⟩ := Derivate_counter hd
      subst he
      rw [hd] at h
      dsimp only at h
      have hc' : ls1.currentTier = ls.currentTier + 1 := by
        rw [hc, Nat.mod_eq_of_lt (by omega)]
      obtain ⟨h1, h2⟩ := ih ls1 ls' e h (by omega)
      exact ⟨h1, by rw [h2, hc']; omega⟩

/-- C10, amended. For every `k` with `k + 1 < 2 ^ 64`, `DerivateUntil(ctx, k)` on a fresh
L-system ends its loop within `k + 2` iterations and is `k + 1` calls of `Derivate` in a
row: when these all return, the call returns no error and `CurrentTier()` is `k + 1`;
when one of them panics, so does the call. Every call of `Derivate` that returns has
advanced the counter by one, modulo `2 ^ 64`. -/
theorem DerivateUntil_reaches_next_tier (ctx : Context) (NewSource : Int → Nat → F64)
    (maxWorkers : Nat) (parameters : Parameters) (k : Nat) (hk : k + 1 < 2 ^ 64) :
    (∀ fuel, k + 1 < fuel →
      DerivateUntil ctx k fuel (New NewSource maxWorkers parameters)
        = some (iterateDerivate ctx (k + 1) (New NewSource maxWorkers parameters))) ∧
    (∀ e ls', iterateDerivate ctx (k + 1) (New NewSource maxWorkers parameters) = .ok (e, ls') →
      e = none ∧ ls'.CurrentTier = k + 1) ∧
    (∀ ls e ls', Derivate ctx ls = .ok (e, ls') →
      ls'.CurrentTier = (ls.CurrentTier + 1) % 2 ^ 64) := by
  refine ⟨?_, ?_, ?_⟩
  · intro fuel hfuel
    exact DerivateUntil_eq_iterate ctx k hk (k + 1) fuel _ (by simp [New]) hfuel
  · intro e ls' h
    have := iterateDerivate_counter ctx (k + 1) _ ls' e h (by simp [New]; omega)
    simpa [New, LSystem.CurrentTier] using this
  · intro ls e ls' h
    exact (Derivate_counter h).2.1

/-- Witness of C10, amended: on the doubling grammar of the tests, `DerivateUntil(ctx, 3)`
returns with the counter at 4 and a tier of 16 modules. -/
theorem DerivateUntil_reaches_next_tier_witness :
    ∃ ls', DerivateUntil ⟨false⟩ 3 5 (New zeroSource 4 TestParameters) = some (.ok (none, ls')) ∧
      ls'.CurrentTier = 4 ∧ ls'.Export.length = 16 := by
  have h := (DerivateUntil_reaches_next_tier ⟨false⟩ zeroSource 4 TestParameters 3
    (by decide)).1 5 (by decide)
  have hit : ∃ ls', iterateDerivate ⟨false⟩ 4 (New zeroSource 4 TestParameters)
      = .ok (none, ls') ∧ ls'.CurrentTier = 4 ∧ ls'.Export.length = 16 :=
    ⟨_, rfl, rfl, rfl⟩
  obtain ⟨ls', h1, h2, h3⟩ := hit
  exact ⟨ls', by rw [h, h1], h2, h3⟩

/-- On an empty tier `Derivate` returns an empty tier and advances the counter. -/
theorem Derivate_empty (ctx : Context) (ls : LSystem) (ht : ls.tier = [])
    (hm : ls.subsectionMinimumSize = 64) :
    Derivate ctx ls = .ok (none, { ls with currentTier := (ls.currentTier + 1) % 2 ^ 64 }) := by
  obtain ⟨P, env, cur, rng, tier, smin, mw⟩ := ls
  simp only at ht hm
  subst ht hm
  have hw : wrapInt 0 = 0 := rfl
  simp [Derivate, splits, sections, sizeSections, sizeSection, calculateRules,
    calculateRulesLoop, calculateOutputSize, outputSections, rewriteSections, rewrite,
    rewriteLoop, hw]

theorem DerivateUntil_max_never_ends (ctx : Context) :
    ∀ (fuel : Nat) (ls : LSystem), ls.tier = [] → ls.subsectionMinimumSize = 64 →
      ls.currentTier < 2 ^ 64 → DerivateUntil ctx (2 ^ 64 - 1) fuel ls = none := by
  intro fuel
  induction fuel with
  | zero => intro ls _ _ _; rfl
  | succ fuel ih =>
    intro ls ht hm hc
    have hle : ls.currentTier ≤ 2 ^ 64 - 1 := by omega
    simp only [DerivateUntil, if_pos hle, Derivate_empty ctx ls ht hm]
    exact ih _ ht hm (Nat.mod_lt _ (by norm_num))

/-- C10, as stated, fails at `k = 2 ^ 64 - 1`, the largest value of the counter: on the
grammar with an empty axiom and no rule every call of `Derivate` returns, the counter
never exceeds `k`, and no number of iterations ends the loop of `DerivateUntil`. -/
theorem DerivateUntil_max_tiers_diverges :
    ¬ ∃ fuel out, DerivateUntil ⟨false⟩ (2 ^ 64 - 1) fuel (New zeroSource 1 emptyGrammar)
      = some out := by
  rintro ⟨fuel, out, h⟩
  rw [DerivateUntil_max_never_ends ⟨false⟩ fuel _ rfl rfl (by simp [New])] at h
  simp at h

/-! ## float64: the facts the selector rests on -/

namespace F64

theorem abs_eq_natAbs_div_den (q : ℚ) : |q| = (q.num.natAbs : ℚ) / (q.den : ℚ) := by
  have h : |(q.num : ℚ)| = (q.num.natAbs : ℚ) := by
    rw [Nat.cast_natAbs, Int.cast_abs]
  rw [← h, ← Nat.abs_cast q.den, ← abs_div, Rat.num_div_den]

theorem two_pow_log2Fuel_le : ∀ (fuel n : Nat), n ≠ 0 → 2 ^ log2Fuel fuel n ≤ n := by
  intro fuel
  induction fuel with
  | zero => intro n hn; simp only [log2Fuel, pow_zero]; omega
  | succ fuel ih =>
    intro n hn
    simp only [log2Fuel]
    split
    · have := ih (n / 2) (by omega)
      rw [pow_succ]
      omega
    · simp only [pow_zero]; omega

theorem lt_two_pow_log2Fuel : ∀ (fuel n : Nat), n ≤ fuel → n < 2 ^ (log2Fuel fuel n + 1) := by
  intro fuel
  induction fuel with
  | zero => intro n hn; simp only [log2Fuel]; omega
  | succ fuel ih =>
    intro n hn
    simp only [log2Fuel]
    split
    · have := ih (n / 2) (by omega)
      rw [pow_succ]
      omega
    · simp only [zero_add, pow_one]; omega

theorem two_pow_log2Nat_le (n : Nat) (hn : n ≠ 0) : 2 ^ log2Nat n ≤ n :=
  two_pow_log2Fuel_le n n hn

theorem lt_two_pow_log2Nat (n : Nat) : n < 2 ^ (log2Nat n + 1) :=
  lt_two_pow_log2Fuel n n (le_refl n)

/-- The function `ilog2` does not overshoot: `2 ^ ilog2 q ≤ |q|` for `q ≠ 0`. -/
theorem two_zpow_ilog2_le (q : ℚ) (hq : q ≠ 0) : (2 : ℚ) ^ ilog2 q ≤ |q| := by
  unfold ilog2
  dsimp only
  split
  · assumption
  · have hn0 : q.num.natAbs ≠ 0 := by
      simpa [Int.natAbs_eq_zero] using hq
    have hn : (2 : ℚ) ^ (log2Nat q.num.natAbs) ≤ (q.num.natAbs : ℚ) := by
      exact_mod_cast two_pow_log2Nat_le _ hn0
    have hd : (q.den : ℚ) ≤ (2 : ℚ) ^ (log2Nat q.den + 1) := by
      exact_mod_cast le_of_lt (lt_two_pow_log2Nat q.den)
    have hdpos : (0 : ℚ) < q.den := by exact_mod_cast q.den_pos
    rw [abs_eq_natAbs_div_den]
    have hexp : (2 : ℚ) ^ ((log2Nat q.num.natAbs : ℤ) - (log2Nat q.den : ℤ) - 1)
        = (2 : ℚ) ^ (log2Nat q.num.natAbs) / (2 : ℚ) ^ (log2Nat q.den + 1) := by
      have : ((log2Nat q.num.natAbs : ℤ) - (log2Nat q.den : ℤ) - 1)
          = (log2Nat q.num.natAbs : ℤ) - ((log2Nat q.den + 1 : ℕ) : ℤ) := by
        push_cast; ring
      rw [this, zpow_sub₀ (by norm_num), zpow_natCast, zpow_natCast]
    rw [hexp, div_le_div_iff₀ (by positivity) hdpos]
    calc (2 : ℚ) ^ (log2Nat q.num.natAbs) * (q.den : ℚ)
        ≤ (q.num.natAbs : ℚ) * (q.den : ℚ) := by
          exact mul_le_mul_of_nonneg_right hn (le_of_lt hdpos)
      _ ≤ (q.num.natAbs : ℚ) * (2 : ℚ) ^ (log2Nat q.den + 1) := by
          exact mul_le_mul_of_nonneg_left hd (by positivity)

/-- The function `ilog2` does not undershoot: `|q| < 2 ^ (ilog2 q + 1)`. -/
theorem abs_lt_two_zpow_ilog2_succ (q : ℚ) : |q| < (2 : ℚ) ^ (ilog2 q + 1) := by
  unfold ilog2
  dsimp only
  split
  · have hn : (q.num.natAbs : ℚ) < (2 : ℚ) ^ (log2Nat q.num.natAbs + 1) := by
      exact_mod_cast lt_two_pow_log2Nat q.num.natAbs
    have hd : (2 : ℚ) ^ (log2Nat q.den) ≤ (q.den : ℚ) := by
      exact_mod_cast two_pow_log2Nat_le _ (Nat.pos_iff_ne_zero.mp q.den_pos)
    have hdpos : (0 : ℚ) < q.den := by exact_mod_cast q.den_pos
    rw [abs_eq_natAbs_div_den]
    have hexp : (2 : ℚ) ^ ((log2Nat q.num.natAbs : ℤ) - (log2Nat q.den : ℤ) + 1)
        = (2 : ℚ) ^ (log2Nat q.num.natAbs + 1) / (2 : ℚ) ^ (log2Nat q.den) := by
      have : ((log2Nat q.num.natAbs : ℤ) - (log2Nat q.den : ℤ) + 1)
          = ((log2Nat q.num.natAbs + 1 : ℕ) : ℤ) - ((log2Nat q.den : ℕ) : ℤ) := by
        push_cast; ring
      rw [this, zpow_sub₀ (by norm_num), zpow_natCast, zpow_natCast]
    rw [hexp, div_lt_div_iff₀ hdpos (by positivity)]
    calc (q.num.natAbs : ℚ) * (2 : ℚ) ^ (log2Nat q.den)
        ≤ (q.num.natAbs : ℚ) * (q.den : ℚ) :=
          mul_le_mul_of_nonneg_left hd (by positivity)
      _ < (2 : ℚ) ^ (log2Nat q.num.natAbs + 1) * (q.den : ℚ) :=
          mul_lt_mul_of_pos_right hn hdpos
  · rename_i h
    push_neg at h
    simpa using h

theorem tiny_pos : 0 < tiny := by
  unfold tiny
  positivity

theorem ulp_pos (q : ℚ) : 0 < ulp q := by
  unfold ulp
  positivity

theorem tiny_le_ulp (q : ℚ) : tiny ≤ ulp q := by
  unfold ulp tiny
  apply zpow_le_zpow_right₀ (by norm_num)
  have := le_max_right (ilog2 q) (-1022)
  omega

/-- From the smallest positive float64 on, the grid spacing is at most the value. -/
theorem ulp_le_self (q : ℚ) (hq : tiny ≤ q) : ulp q ≤ q := by
  have hpos : 0 < q := lt_of_lt_of_le tiny_pos hq
  by_cases h : ilog2 q ≤ -1022
  · have : ulp q = tiny := by
      unfold ulp tiny
      rw [max_eq_right h]
      norm_num
    rw [this]
    exact hq
  · push_neg at h
    have h1 := two_zpow_ilog2_le q (ne_of_gt hpos)
    rw [abs_of_pos hpos] at h1
    unfold ulp
    rw [max_eq_left (le_of_lt h)]
    exact le_trans (zpow_le_zpow_right₀ (by norm_num) (by omega)) h1

theorem floor_le_rne (x : ℚ) : ⌊x⌋ ≤ rne x := by
  unfold rne
  dsimp only
  split
  · exact le_refl _
  · split
    · omega
    · split <;> omega

theorem rne_le_floor_add_one (x : ℚ) : rne x ≤ ⌊x⌋ + 1 := by
  unfold rne
  dsimp only
  split
  · omega
  · split
    · omega
    · split <;> omega

/-- Rounding a value that is at least the smallest positive float64 gives a float64 that
is at least that, or `+Inf`. -/
theorem round_of_tiny_le (q : ℚ) (hq : tiny ≤ q) :
    round q = pinf ∨ ∃ y, tiny ≤ y ∧ round q = fin y := by
  have hu := ulp_le_self q hq
  have hupos := ulp_pos q
  have h1 : (1 : ℚ) ≤ q / ulp q := by
    rw [le_div_iff₀ hupos]
    simpa using hu
  have hfl : (1 : ℤ) ≤ ⌊q / ulp q⌋ := Int.le_floor.mpr (by exact_mod_cast h1)
  have hrne : (1 : ℤ) ≤ rne (q / ulp q) := le_trans hfl (floor_le_rne _)
  have hr : tiny ≤ (rne (q / ulp q) : ℚ) * ulp q := by
    have : (1 : ℚ) ≤ (rne (q / ulp q) : ℚ) := by exact_mod_cast hrne
    calc tiny ≤ ulp q := tiny_le_ulp q
      _ = 1 * ulp q := by ring
      _ ≤ (rne (q / ulp q) : ℚ) * ulp q :=
          mul_le_mul_of_nonneg_right this (le_of_lt hupos)
  unfold round
  dsimp only
  split
  · exact Or.inl rfl
  · split
    · rename_i hneg
      exfalso
      have : (0 : ℚ) < (rne (q / ulp q) : ℚ) * ulp q := lt_of_lt_of_le tiny_pos hr
      have h2 : (0 : ℚ) < (2 : ℚ) ^ (1024 : ℕ) := by positivity
      linarith
    · exact Or.inr ⟨_, hr, rfl⟩

/-- A positive float64 is at least `2 ^ (-1074)`. -/
theorem tiny_le_of_isBinary64 (q : ℚ) (hpos : 0 < q) (h : IsBinary64 (fin q)) : tiny ≤ q := by
  by_contra hlt
  push_neg at hlt
  have hlog : ilog2 q ≤ -1022 := by
    have h1 := two_zpow_ilog2_le q (ne_of_gt hpos)
    rw [abs_of_pos hpos] at h1
    have h2 : (2 : ℚ) ^ ilog2 q < (2 : ℚ) ^ (-1074 : ℤ) := lt_of_le_of_lt h1 hlt
    have := (zpow_lt_zpow_iff_right₀ (by norm_num : (1 : ℚ) < 2)).mp h2
    omega
  have hulp : ulp q = tiny := by
    unfold ulp tiny
    rw [max_eq_right hlog]
    norm_num
  have hx0 : 0 < q / tiny := div_pos hpos tiny_pos
  have hx1 : q / tiny < 1 := by
    rw [div_lt_one tiny_pos]
    exact hlt
  have hfloor : ⌊q / tiny⌋ = 0 := by
    rw [Int.floor_eq_iff]
    constructor
    · simpa using le_of_lt hx0
    · simpa using hx1
  have hr0 := floor_le_rne (q / tiny)
  have hr1 := rne_le_floor_add_one (q / tiny)
  rw [hfloor] at hr0 hr1
  have hcases : rne (q / tiny) = 0 ∨ rne (q / tiny) = 1 := by omega
  unfold IsBinary64 round at h
  dsimp only at h
  rw [hulp] at h
  split at h
  · simp at h
  · split at h
    · simp at h
    · simp only [fin.injEq] at h
      rcases hcases with hc | hc
      · rw [hc] at h
        simp at h
        linarith
      · rw [hc] at h
        simp at h
        linarith

theorem add_eq_fin {x y : F64} {q : ℚ} (h : add x y = fin q) :
    ∃ a b, x = fin a ∧ y = fin b := by
  cases x <;> cases y <;> simp [add] at h ⊢

end F64

/-! ## The selector: stochastic choice -/

theorem F64.lt_irrefl (x : F64) : F64.lt x x = false := by
  cases x <;> simp [F64.lt]

theorem F64.lt_asymm {x y : F64} (h : F64.lt x y = true) : F64.lt y x = false := by
  cases x <;> cases y <;> simp [F64.lt] at h ⊢
  exact le_of_lt h

theorem F64.not_lt_trans {x y z : F64} (hy : y ≠ F64.nan) (h1 : F64.lt x y = false)
    (h2 : F64.lt y z = false) : F64.lt x z = false := by
  cases x <;> cases y <;> cases z <;> simp [F64.lt] at h1 h2 hy ⊢
  exact le_trans h2 h1

theorem insertStable_perm (r : Rule) :
    ∀ sortedRev : List Rule, (insertStable r sortedRev).Perm (r :: sortedRev) := by
  intro sortedRev
  induction sortedRev with
  | nil => simp [insertStable]
  | cons y ys ih =>
    simp only [insertStable]
    split
    · exact ((List.Perm.cons y ih).trans (List.Perm.swap r y ys))
    · exact List.Perm.refl _

theorem sliceStableLoop_perm :
    ∀ todo sortedRev : List Rule,
      (sliceStableLoop todo sortedRev).Perm (sortedRev.reverse ++ todo) := by
  intro todo
  induction todo with
  | nil => intro sortedRev; simp [sliceStableLoop]
  | cons r rest ih =>
    intro sortedRev
    simp only [sliceStableLoop]
    refine (ih _).trans ?_
    have h1 : ((insertStable r sortedRev).reverse).Perm ((r :: sortedRev).reverse) :=
      (List.reverse_perm _).trans ((insertStable_perm r sortedRev).trans
        (List.reverse_perm _).symm)
    refine (List.Perm.append_right rest h1).trans ?_
    simp

/-- The function `sort.SliceStable` rearranges the rules. -/
theorem sliceStable_perm (matching : List Rule) : (sliceStable matching).Perm matching := by
  simpa [sliceStable] using sliceStableLoop_perm matching []

theorem insertStable_descending (r : Rule) :
    ∀ sortedRev : List Rule,
      (∀ y ∈ sortedRev, y.Probability ≠ F64.nan) →
      sortedRev.Pairwise (fun a b => F64.lt a.Probability b.Probability = false) →
      (insertStable r sortedRev).Pairwise
        (fun a b => F64.lt a.Probability b.Probability = false) := by
  intro sortedRev
  induction sortedRev with
  | nil => intro _ _; simp [insertStable]
  | cons y ys ih =>
    intro hnan hsorted
    obtain ⟨hy, hys⟩ := List.pairwise_cons.mp hsorted
    simp only [insertStable]
    split
    · rename_i hlt
      apply List.pairwise_cons.mpr
      refine ⟨?_, ih (fun z hz => hnan z (List.mem_cons_of_mem _ hz)) hys⟩
      intro z hz
      rcases List.mem_cons.mp ((insertStable_perm r ys).subset hz) with hz | hz
      · subst hz
        exact F64.lt_asymm hlt
      · exact hy z hz
    · rename_i hlt
      have hlt' : F64.lt r.Probability y.Probability = false := by simpa using hlt
      apply List.pairwise_cons.mpr
      refine ⟨?_, hsorted⟩
      intro z hz
      rcases List.mem_cons.mp hz with hz | hz
      · subst hz
        exact hlt'
      · exact F64.not_lt_trans (hnan y (List.mem_cons_self _ _)) hlt' (hy z hz)

theorem sliceStableLoop_ascending :
    ∀ todo sortedRev : List Rule,
      (∀ y ∈ todo, y.Probability ≠ F64.nan) →
      (∀ y ∈ sortedRev, y.Probability ≠ F64.nan) →
      sortedRev.Pairwise (fun a b => F64.lt a.Probability b.Probability = false) →
      AscendingProbability (sliceStableLoop todo sortedRev) := by
  intro todo
  induction todo with
  | nil =>
    intro sortedRev _ _ hs
    simp only [sliceStableLoop, AscendingProbability]
    exact List.pairwise_reverse.mpr hs
  | cons r rest ih =>
    intro sortedRev hnt hns hs
    simp only [sliceStableLoop]
    apply ih
    · exact fun y hy => hnt y (List.mem_cons_of_mem _ hy)
    · intro y hy
      rcases List.mem_cons.mp ((insertStable_perm r sortedRev).subset hy) with hy | hy
      · subst hy
        exact hnt y (List.mem_cons_self _ _)
      · exact hns y hy
    · exact insertStable_descending r sortedRev hns hs

/-- The function `sort.SliceStable` puts rules without NaN probability in ascending order of
probability. -/
theorem sliceStable_ascending (matching : List Rule)
    (hnan : ∀ r ∈ matching, r.Probability ≠ F64.nan) :
    AscendingProbability (sliceStable matching) :=
  sliceStableLoop_ascending matching [] hnan (by simp) List.Pairwise.nil

theorem insertStable_filter (p : F64) (r : Rule) :
    ∀ sortedRev : List Rule,
      (insertStable r sortedRev).filter (fun x => decide (x.Probability = p))
        = (r :: sortedRev).filter (fun x => decide (x.Probability = p)) := by
  intro sortedRev
  induction sortedRev with
  | nil => simp [insertStable]
  | cons y ys ih =>
    simp only [insertStable]
    split
    · rename_i hlt
      have hne : ¬ (r.Probability = p ∧ y.Probability = p) := by
        rintro ⟨h1, h2⟩
        rw [h1, h2, F64.lt_irrefl] at hlt
        simp at hlt
      rw [List.filter_cons, ih]
      by_cases hr : r.Probability = p
      · have hy : ¬ y.Probability = p := fun h => hne ⟨hr, h⟩
        simp [List.filter_cons, hr, hy]
      · simp [List.filter_cons, hr]
    · rfl

theorem sliceStableLoop_filter (p : F64) :
    ∀ todo sortedRev : List Rule,
      (sliceStableLoop todo sortedRev).filter (fun x => decide (x.Probability = p))
        = (sortedRev.reverse ++ todo).filter (fun x => decide (x.Probability = p)) := by
  intro todo
  induction todo with
  | nil => intro sortedRev; simp [sliceStableLoop]
  | cons r rest ih =>
    intro sortedRev
    simp only [sliceStableLoop]
    rw [ih, List.filter_append, List.filter_reverse, insertStable_filter]
    simp [List.filter_cons, List.filter_append, List.filter_reverse]
    split <;> simp

/-- The function `sort.SliceStable` is stable: rules of equal probability keep their order. -/
theorem sliceStable_stable (matching : List Rule) (p : F64) :
    (sliceStable matching).filter (fun x => decide (x.Probability = p))
      = matching.filter (fun x => decide (x.Probability = p)) := by
  simpa [sliceStable] using sliceStableLoop_filter p matching []

/-- The loop of lines 119-126 stops at the first rule whose running sum exceeds `n`. -/
theorem pick_eq_find (scalingFactor n : F64) :
    ∀ (sorted : List Rule) (cum : F64),
      pick scalingFactor n cum sorted
        = ((sorted.zip (runningSums scalingFactor cum sorted)).find?
            (fun p => F64.lt n p.2)).map Prod.fst := by
  intro sorted
  induction sorted with
  | nil => intro cum; simp [pick, runningSums]
  | cons r rest ih =>
    intro cum
    simp only [pick, runningSums, List.zip_cons_cons, List.find?_cons]
    split
    · rename_i h
      simp [h]
    · rename_i h
      have h' : F64.lt n (F64.add cum (F64.mul scalingFactor r.Probability)) = false := by
        simpa using h
      simp only [h']
      exact ih _

/-- The loop of lines 119-126, in a build that fuses line 119, stops at the first rule
whose running sum exceeds `n`. -/
theorem pickFused_eq_find (scalingFactor n : F64) :
    ∀ (sorted : List Rule) (cum : F64),
      pickFused scalingFactor n cum sorted
        = ((sorted.zip (runningSumsFused scalingFactor cum sorted)).find?
            (fun p => F64.lt n p.2)).map Prod.fst := by
  intro sorted
  induction sorted with
  | nil => intro cum; simp [pickFused, runningSumsFused]
  | cons r rest ih =>
    intro cum
    simp only [pickFused, runningSumsFused, List.zip_cons_cons, List.find?_cons]
    split
    · rename_i h
      simp [h]
    · rename_i h
      have h' : F64.lt n (F64.fma scalingFactor r.Probability cum) = false := by
        simpa using h
      simp only [h']
      exact ih _

/-- C5, amended. Where at least two rules remain after the priority filter and none has a
NaN probability, `calculateRules` draws exactly one number `u` and selects the first
rule, in stable ascending order of probability, whose running sum strictly exceeds `u`;
it selects no rule when no running sum does. The running sum is the float64 value of
`cum` after `cum += (1/S) * probability`: in a build that rounds the product and the sum
separately it is `runningSums`, in a build that fuses them into one multiply-add it is
`runningSumsFused`. -/
theorem stochastic_selects_first_exceeding (matching : List Rule) (rng : Rand)
    (hlen : 1 < (survivorsOf matching).length)
    (hnan : ∀ r ∈ survivorsOf matching, r.Probability ≠ F64.nan) :
    selectRule matching rng =
      (firstExceeding (F64.div (F64.fin 1) (sumProbability (survivorsOf matching)))
          (rng.stream rng.drawn) (sliceStable (survivorsOf matching)),
        { rng with drawn := rng.drawn + 1 }) ∧
    selectRuleFused matching rng =
      (firstExceedingFused (F64.div (F64.fin 1) (sumProbability (survivorsOf matching)))
          (rng.stream rng.drawn) (sliceStable (survivorsOf matching)),
        { rng with drawn := rng.drawn + 1 }) ∧
    (sliceStable (survivorsOf matching)).Perm (survivorsOf matching) ∧
    AscendingProbability (sliceStable (survivorsOf matching)) ∧
    ∀ p, (sliceStable (survivorsOf matching)).filter (fun x => decide (x.Probability = p))
      = (survivorsOf matching).filter (fun x => decide (x.Probability = p)) := by
  refine ⟨?_, ?_, sliceStable_perm _, sliceStable_ascending _ hnan, sliceStable_stable _⟩
  · have h : selectRule matching rng = stochastic (survivorsOf matching) rng := by
      unfold selectRule
      simp only [survivorsOf] at hlen ⊢
      rw [if_pos hlen]
    rw [h]
    simp only [stochastic, Rand.Float64, firstExceeding, pick_eq_find]
  · have h : selectRuleFused matching rng = stochasticFused (survivorsOf matching) rng := by
      unfold selectRuleFused
      simp only [survivorsOf] at hlen ⊢
      rw [if_pos hlen]
    rw [h]
    simp only [stochasticFused, Rand.Float64, firstExceedingFused, pickFused_eq_find]

/-! ## The selector: probabilities that sum to zero -/

theorem sum_fin_of_fin :
    ∀ (l : List Rule) (acc : F64) (q : ℚ),
      l.foldl (fun s r => F64.add s r.Probability) acc = F64.fin q →
      (∃ a, acc = F64.fin a) ∧ ∀ r ∈ l, ∃ a, r.Probability = F64.fin a := by
  intro l
  induction l with
  | nil => intro acc q h; exact ⟨⟨q, h⟩, by simp⟩
  | cons r rest ih =>
    intro acc q h
    simp only [List.foldl_cons] at h
    obtain ⟨⟨a, ha⟩, hrest⟩ := ih _ _ h
    obtain ⟨x, y, hx, hy⟩ := F64.add_eq_fin ha
    refine ⟨⟨x, hx⟩, ?_⟩
    intro r' hr'
    rcases List.mem_cons.mp hr' with h1 | h1
    · subst h1
      exact ⟨y, hy⟩
    · exact hrest r' h1

/-- A float sum that has reached the smallest positive float64 or `+Inf` stays there
while positive float64 values are added. -/
theorem sum_stays_positive :
    ∀ (l : List Rule) (acc : F64),
      (acc = F64.pinf ∨ ∃ y, F64.tiny ≤ y ∧ acc = F64.fin y) →
      (∀ r ∈ l, ∃ q, F64.tiny ≤ q ∧ r.Probability = F64.fin q) →
      (l.foldl (fun s r => F64.add s r.Probability) acc = F64.pinf ∨
        ∃ y, F64.tiny ≤ y ∧ l.foldl (fun s r => F64.add s r.Probability) acc = F64.fin y) := by
  intro l
  induction l with
  | nil => intro acc hacc _; simpa using hacc
  | cons r rest ih =>
    intro acc hacc hall
    simp only [List.foldl_cons]
    apply ih
    · obtain ⟨q, hq, hr⟩ := hall r (List.mem_cons_self _ _)
      rw [hr]
      rcases hacc with h | ⟨y, hy, h⟩
      · left
        rw [h]
        rfl
      · rw [h]
        have : F64.tiny ≤ y + q := by
          have := F64.tiny_pos
          linarith
        exact F64.round_of_tiny_le _ this
    · exact fun r' hr' => hall r' (List.mem_cons_of_mem _ hr')

/-- A sum of positive float64 values is not zero. -/
theorem sumProbability_ne_zero (l : List Rule) (hne : l ≠ [])
    (hall : ∀ r ∈ l, ∃ q, F64.tiny ≤ q ∧ r.Probability = F64.fin q) :
    sumProbability l ≠ F64.fin 0 := by
  cases l with
  | nil => exact absurd rfl hne
  | cons r rest =>
    obtain ⟨q, hq, hr⟩ := hall r (List.mem_cons_self _ _)
    have hfirst : F64.add (F64.fin 0) r.Probability = F64.pinf ∨
        ∃ y, F64.tiny ≤ y ∧ F64.add (F64.fin 0) r.Probability = F64.fin y := by
      rw [hr]
      have : F64.tiny ≤ 0 + q := by simpa using hq
      exact F64.round_of_tiny_le _ this
    have := sum_stays_positive rest _ hfirst
      (fun r' hr' => hall r' (List.mem_cons_of_mem _ hr'))
    simp only [sumProbability, List.foldl_cons]
    rcases this with h | ⟨y, hy, h⟩
    · rw [h]; simp
    · rw [h]
      intro hcon
      simp only [F64.fin.injEq] at hcon
      have := F64.tiny_pos
      linarith

/-- Once the running sum is NaN or `-Inf`, an infinite scaling factor keeps it there and
no rule is picked. -/
theorem pick_pinf_dead (n : F64) :
    ∀ (sorted : List Rule) (cum : F64), (cum = F64.nan ∨ cum = F64.ninf) →
      (∀ r ∈ sorted, ∃ a, r.Probability = F64.fin a) →
      pick F64.pinf n cum sorted = none := by
  intro sorted
  induction sorted with
  | nil => intro cum _ _; rfl
  | cons r rest ih =>
    intro cum hcum hfin
    obtain ⟨a, ha⟩ := hfin r (List.mem_cons_self _ _)
    have hnext : F64.add cum (F64.mul F64.pinf r.Probability) = F64.nan ∨
        F64.add cum (F64.mul F64.pinf r.Probability) = F64.ninf := by
      rw [ha]
      simp only [F64.mul, F64.infOfSign]
      rcases hcum with h | h <;> subst h <;> split <;> try split
      all_goals simp [F64.add]
    have hlt : F64.lt n (F64.add cum (F64.mul F64.pinf r.Probability)) = false := by
      rcases hnext with h | h <;> rw [h] <;> cases n <;> simp [F64.lt]
    simp only [pick, hlt]
    exact ih _ hnext (fun r' hr' => hfin r' (List.mem_cons_of_mem _ hr'))

/-- With an infinite scaling factor, no rule is picked from an ascending list of finite
probabilities whose first is not positive. -/
theorem pick_pinf_none (n : F64) (x : Rule) (rest : List Rule) (a : ℚ)
    (hx : x.Probability = F64.fin a) (ha : a ≤ 0)
    (hfin : ∀ r ∈ rest, ∃ b, r.Probability = F64.fin b) :
    pick F64.pinf n (F64.fin 0) (x :: rest) = none := by
  have hnext : F64.add (F64.fin 0) (F64.mul F64.pinf x.Probability) = F64.nan ∨
      F64.add (F64.fin 0) (F64.mul F64.pinf x.Probability) = F64.ninf := by
    rw [hx]
    simp only [F64.mul, F64.infOfSign]
    by_cases h0 : a = 0
    · simp [h0, F64.add]
    · have : ¬ 0 < a := by
        intro h; linarith
      simp [h0, this, F64.add]
  have hlt : F64.lt n (F64.add (F64.fin 0) (F64.mul F64.pinf x.Probability)) = false := by
    rcases hnext with h | h <;> rw [h] <;> cases n <;> simp [F64.lt]
  simp only [pick, hlt]
  exact pick_pinf_dead n rest _ hnext hfin

/-- C6. Where at least two rules remain after the priority filter and the float64 sum of
their probabilities is zero, `calculateRules` selects no rule, whatever number is drawn,
and its iteration for the position stores nothing in `rules`: the position contributes
no module to the next tier. -/
theorem zero_sum_selects_no_rule (matching : List Rule)
    (hlen : 1 < (survivorsOf matching).length)
    (hbin : ∀ r ∈ survivorsOf matching, F64.IsBinary64 r.Probability)
    (hsum : sumProbability (survivorsOf matching) = F64.fin 0) :
    (∀ rng : Rand, (selectRule matching rng).1 = none) ∧
    ∀ (Rules : List Rule) (input : List Module) (i : Nat) (mod : Module) (st : SelectorState),
      st.matching = [] → matchingAt Rules input i mod = .ok matching →
      ∃ st', calculateRulesStep Rules input i mod st = .ok st' ∧ st'.rules = st.rules := by
  have hsel : ∀ rng : Rand, (selectRule matching rng).1 = none := by
    intro rng
    have h : selectRule matching rng = stochastic (survivorsOf matching) rng := by
      unfold selectRule
      simp only [survivorsOf] at hlen ⊢
      rw [if_pos hlen]
    rw [h]
    generalize survivorsOf matching = survivors at hlen hbin hsum
    obtain ⟨-, hfin⟩ := sum_fin_of_fin survivors (F64.fin 0) 0 hsum
    have hperm := sliceStable_perm survivors
    have hasc := sliceStable_ascending survivors (by
      intro r hr
      obtain ⟨a, ha⟩ := hfin r hr
      rw [ha]
      simp)
    have hfinS : ∀ r ∈ sliceStable survivors, ∃ a, r.Probability = F64.fin a :=
      fun r hr => hfin r (hperm.subset hr)
    have hscale : F64.div (F64.fin 1) (F64.fin 0) = F64.pinf := by
      simp [F64.div, F64.infOfSign]
    simp only [stochastic, Rand.Float64, hsum, hscale]
    cases hs : sliceStable survivors with
    | nil => rfl
    | cons x rest =>
      rw [hs] at hasc hfinS
      obtain ⟨a, ha⟩ := hfinS x (List.mem_cons_self _ _)
      by_cases hpos : 0 < a
      · exfalso
        have hmin : ∀ r ∈ survivors, ∃ q, F64.tiny ≤ q ∧ r.Probability = F64.fin q := by
          intro r hr
          obtain ⟨b, hb⟩ := hfin r hr
          have hrS : r ∈ x :: rest := by
            rw [← hs]
            exact hperm.symm.subset hr
          have hab : a ≤ b := by
            rcases List.mem_cons.mp hrS with h | h
            · subst h
              rw [ha] at hb
              simp only [F64.fin.injEq] at hb
              exact le_of_eq hb
            · have := (List.pairwise_cons.mp hasc).1 r h
              rw [ha, hb] at this
              simpa [F64.lt] using this
          refine ⟨b, ?_, hb⟩
          apply F64.tiny_le_of_isBinary64 b (lt_of_lt_of_le hpos hab)
          have := hbin r hr
          rwa [hb] at this
        have hne : survivors ≠ [] := by
          intro h
          rw [h] at hlen
          simp at hlen
        exact sumProbability_ne_zero survivors hne hmin hsum
      · exact pick_pinf_none _ x rest a ha (not_lt.mp hpos)
          (fun r hr => hfinS r (List.mem_cons_of_mem _ hr))
  refine ⟨hsel, ?_⟩
  intro Rules input i mod st hst hmat
  refine ⟨_, calculateRulesStep_of_matching st hst hmat, ?_⟩
  simp only [hsel st.rng]

/-! ## The stochastic choice, evaluated -/

/-- Witness of C6: two rules of probability `0` match `V`; nothing is selected. -/
theorem zero_sum_selects_no_rule_witness :
    1 < (survivorsOf zeroWeightGrammar.Rules).length ∧
    sumProbability (survivorsOf zeroWeightGrammar.Rules) = F64.fin 0 ∧
    (selectRule zeroWeightGrammar.Rules ⟨zeroSource 0, 0⟩).1 = none :=
  ⟨by decide, by decide!,
    (zero_sum_selects_no_rule zeroWeightGrammar.Rules (by decide) (by decide!)
      (by decide!)).1 ⟨zeroSource 0, 0⟩⟩

/-- Witness of C5, amended: with probabilities `0.3` and `1` and the number `0` drawn, one
number is drawn and the rule of probability `0.3`, first in ascending order, is
selected, in both builds. -/
theorem stochastic_selects_first_exceeding_witness :
    ((selectRule weightedGrammar.Rules ⟨zeroSource 0, 0⟩).2.drawn = 1 ∧
      firstExceeding (F64.div (F64.fin 1) (sumProbability (survivorsOf weightedGrammar.Rules)))
          (F64.fin 0) (sliceStable (survivorsOf weightedGrammar.Rules))
        = (selectRule weightedGrammar.Rules ⟨zeroSource 0, 0⟩).1) ∧
    ((selectRuleFused weightedGrammar.Rules ⟨zeroSource 0, 0⟩).2.drawn = 1 ∧
      firstExceedingFused
          (F64.div (F64.fin 1) (sumProbability (survivorsOf weightedGrammar.Rules)))
          (F64.fin 0) (sliceStable (survivorsOf weightedGrammar.Rules))
        = (selectRuleFused weightedGrammar.Rules ⟨zeroSource 0, 0⟩).1) := by
  have h := stochastic_selects_first_exceeding weightedGrammar.Rules ⟨zeroSource 0, 0⟩
    (by decide) (by decide)
  rw [h.1, h.2.1]
  exact ⟨⟨rfl, rfl⟩, rfl, rfl⟩

/-- C5, as stated, fails on ordinary probabilities. Two rules of equal priority match `V`,
with probabilities `0.3` and `1`: both are non-negative float64 values, their sum is
positive, and the drawn number `1 - 2 ^ (-53)` lies in `[0, 1)`. The running sums,
rounded, end at `1 - 2 ^ (-53)`, which does not exceed the drawn number, whether the
build fuses the multiplication and the addition or not: no rule is selected and the new
tier is empty. -/
theorem stochastic_can_select_no_rule :
    matchingAt weightedGrammar.Rules [⟨'V', []⟩] 0 ⟨'V', []⟩ = .ok weightedGrammar.Rules ∧
    survivorsOf weightedGrammar.Rules = weightedGrammar.Rules ∧
    (∀ r ∈ weightedGrammar.Rules,
      F64.IsBinary64 r.Probability ∧ F64.lt r.Probability (F64.fin 0) = false) ∧
    F64.lt (F64.fin 0) (sumProbability weightedGrammar.Rules) = true ∧
    F64.IsBinary64 belowOne ∧
    F64.lt belowOne (F64.fin 0) = false ∧ F64.lt belowOne (F64.fin 1) = true ∧
    runningSums (F64.div (F64.fin 1) (sumProbability weightedGrammar.Rules)) (F64.fin 0)
        (sliceStable weightedGrammar.Rules)
      = [F64.fin (2078584443401767 / 9007199254740992), belowOne] ∧
    runningSumsFused (F64.div (F64.fin 1) (sumProbability weightedGrammar.Rules)) (F64.fin 0)
        (sliceStable weightedGrammar.Rules)
      = [F64.fin (2078584443401767 / 9007199254740992), belowOne] ∧
    (selectRule weightedGrammar.Rules ⟨belowOneSource 0, 0⟩).1 = none ∧
    (selectRuleFused weightedGrammar.Rules ⟨belowOneSource 0, 0⟩).1 = none ∧
    tierOf (Derivate ⟨false⟩ (New belowOneSource 1 weightedGrammar)) = some [] := by
  refine ⟨rfl, rfl, by decide!, by decide!, by decide!, by decide!, by decide!, by decide!,
    by decide!, ?_, ?_, ?_⟩
  · have h : (selectRule weightedGrammar.Rules ⟨belowOneSource 0, 0⟩).1.isNone = true := by
      decide!
    exact Option.isNone_iff_eq_none.mp h
  · have h : (selectRuleFused weightedGrammar.Rules ⟨belowOneSource 0, 0⟩).1.isNone
        = true := by
      decide!
    exact Option.isNone_iff_eq_none.mp h
  · decide!

/-- The two builds can select differently: with probabilities `0.1`, `0.2` and `0.3` and
the number `1 - 2 ^ (-53)` drawn, the separately rounded running sums end at `1` and the
third rule is selected, while the fused running sums end at `1 - 2 ^ (-53)` and no rule
is selected. -/
theorem fused_build_selects_differently :
    runningSums (F64.div (F64.fin 1) (sumProbability threeWeights)) (F64.fin 0)
        (sliceStable threeWeights)
      = [F64.fin (6004799503160661 / 36028797018963968), F64.fin (1 / 2), F64.fin 1] ∧
    runningSumsFused (F64.div (F64.fin 1) (sumProbability threeWeights)) (F64.fin 0)
        (sliceStable threeWeights)
      = [F64.fin (6004799503160661 / 36028797018963968), F64.fin (1 / 2), belowOne] ∧
    (selectRule threeWeights ⟨belowOneSource 0, 0⟩).1.isSome = true ∧
    (selectRuleFused threeWeights ⟨belowOneSource 0, 0⟩).1.isSome = false := by
  refine ⟨by decide!, by decide!, by decide!, by decide!⟩

/-! ## Errors of `Execute` -/

/-- A run of the loop of `rewrite` that ends without error has seen no error from any
`Execute` it called. -/
theorem rewriteLoop_calls_without_error (inner : Option Environment) (input : List Module) :
    ∀ (rules : List (Option Rule)) (c : Int) (output out : List Module),
      rewriteLoop inner input rules c output = .ok (none, out) →
      ∀ (j : Nat) (m : Module) (r : Rule), input[j]? = some m → rules[j]? = some (some r) →
        ∃ slot, (r.Execute slot m { wrapEnvironment inner with prev := m.Parameters }).err
          = none := by
  induction input with
  | nil => intro rules c output out _ j m r hm; simp at hm
  | cons x input ih =>
    intro rules c output out h j m r hm hr
    cases rules with
    | nil => simp at hr
    | cons ro rules =>
      cases ro with
      | none =>
        simp only [rewriteLoop] at h
        cases j with
        | zero => simp at hr
        | succ j =>
          simp only [List.getElem?_cons_succ] at hm hr
          exact ih rules c output out h j m r hm hr
      | some rule =>
        simp only [rewriteLoop] at h
        split at h
        · simp at h
        · cases he : (rule.Execute (List.drop c.toNat output) x
              { wrapEnvironment inner with prev := x.Parameters }).err with
          | some err => rw [he] at h; simp at h
          | none =>
            rw [he] at h
            cases j with
            | zero =>
              simp only [List.getElem?_cons_zero, Option.some.injEq] at hm hr
              subst hm hr
              exact ⟨_, he⟩
            | succ j =>
              simp only [List.getElem?_cons_succ] at hm hr
              exact ih rules _ _ out h j m r hm hr

/-- When the second half of the workers ends without panic, every worker's `rewrite`
returned no error. -/
theorem rewriteSections_calls_without_error (ls : LSystem) (rules : List (Option Rule)) :
    ∀ (ins outs : List (Nat × Nat)) (output out : List Module),
      ins.length ≤ outs.length →
      rewriteSections ls rules ins outs output = .ok out →
      ∀ sec ∈ ins, ∃ slot out',
        rewrite ls slot (sectionOf ls.tier sec) (sectionOf rules sec) = .ok (none, out') := by
  intro ins
  induction ins with
  | nil => intro outs output out _ _ sec hsec; simp at hsec
  | cons s ins ih =>
    intro outs output out hlen h sec hsec
    cases outs with
    | nil => simp at hlen
    | cons o outs =>
      obtain ⟨cursor, thisSize⟩ := s
      obtain ⟨outCursor, outSize⟩ := o
      simp only [rewriteSections] at h
      split at h
      · simp at h
      · simp at h
      · rename_i outputSlice hrw
        simp only [List.mem_cons] at hsec
        rcases hsec with rfl | hsec
        · exact ⟨_, _, hrw⟩
        · exact ih outs _ out (by simpa using hlen) h sec hsec

/-- A position below the end of a run of contiguous sections lies in one of them. -/
theorem exists_section_of_lt :
    ∀ (secs : List (Nat × Nat)) (c i : Nat), Contiguous secs c → c ≤ i →
      i < sectionsEnd secs c → ∃ sec ∈ secs, sec.1 ≤ i ∧ i < sec.1 + sec.2 := by
  intro secs
  induction secs with
  | nil => intro c i _ hc hi; simp [sectionsEnd] at hi; omega
  | cons s secs ih =>
    intro c i hcont hc hi
    obtain ⟨h1, h2⟩ := hcont
    by_cases hin : i < s.1 + s.2
    · exact ⟨s, by simp, by omega, hin⟩
    · have hend : sectionsEnd (s :: secs) c = sectionsEnd secs (c + s.2) := by
        simp [sectionsEnd]; omega
      rw [hend] at hi
      obtain ⟨sec, hsec, hlo, hhi⟩ := ih (c + s.2) i h2 (by omega) hi
      exact ⟨sec, by simp [hsec], hlo, hhi⟩

theorem getElem?_sectionOf {α : Type} (xs : List α) (sec : Nat × Nat) (i : Nat)
    (hlo : sec.1 ≤ i) (hhi : i < sec.1 + sec.2) : (sectionOf xs sec)[i - sec.1]? = xs[i]? := by
  unfold sectionOf
  rw [List.getElem?_take_of_lt (by omega), List.getElem?_drop]
  congr 1; omega

/-- A call of `Derivate` never hands an error back to its caller. -/
theorem Derivate_returns_no_error (ctx : Context) (ls : LSystem) :
    returnedError (Derivate ctx ls) = none := by
  cases h : Derivate ctx ls with
  | error e => rfl
  | ok p =>
    obtain ⟨e, ls'⟩ := p
    exact (Derivate_counter h).1

/-- A call of `DerivateUntil` never hands an error back to its caller. -/
theorem DerivateUntil_returns_no_error (ctx : Context) (maxTiers : Nat) :
    ∀ (fuel : Nat) (ls : LSystem),
      (DerivateUntil ctx maxTiers fuel ls).bind returnedError = none := by
  intro fuel
  induction fuel with
  | zero => intro ls; rfl
  | succ fuel ih =>
    intro ls
    simp only [DerivateUntil]
    split
    · cases h : Derivate ctx ls with
      | error e => rfl
      | ok p =>
        obtain ⟨e, ls'⟩ := p
        obtain ⟨he, -⟩ := Derivate_counter h
        subst he
        exact ih ls'
    · rfl

/-- When a selected rule returns an error for the module at its position, whatever the slot,
the call of `Derivate` panics. -/
theorem Derivate_panics_of_error (ctx : Context) (ls : LSystem)
    (rules : List (Option Rule)) (hsel : selectedRules ls = .ok rules)
    (i : Nat) (m : Module) (r : Rule) (hm : ls.tier[i]? = some m)
    (hr : rules[i]? = some (some r))
    (herr : ∀ slot,
      (r.Execute slot m { wrapEnvironment ls.env with prev := m.Parameters }).err ≠ none) :
    ∃ msg, Derivate ctx ls = .error msg := by
  obtain ⟨sp, size, rem, st, hsp, hst, rfl⟩ := selectedRules_ok hsel
  obtain ⟨hlen, hin, hsz, hdrop⟩ := selection_facts hst
  cases hd : Derivate ctx ls with
  | error msg => exact ⟨msg, rfl⟩
  | ok p =>
    exfalso
    simp only [Derivate, hsp, hst] at hd
    split at hd
    · simp at hd
    · split at hd
      · simp at hd
      · rename_i outs houts
        split at hd
        · simp at hd
        · rename_i output hrs
          have hlenouts : (sections size rem sp 0 0).length ≤ outs.length := by
            rw [outputSections_length _ _ _ _ houts, hsz]
            simp
          have hi : i < sectionsEnd (sections size rem sp 0 0) 0 := by
            by_contra hge
            have h1 : st.rules[i]? = (List.replicate ls.tier.length (none : Option Rule))[i]? := by
              have := congrArg (fun l => l[i - sectionsEnd (sections size rem sp 0 0) 0]?) hdrop
              simp only [List.getElem?_drop] at this
              rwa [show sectionsEnd (sections size rem sp 0 0) 0
                + (i - sectionsEnd (sections size rem sp 0 0) 0) = i by omega] at this
            rw [hr] at h1
            rw [List.getElem?_replicate] at h1
            split at h1 <;> simp at h1
          obtain ⟨sec, hsec, hlo, hhi⟩ := exists_section_of_lt _ 0 i
            (sections_contiguous size rem sp 0 0) (Nat.zero_le _) hi
          obtain ⟨slot, out', hrw⟩ :=
            rewriteSections_calls_without_error ls st.rules _ outs _ output hlenouts hrs sec hsec
          obtain ⟨slot', hnone⟩ := rewriteLoop_calls_without_error ls.env _ _ 0 slot out' hrw
            (i - sec.1) m r (by rw [getElem?_sectionOf _ _ _ hlo hhi]; exact hm)
            (by rw [getElem?_sectionOf _ _ _ hlo hhi]; exact hr)
          exact herr slot' hnone

/-- C11, as a statement of what the code does. For every L-system in which a selected rule
returns an error for the module at its position (whatever the slot it is given), the call of
`Derivate` does not return: the worker panics, and so does a call of `DerivateUntil` whose
loop is entered. No call of `Derivate` or `DerivateUntil` ever returns a non-nil error. -/
theorem Execute_error_panics (ctx : Context) (ls : LSystem)
    (rules : List (Option Rule)) (hsel : selectedRules ls = .ok rules)
    (i : Nat) (m : Module) (r : Rule) (hm : ls.tier[i]? = some m)
    (hr : rules[i]? = some (some r))
    (herr : ∀ slot,
      (r.Execute slot m { wrapEnvironment ls.env with prev := m.Parameters }).err ≠ none) :
    (∃ msg, Derivate ctx ls = .error msg) ∧
    (∀ maxTiers fuel, ls.currentTier ≤ maxTiers →
      ∃ msg, DerivateUntil ctx maxTiers (fuel + 1) ls = some (.error msg)) ∧
    (∀ ls0, returnedError (Derivate ctx ls0) = none) ∧
    (∀ maxTiers fuel ls0, (DerivateUntil ctx maxTiers fuel ls0).bind returnedError = none) := by
  obtain ⟨msg, hmsg⟩ := Derivate_panics_of_error ctx ls rules hsel i m r hm hr herr
  refine ⟨⟨msg, hmsg⟩, ?_, Derivate_returns_no_error ctx, DerivateUntil_returns_no_error ctx⟩
  intro maxTiers fuel hle
  exact ⟨msg, by simp [DerivateUntil, hle, hmsg]⟩

theorem failing_selected :
    selectedRules (New zeroSource 1 failingGrammar) = .ok [some failingRule] := rfl

/-- Witness of C11 on the grammar whose only rule returns an error: both calls panic with
the message of the worker. -/
theorem Execute_error_panics_witness :
    (∃ msg, Derivate ⟨false⟩ (New zeroSource 1 failingGrammar) = .error msg) ∧
    (∃ msg, DerivateUntil ⟨false⟩ 0 1 (New zeroSource 1 failingGrammar) = some (.error msg)) :=
  have h := Execute_error_panics ⟨false⟩ (New zeroSource 1 failingGrammar) [some failingRule]
    failing_selected 0 ⟨'V', []⟩ failingRule rfl rfl (by intro slot; simp [failingRule])
  ⟨h.1, h.2.1 0 0 (by simp [New])⟩

/-- C11, as stated, fails on the grammar with axiom `[V]` whose only rule returns an error
from `Execute`: `Derivate` returns no error, it panics with "Error in rewriting", and
`DerivateUntil` with it. -/
theorem Execute_error_is_not_returned :
    Derivate ⟨false⟩ (New zeroSource 1 failingGrammar) = .error "Error in rewriting" ∧
    DerivateUntil ⟨false⟩ 0 1 (New zeroSource 1 failingGrammar)
      = some (.error "Error in rewriting") ∧
    returnedError (Derivate ⟨false⟩ (New zeroSource 1 failingGrammar)) = none :=
  ⟨rfl, rfl, rfl⟩

/-! ## Cancellation -/

/-- The context handed to `Derivate` has no part in its outcome. -/
theorem Derivate_ignores_context (ctx ctx' : Context) (ls : LSystem) :
    Derivate ctx ls = Derivate ctx' ls := rfl

/-- The context handed to `DerivateUntil` has no part in its outcome. -/
theorem DerivateUntil_ignores_context (ctx ctx' : Context) (maxTiers : Nat) :
    ∀ (fuel : Nat) (ls : LSystem),
      DerivateUntil ctx maxTiers fuel ls = DerivateUntil ctx' maxTiers fuel ls := by
  intro fuel
  induction fuel with
  | zero => intro ls; rfl
  | succ fuel ih =>
    intro ls
    simp only [DerivateUntil, Derivate_ignores_context ctx ctx' ls]
    split
    · split
      · rfl
      · rfl
      · exact ih _
    · rfl

/-- A call of `DerivateUntil` that returns leaves the counter above `maxTiers`. -/
theorem DerivateUntil_returns_above (ctx : Context) (maxTiers : Nat) :
    ∀ (fuel : Nat) (ls : LSystem) (e : Option String) (ls' : LSystem),
      DerivateUntil ctx maxTiers fuel ls = some (.ok (e, ls')) →
      maxTiers < ls'.currentTier := by
  intro fuel
  induction fuel with
  | zero => intro ls e ls' h; simp [DerivateUntil] at h
  | succ fuel ih =>
    intro ls e ls' h
    simp only [DerivateUntil] at h
    split at h
    · cases hd : Derivate ctx ls with
      | error msg => simp [hd] at h
      | ok p =>
        obtain ⟨e1, ls1⟩ := p
        obtain ⟨he, -⟩ := Derivate_counter hd
        subst he
        simp only [hd] at h
        exact ih ls1 e ls' h
    · rename_i hgt
      simp only [Option.some.injEq, Except.ok.injEq, Prod.mk.injEq] at h
      rw [← h.2]
      omega

/-- C12, as a statement of what the code does. `Derivate` and `DerivateUntil` never look at
the cancellation token: called with a token that is already cancelled they do exactly what
they do with a live one, and they return no error, a "cancelled" one included. Called with
`currentTier > maxTiers`, `DerivateUntil` returns at once and leaves the L-system, its tier
and its counter, as it was. Called with `currentTier <= maxTiers`, it derives: when it
returns, `Derivate` has run on the L-system of the call and the counter has grown beyond
`maxTiers`. -/
theorem cancellation_is_ignored (maxTiers fuel : Nat) (ls : LSystem) :
    DerivateUntil ⟨true⟩ maxTiers fuel ls = DerivateUntil ⟨false⟩ maxTiers fuel ls ∧
    Derivate ⟨true⟩ ls = Derivate ⟨false⟩ ls ∧
    (DerivateUntil ⟨true⟩ maxTiers fuel ls).bind returnedError = none ∧
    returnedError (Derivate ⟨true⟩ ls) = none ∧
    (maxTiers < ls.currentTier →
      DerivateUntil ⟨true⟩ maxTiers (fuel + 1) ls = some (.ok (none, ls))) ∧
    (ls.currentTier ≤ maxTiers →
      ∀ e ls', DerivateUntil ⟨true⟩ maxTiers fuel ls = some (.ok (e, ls')) →
        (∃ ls1, Derivate ⟨true⟩ ls = .ok (none, ls1)) ∧
        maxTiers < ls'.currentTier ∧ ls.currentTier < ls'.currentTier) := by
  refine ⟨DerivateUntil_ignores_context _ _ maxTiers fuel ls, rfl,
    DerivateUntil_returns_no_error _ maxTiers fuel ls, Derivate_returns_no_error _ ls,
    ?_, ?_⟩
  · intro hgt
    simp only [DerivateUntil, if_neg (not_le.mpr hgt)]
  · intro hle e ls' h
    have habove := DerivateUntil_returns_above ⟨true⟩ maxTiers fuel ls e ls' h
    refine ⟨?_, habove, by omega⟩
    cases fuel with
    | zero => simp [DerivateUntil] at h
    | succ fuel =>
      simp only [DerivateUntil, if_pos hle] at h
      cases hd : Derivate ⟨true⟩ ls with
      | error msg => simp [hd] at h
      | ok p =>
        obtain ⟨e1, ls1⟩ := p
        obtain ⟨he, -⟩ := Derivate_counter hd
        subst he
        exact ⟨ls1, rfl⟩

/-- C12, as stated, fails on the doubling grammar of the tests: called with a cancelled
token and `maxTiers = 0`, `DerivateUntil` returns no error and has derived one generation,
the tier `[V(1)]` having become `[V(1), V(1)]` and the counter `1`. -/
theorem cancelled_DerivateUntil_derives :
    outcomeOf (DerivateUntil ⟨true⟩ 0 2 (New zeroSource 1 TestParameters))
      = some (none, [⟨'V', [F64.fin 1]⟩, ⟨'V', [F64.fin 1]⟩], 1) ∧
    (New zeroSource 1 TestParameters).tier = [⟨'V', [F64.fin 1]⟩] ∧
    (New zeroSource 1 TestParameters).currentTier = 0 :=
  ⟨rfl, rfl, rfl⟩

/-! ## Non-parametric rules -/

/-- What `Execute` of a rule built by `NewRuleNonParametric` does to a slot that is long
enough. -/
theorem NewRuleNonParametric_Execute (onLetter : Letter) (rewriteTo : List Module)
    (left right : List Letter) (probability : F64) (slot : List Module) (m : Module)
    (env : wrappedEnvironment) (h : rewriteTo.length ≤ slot.length) :
    (NewRuleNonParametric onLetter rewriteTo left right probability).toRule.Execute slot m env
      = ⟨rewriteTo, rewriteTo.length, none⟩ ∧
    overwrite slot rewriteTo = rewriteTo ++ slot.drop rewriteTo.length := by
  constructor
  · simp only [GeneralRule.toRule, GeneralRule.Execute, NewRuleNonParametric, NewRule]
    rw [List.take_of_length_le h]
    congr 1
    simp [h]
  · simp [overwrite, List.take_of_length_le h]

/-- C18. For every rule built by `NewRuleNonParametric`, and so by `NewRuleClassic`,
`NewRuleStochastic` and `NewRuleContextSensitive`, and every slot at least as long as the
rewrite list: `Execute` returns the length of the rewrite list and no error, that length is
`OutputSize()`, and afterwards the slot starts with the rewrite list, in order, and is
unchanged behind it. -/
theorem NonParametric_Execute_copies_rewrite (onLetter : Letter) (rewriteTo : List Module)
    (left right : List Letter) (probability : F64) (slot : List Module) (m : Module)
    (env : wrappedEnvironment) (h : rewriteTo.length ≤ slot.length) :
    (∀ r ∈ [(NewRuleNonParametric onLetter rewriteTo left right probability).toRule,
            (NewRuleClassic onLetter rewriteTo).toRule,
            (NewRuleStochastic onLetter rewriteTo probability).toRule,
            (NewRuleContextSensitive onLetter rewriteTo left right).toRule],
      (r.Execute slot m env).n = rewriteTo.length ∧
      (r.Execute slot m env).err = none ∧
      r.OutputSize = rewriteTo.length ∧
      (overwrite slot (r.Execute slot m env).stored).take rewriteTo.length = rewriteTo ∧
      (overwrite slot (r.Execute slot m env).stored).drop rewriteTo.length
        = slot.drop rewriteTo.length) := by
  have key : ∀ (l r : List Letter) (p : F64),
      let rule := (NewRuleNonParametric onLetter rewriteTo l r p).toRule
      (rule.Execute slot m env).n = rewriteTo.length ∧
      (rule.Execute slot m env).err = none ∧
      rule.OutputSize = rewriteTo.length ∧
      (overwrite slot (rule.Execute slot m env).stored).take rewriteTo.length = rewriteTo ∧
      (overwrite slot (rule.Execute slot m env).stored).drop rewriteTo.length
        = slot.drop rewriteTo.length := by
    intro l r p
    obtain ⟨h1, h2⟩ := NewRuleNonParametric_Execute onLetter rewriteTo l r p slot m env h
    simp only [h1, h2]
    refine ⟨trivial, trivial, rfl, ?_, ?_⟩
    · simp
    · simp
  intro r hr
  simp only [List.mem_cons, List.mem_singleton, List.not_mem_nil, or_false] at hr
  rcases hr with rfl | rfl | rfl | rfl
  · exact key _ _ _
  · exact key _ _ _
  · exact key _ _ _
  · exact key _ _ _

/-- Witness of C18: the rule `V -> X` on a slot of two modules. -/
theorem NonParametric_Execute_copies_rewrite_witness :
    (ruleVX.toRule.Execute [⟨'A', []⟩, ⟨'B', []⟩] ⟨'V', []⟩ (wrapEnvironment none)).n = 1 ∧
    overwrite [⟨'A', []⟩, ⟨'B', []⟩]
      (ruleVX.toRule.Execute [⟨'A', []⟩, ⟨'B', []⟩] ⟨'V', []⟩ (wrapEnvironment none)).stored
      = [⟨'X', []⟩, ⟨'B', []⟩] := by
  have h := NonParametric_Execute_copies_rewrite 'V' [⟨'X', []⟩] [] [] (F64.fin 1)
    [⟨'A', []⟩, ⟨'B', []⟩] ⟨'V', []⟩ (wrapEnvironment none) (by decide)
    (NewRuleClassic 'V' [⟨'X', []⟩]).toRule (by simp)
  exact ⟨h.1, rfl⟩

/-! ## The tunables -/

/-- A call of `SetSubsectionMinimumSize` leaves the L-system of the caller as it was. -/
theorem SetSubsectionMinimumSize_eq (ls : LSystem) (size : Nat) :
    ls.SetSubsectionMinimumSize size = ls := rfl

/-- C20 fails on a fresh L-system of the doubling grammar: after
`ls.SetSubsectionMinimumSize(1)` the getter still returns the default `64`, whereas the
receiver copy inside the method holds `1`; partitioning is unchanged as well. -/
theorem SetSubsectionMinimumSize_is_lost :
    ((New zeroSource 4 TestParameters).SetSubsectionMinimumSize 1).SubsectionMinimumSize = 64 ∧
    (SetSubsectionMinimumSize.receiver (New zeroSource 4 TestParameters) 1).SubsectionMinimumSize
      = 1 ∧
    (∀ (ls : LSystem) (size : Nat),
      (ls.SetSubsectionMinimumSize size).SubsectionMinimumSize = ls.SubsectionMinimumSize ∧
      splits (ls.SetSubsectionMinimumSize size) = splits ls) :=
  ⟨rfl, rfl, fun _ _ => ⟨rfl, rfl⟩⟩

/-! ## Partitioning -/

theorem sectionsEnd_sections (size rem : Nat) :
    ∀ (remaining i cursor : Nat),
      sectionsEnd (sections size rem remaining i cursor) cursor
        = cursor + remaining * size + min remaining (rem - i) := by
  intro remaining
  induction remaining with
  | zero => intro i cursor; simp [sections, sectionsEnd]
  | succ n ih =>
    intro i cursor
    have h := ih (i + 1) (cursor + if i < rem then size + 1 else size)
    simp only [sectionsEnd, sections, List.map_cons, List.sum_cons] at h ⊢
    split at h <;> rename_i hlt
    · simp only [if_pos hlt]
      have : min (n + 1) (rem - i) = min n (rem - (i + 1)) + 1 := by omega
      rw [this]; rw [Nat.add_mul]; omega
    · simp only [if_neg hlt]
      have : min (n + 1) (rem - i) = 0 := by omega
      have h2 : min n (rem - (i + 1)) = 0 := by omega
      rw [this]; rw [h2] at h; rw [Nat.add_mul]; omega

theorem sections_sizes (size rem : Nat) :
    ∀ (remaining i cursor : Nat),
      (sections size rem remaining i cursor).map (fun sec => sec.2)
        = (List.range remaining).map (fun k => if i + k < rem then size + 1 else size) := by
  intro remaining
  induction remaining with
  | zero => intro i cursor; simp [sections]
  | succ n ih =>
    intro i cursor
    simp only [sections, List.map_cons, List.range_succ_eq_map, List.map_map, ih]
    simp only [Nat.add_zero, List.cons.injEq, true_and]
    apply List.map_congr_left
    intro k _
    simp only [Function.comp]
    rw [show i + 1 + k = i + (k + 1) by omega]

/-- What `splits` returns while the tier has fewer than `2 ^ 32` modules. -/
theorem splits_of_small (ls : LSystem) (hm : 1 ≤ ls.subsectionMinimumSize)
    (hw : 1 ≤ ls.maxWorkers) (hL : ls.tier.length < 2 ^ 32) :
    splits ls = .ok
      (clamp (ls.tier.length / ls.subsectionMinimumSize) 1 ls.maxWorkers,
       ls.tier.length / clamp (ls.tier.length / ls.subsectionMinimumSize) 1 ls.maxWorkers,
       ls.tier.length % clamp (ls.tier.length / ls.subsectionMinimumSize) 1 ls.maxWorkers) := by
  have hv : ls.tier.length / ls.subsectionMinimumSize < 2 ^ 32 :=
    lt_of_le_of_lt (Nat.div_le_self _ _) hL
  have hsp : (if (ls.tier.length / ls.subsectionMinimumSize) % 2 ^ 32 = 0 then 1
      else if (ls.tier.length / ls.subsectionMinimumSize) % 2 ^ 32 < ls.maxWorkers
        then (ls.tier.length / ls.subsectionMinimumSize) % 2 ^ 32 else ls.maxWorkers)
      = clamp (ls.tier.length / ls.subsectionMinimumSize) 1 ls.maxWorkers := by
    rw [Nat.mod_eq_of_lt hv]
    unfold clamp
    generalize ls.tier.length / ls.subsectionMinimumSize = v
    split
    · rename_i h0; rw [h0]; simp; omega
    · split <;> omega
  have hpos : clamp (ls.tier.length / ls.subsectionMinimumSize) 1 ls.maxWorkers ≠ 0 := by
    unfold clamp; omega
  unfold splits
  simp only [hsp]
  rw [if_neg (by omega), if_neg hpos, Nat.mod_eq_of_lt hL]

/-- The worker sections cut from what `splits` returns on a tier of fewer than `2 ^ 32`
modules cover the tier. -/
theorem sections_cover (L sp : Nat) (hsp : 0 < sp) :
    sectionsEnd (sections (L / sp) (L % sp) sp 0 0) 0 = L := by
  rw [sectionsEnd_sections]
  have h1 : L % sp < sp := Nat.mod_lt _ hsp
  have h2 := Nat.div_add_mod L sp
  simp only [Nat.sub_zero, Nat.zero_add]
  rw [Nat.min_eq_right (le_of_lt h1)]
  exact h2

/-- When a worker's section reaches beyond the tier and no `Matches` panics, the first
half of the workers ends in the panic of the slice expression. -/
theorem sizeSections_overshoot (ls : LSystem)
    (hM : ∀ r ∈ ls.Parameters.Rules, ∀ m l l', (r.Matches m l l').isSome = true) :
    ∀ (secs : List (Nat × Nat)) (st : SizingState), ¬ InBounds secs ls.tier.length →
      sizeSections ls secs st = .error "slice bounds out of range" := by
  intro secs
  induction secs with
  | nil => intro st h; exact absurd (by intro sec hsec; simp at hsec) h
  | cons s secs ih =>
    intro st h
    obtain ⟨cursor, thisSize⟩ := s
    by_cases hs : cursor + thisSize ≤ ls.tier.length
    · have hrest : ¬ InBounds secs ls.tier.length := by
        intro hin
        apply h
        intro sec hsec
        simp only [List.mem_cons] at hsec
        rcases hsec with rfl | hsec
        · exact hs
        · exact hin sec hsec
      obtain ⟨out, hout⟩ := calculateRules_completes ls st.rng
        ((st.rules.drop cursor).take thisSize) ((ls.tier.drop cursor).take thisSize) hM
      obtain ⟨rules', rng'⟩ := out
      simp only [sizeSections, sizeSection, if_neg (not_lt.mpr hs), hout]
      exact ih _ hrest
    · simp only [sizeSections, sizeSection, if_pos (not_le.mp hs)]

theorem testRule_matches_total (n : Nat) :
    ∀ r ∈ (longParameters n).Rules, ∀ m l l', (r.Matches m l l').isSome = true := by
  intro r hr m l l'
  simp only [longParameters, TestParameters, List.mem_singleton] at hr
  subst hr
  rfl

theorem splits_long (w n : Nat) :
    splits (New zeroSource w (longParameters n)) =
      (let v := (n / 64) % 2 ^ 32
       let splits := if v = 0 then 1 else if v < w then v else w
       if splits = 0 then .error "integer divide by zero"
       else .ok (splits, n / splits, (n % 2 ^ 32) % splits)) := by
  simp [splits, New, longParameters, DefaultSubsectionMinimumSize]

theorem tier_length_long (w n : Nat) :
    (New zeroSource w (longParameters n)).tier.length = n := by
  simp [New, longParameters]

theorem sectionsEnd_le_of_inBounds :
    ∀ (secs : List (Nat × Nat)) (c n : Nat), Contiguous secs c → InBounds secs n → c ≤ n →
      sectionsEnd secs c ≤ n := by
  intro secs
  induction secs with
  | nil => intro c n _ _ h; simpa [sectionsEnd] using h
  | cons s secs ih =>
    intro c n hc hin hcn
    obtain ⟨h1, h2⟩ := hc
    have hend : sectionsEnd (s :: secs) c = sectionsEnd secs (c + s.2) := by
      simp [sectionsEnd]; omega
    rw [hend]
    have hs := hin s (by simp)
    exact ih _ n h2 (fun sec hsec => hin sec (by simp [hsec])) (by omega)

/-- On the doubling grammar, when the partitions that `splits` leads to have more modules
together than the tier, `Derivate` panics in a slice expression. -/
theorem Derivate_long_overshoot (ctx : Context) (w n sp size rem : Nat)
    (hsp : splits (New zeroSource w (longParameters n)) = .ok (sp, size, rem))
    (hover : n < sp * size + min sp rem) :
    Derivate ctx (New zeroSource w (longParameters n)) = .error "slice bounds out of range" := by
  have hnot : ¬ InBounds (sections size rem sp 0 0)
      (New zeroSource w (longParameters n)).tier.length := by
    intro hin
    have := sectionsEnd_le_of_inBounds _ 0 _ (sections_contiguous size rem sp 0 0) hin
      (Nat.zero_le _)
    rw [sectionsEnd_sections, tier_length_long] at this
    simp only [Nat.sub_zero, Nat.zero_add] at this
    omega
  have hover := sizeSections_overshoot (New zeroSource w (longParameters n))
    (testRule_matches_total _) (sections size rem sp 0 0)
    ⟨List.replicate (New zeroSource w (longParameters n)).tier.length none,
      (New zeroSource w (longParameters n)).rng, []⟩ hnot
  simp only [Derivate, hsp, hover]

/-- C13 fails on a tier of `2 ^ 32 + 2` modules with the default minimum size `64` and three
workers: `splits` returns `rem = 2`, the remainder of the tier length cut to 32 bits,
where `L mod splits` is `0`; the partitions it leads to have `L + 2` modules together, and
the third worker slices beyond the tier, which panics. -/
theorem splits_cuts_tier_length_to_32_bits :
    splits (New zeroSource 3 (longParameters (2 ^ 32 + 2))) = .ok (3, 1431655766, 2) ∧
    (2 ^ 32 + 2) / 3 = 1431655766 ∧ (2 ^ 32 + 2) % 3 = 0 ∧
    sections 1431655766 2 3 0 0
      = [(0, 1431655767), (1431655767, 1431655767), (2863311534, 1431655766)] ∧
    2863311534 + 1431655766 = 2 ^ 32 + 4 ∧
    Derivate ⟨false⟩ (New zeroSource 3 (longParameters (2 ^ 32 + 2)))
      = .error "slice bounds out of range" := by
  have hsp : splits (New zeroSource 3 (longParameters (2 ^ 32 + 2)))
      = .ok (3, 1431655766, 2) := by
    rw [splits_long]; norm_num
  refine ⟨hsp, by norm_num, by norm_num, by simp [sections], by norm_num, ?_⟩
  exact Derivate_long_overshoot ⟨false⟩ 3 (2 ^ 32 + 2) 3 1431655766 2 hsp (by norm_num)

/-! ## The doubling grammar -/

theorem testRule_writesExactly : testRule.WritesExactly :=
  ⟨fun _ _ => rfl, fun _ _ _ _ => rfl⟩

theorem calculateRulesStep_doubling (input : List Module) (i : Nat) (mod : Module)
    (hV : mod.Letter = 'V') (rules : List (Option Rule)) (rng : Rand) :
    calculateRulesStep [testRule] input i mod ⟨rules, [], rng⟩
      = .ok ⟨rules.set i (some testRule), [], rng⟩ := by
  simp [calculateRulesStep, collectMatching, testRule, hV, selectRule]

theorem calculateRulesLoop_doubling (input : List Module) :
    ∀ (todo : List Module) (i : Nat) (pre mid post : List (Option Rule)) (rng : Rand),
      (∀ m ∈ todo, m.Letter = 'V') → pre.length = i → mid.length = todo.length →
      calculateRulesLoop [testRule] input todo i ⟨pre ++ mid ++ post, [], rng⟩
        = .ok ⟨pre ++ List.replicate todo.length (some testRule) ++ post, [], rng⟩ := by
  intro todo
  induction todo with
  | nil =>
    intro i pre mid post rng _ _ hmid
    have : mid = [] := List.length_eq_zero.mp (by simpa using hmid)
    subst this
    simp [calculateRulesLoop]
  | cons m todo ih =>
    intro i pre mid post rng hV hpre hmid
    cases mid with
    | nil => simp at hmid
    | cons x mid =>
      simp only [calculateRulesLoop,
        calculateRulesStep_doubling input i m (hV m (by simp)) _ rng]
      have hset : (pre ++ x :: mid ++ post).set i (some testRule)
          = (pre ++ [some testRule]) ++ mid ++ post := by
        subst hpre
        simp [List.set_append]
      rw [hset]
      rw [ih (i + 1) (pre ++ [some testRule]) mid post rng
        (fun m' hm' => hV m' (by simp [hm'])) (by simp [hpre]) (by simpa using hmid)]
      simp [List.replicate_succ]

theorem calculateRules_doubling (ls : LSystem) (hR : ls.Parameters.Rules = [testRule])
    (rng : Rand) (rules : List (Option Rule)) (input : List Module)
    (hV : ∀ m ∈ input, m.Letter = 'V') (hlen : rules.length = input.length) :
    calculateRules ls rng rules input
      = .ok (List.replicate input.length (some testRule), rng) := by
  have h := calculateRulesLoop_doubling input input 0 [] rules [] rng hV rfl hlen
  simp only [List.nil_append, List.append_nil] at h
  simp only [calculateRules, hR, h]

theorem calculateOutputSize_doubling (n : Nat) (hn : 2 * (n : Int) < 2 ^ 63) :
    calculateOutputSize (List.replicate n (some testRule)) = 2 * (n : Int) := by
  have hsum : ((List.replicate n (some testRule)).map outputSizeAt).sum = 2 * (n : Int) := by
    simp [outputSizeAt, testRule]
    ring
  rw [calculateOutputSize_eq, hsum, wrapInt_of_range (by omega) hn]

/-- On the doubling grammar the first half of the workers stores the rule at every position
of its section and reports twice the size of the section. -/
theorem sizeSections_doubling (ls : LSystem) (hR : ls.Parameters.Rules = [testRule])
    (hV : ∀ m ∈ ls.tier, m.Letter = 'V') (hfit : 2 * (ls.tier.length : Int) < 2 ^ 63) :
    ∀ (secs : List (Nat × Nat)) (c : Nat) (st : SizingState),
      Contiguous secs c → InBounds secs ls.tier.length → c ≤ ls.tier.length →
      st.rules = List.replicate c (some testRule) ++ List.replicate (ls.tier.length - c) none →
      sizeSections ls secs st = .ok
        ⟨List.replicate (sectionsEnd secs c) (some testRule)
            ++ List.replicate (ls.tier.length - sectionsEnd secs c) none,
          st.rng, st.sectionOutputSizes ++ secs.map (fun sec => 2 * (sec.2 : Int))⟩ := by
  intro secs
  induction secs with
  | nil =>
    intro c st _ _ _ hst
    obtain ⟨rules, rng, sizes⟩ := st
    simp only at hst
    simp [sizeSections, sectionsEnd, hst]
  | cons s secs ih =>
    intro c st hc hin hcL hst
    obtain ⟨cursor, n⟩ := s
    obtain ⟨h1, h2⟩ := hc
    simp only at h1 h2
    subst h1
    have hs : cursor + n ≤ ls.tier.length := hin (cursor, n) (by simp)
    have hend : sectionsEnd ((cursor, n) :: secs) cursor = sectionsEnd secs (cursor + n) := by
      simp [sectionsEnd]; omega
    have hrl : st.rules.length = ls.tier.length := by rw [hst]; simp; omega
    have hcalc := calculateRules_doubling ls hR st.rng ((st.rules.drop cursor).take n)
      ((ls.tier.drop cursor).take n)
      (fun m hm => hV m (List.mem_of_mem_drop (List.mem_of_mem_take hm)))
      (by simp [hrl])
    have hilen : ((ls.tier.drop cursor).take n).length = n := by simp; omega
    rw [hilen] at hcalc
    simp only [sizeSections, sizeSection, if_neg (not_lt.mpr hs), hcalc]
    rw [ih (cursor + n) _ h2 (fun sec hsec => hin sec (by simp [hsec])) hs]
    · have hcn := calculateOutputSize_doubling n (by omega)
      simp [hend, hcn]
    · have htake : st.rules.take cursor = List.replicate cursor (some testRule) := by
        rw [hst, List.take_append_of_le_length (by simp), List.take_replicate, Nat.min_self]
      have hdrop : st.rules.drop (cursor + n)
          = List.replicate (ls.tier.length - (cursor + n)) none := by
        rw [hst]
        have : cursor + n = (List.replicate cursor (some testRule)).length + n := by simp
        rw [this, List.drop_append, List.drop_replicate]
        simp only [List.length_replicate, Nat.sub_sub]
      simp only
      rw [htake, hdrop, List.replicate_add]

theorem selectedRules_doubling (ls : LSystem) (hR : ls.Parameters.Rules = [testRule])
    (hV : ∀ m ∈ ls.tier, m.Letter = 'V') (hfit : 2 * (ls.tier.length : Int) < 2 ^ 63)
    (sp size rem : Nat)
    (hsp : splits ls = .ok (sp, size, rem))
    (hE : sp * size + min sp rem ≤ ls.tier.length) :
    selectedRules ls = .ok
      (List.replicate (sp * size + min sp rem) (some testRule)
        ++ List.replicate (ls.tier.length - (sp * size + min sp rem)) none) := by
  have hend : sectionsEnd (sections size rem sp 0 0) 0 = sp * size + min sp rem := by
    rw [sectionsEnd_sections]; simp
  have hin : InBounds (sections size rem sp 0 0) ls.tier.length := by
    intro sec hsec
    have := contiguous_le_end _ 0 (sections_contiguous size rem sp 0 0) sec hsec
    omega
  have h := sizeSections_doubling ls hR hV hfit (sections size rem sp 0 0) 0
    ⟨List.replicate ls.tier.length none, ls.rng, []⟩
    (sections_contiguous size rem sp 0 0) hin (Nat.zero_le _) (by simp)
  simp only [selectedRules, hsp, h, hend]

theorem contributions_doubling (inner : Option Environment) :
    ∀ (tier : List Module) (e k : Nat), e ≤ tier.length →
      (contributions inner tier
        (List.replicate e (some testRule) ++ List.replicate k none)).flatten
        = List.replicate (2 * e) V1 := by
  intro tier
  induction tier with
  | nil =>
    intro e k he
    have : e = 0 := by simpa using he
    subst this
    simp [contributions]
  | cons m tier ih =>
    intro e k he
    cases e with
    | zero =>
      cases k with
      | zero => simp [contributions]
      | succ k =>
        have := ih 0 k (Nat.zero_le _)
        simp only [List.replicate_zero, List.nil_append, Nat.mul_zero] at this ⊢
        simp only [contributions, List.replicate_succ, List.zipWith_cons_cons, contribution,
          List.flatten_cons, List.nil_append]
        exact this
    | succ e =>
      have := ih e k (by simpa using he)
      simp only [contributions, List.replicate_succ, List.cons_append, List.zipWith_cons_cons,
        List.flatten_cons] at this ⊢
      rw [this, show 2 * (e + 1) = 2 * e + 1 + 1 by ring, List.replicate_succ,
        List.replicate_succ]
      rfl

/-- One generation of the doubling grammar: every position that a worker covers is
rewritten to two modules `V(1)`. -/
theorem Derivate_doubling (ctx : Context) (ls : LSystem)
    (hR : ls.Parameters.Rules = [testRule]) (hV : ∀ m ∈ ls.tier, m.Letter = 'V')
    (hfit : 2 * (ls.tier.length : Int) < 2 ^ 63)
    (sp size rem : Nat) (hsp : splits ls = .ok (sp, size, rem))
    (hE : sp * size + min sp rem ≤ ls.tier.length) :
    ∃ ls', Derivate ctx ls = .ok (none, ls') ∧
      ls'.tier = List.replicate (2 * (sp * size + min sp rem)) V1 ∧
      ls'.Parameters = ls.Parameters ∧
      ls'.subsectionMinimumSize = ls.subsectionMinimumSize ∧
      ls'.maxWorkers = ls.maxWorkers := by
  have hsel := selectedRules_doubling ls hR hV hfit sp size rem hsp hE
  obtain ⟨ls', hd, ht⟩ := Derivate_of_selection ctx ls _ hsel (by
    intro r hr
    simp only [List.mem_append, List.mem_replicate] at hr
    rcases hr with ⟨_, h⟩ | ⟨_, h⟩
    · cases h; exact testRule_writesExactly
    · cases h) (by
    have hsum : ∀ (e k : Nat), ((List.replicate e (some testRule)
        ++ List.replicate k (none : Option Rule)).map outputSizeAt).sum = 2 * (e : Int) := by
      intro e k
      simp [outputSizeAt, testRule]
      ring
    rw [hsum]
    omega)
  obtain ⟨-, -, hP, hm, hw, -⟩ := Derivate_counter hd
  exact ⟨ls', hd, by rw [ht, contributions_doubling _ _ _ _ hE], hP, hm, hw⟩

theorem V1_letter (n : Nat) : ∀ m ∈ List.replicate n V1, m.Letter = 'V' := by
  intro m hm
  rw [(List.mem_replicate.mp hm).2]
  rfl

/-- One generation of the doubling grammar on a tier of fewer than `2 ^ 32` modules
`V(1)` doubles it. -/
theorem Derivate_doubling_small (ctx : Context) (ls : LSystem) (n : Nat)
    (hR : ls.Parameters.Rules = [testRule]) (ht : ls.tier = List.replicate n V1)
    (hm : 1 ≤ ls.subsectionMinimumSize) (hw : 1 ≤ ls.maxWorkers) (hn : n < 2 ^ 32) :
    ∃ ls', Derivate ctx ls = .ok (none, ls') ∧
      ls'.tier = List.replicate (2 * n) V1 ∧
      ls'.Parameters = ls.Parameters ∧
      ls'.subsectionMinimumSize = ls.subsectionMinimumSize ∧
      ls'.maxWorkers = ls.maxWorkers := by
  have hlen : ls.tier.length = n := by rw [ht, List.length_replicate]
  have hsp := splits_of_small ls hm hw (by rw [hlen]; exact hn)
  have hpos : 0 < clamp (ls.tier.length / ls.subsectionMinimumSize) 1 ls.maxWorkers := by
    unfold clamp; omega
  have hcov := sections_cover ls.tier.length _ hpos
  rw [sectionsEnd_sections] at hcov
  simp only [Nat.sub_zero, Nat.zero_add] at hcov
  obtain ⟨ls', hd, ht', hrest⟩ := Derivate_doubling ctx ls hR
    (by rw [ht]; exact V1_letter n) (by rw [hlen]; omega) _ _ _ hsp (by rw [hcov])
  rw [hcov, hlen] at ht'
  exact ⟨ls', hd, ht', hrest⟩

theorem iterateDerivate_doubling (ctx : Context) :
    ∀ (n j : Nat) (ls : LSystem), ls.Parameters.Rules = [testRule] →
      ls.tier = List.replicate (2 ^ j) V1 → 1 ≤ ls.subsectionMinimumSize →
      1 ≤ ls.maxWorkers → j + n ≤ 32 →
      ∃ ls', iterateDerivate ctx n ls = .ok (none, ls') ∧
        ls'.tier = List.replicate (2 ^ (j + n)) V1 ∧
        ls'.Parameters.Rules = [testRule] ∧
        ls'.subsectionMinimumSize = ls.subsectionMinimumSize ∧
        ls'.maxWorkers = ls.maxWorkers := by
  intro n
  induction n with
  | zero => intro j ls hR ht _ _ _; exact ⟨ls, rfl, ht, hR, rfl, rfl⟩
  | succ n ih =>
    intro j ls hR ht hm hw hj
    obtain ⟨ls1, hd, ht1, hP1, hm1, hw1⟩ := Derivate_doubling_small ctx ls (2 ^ j) hR ht hm hw
      (Nat.pow_lt_pow_right (by norm_num) (by omega))
    obtain ⟨ls', hit, ht', hR', hm', hw'⟩ := ih (j + 1) ls1 (by rw [hP1]; exact hR)
      (by rw [ht1, pow_succ, Nat.mul_comm]) (by rw [hm1]; exact hm) (by rw [hw1]; exact hw)
      (by omega)
    refine ⟨ls', ?_, ?_, hR', by rw [hm', hm1], by rw [hw', hw1]⟩
    · simp only [iterateDerivate, hd, hit]
    · rw [ht', show j + 1 + n = j + (n + 1) by omega]

theorem iterateDerivate_succ_last (ctx : Context) :
    ∀ (n : Nat) (ls ls' ls'' : LSystem), iterateDerivate ctx n ls = .ok (none, ls') →
      Derivate ctx ls' = .ok (none, ls'') →
      iterateDerivate ctx (n + 1) ls = .ok (none, ls'') := by
  intro n
  induction n with
  | zero =>
    intro ls ls' ls'' h hd
    simp only [iterateDerivate, Except.ok.injEq, Prod.mk.injEq, true_and] at h
    subst h
    simp only [iterateDerivate, hd]
  | succ n ih =>
    intro ls ls' ls'' h hd
    simp only [iterateDerivate] at h
    cases hd1 : Derivate ctx ls with
    | error e => rw [hd1] at h; simp at h
    | ok p =>
      obtain ⟨e, ls1⟩ := p
      obtain ⟨he, -⟩ := Derivate_counter hd1
      subst he
      rw [hd1] at h
      simp only at h
      have := ih ls1 ls' ls'' h hd
      rw [iterateDerivate, hd1]
      exact this

/-- The doubling grammar as long as the tiers have fewer than `2 ^ 32` modules: for every
`k ≤ 31` and every setting `w ≥ 1` of the number of workers, `DerivateUntil(ctx, k)` on a
fresh L-system returns no error and leaves a tier of `2 ^ (k + 1)` modules, each of them
`V(1)`. -/
theorem doubling_grammar_doubles (ctx : Context) (NewSource : Int → Nat → F64) (w k : Nat)
    (hw : 1 ≤ w) (hk : k ≤ 31) (fuel : Nat) (hfuel : k + 1 < fuel) :
    ∃ ls', DerivateUntil ctx k fuel (New NewSource w TestParameters) = some (.ok (none, ls')) ∧
      ls'.Export = List.replicate (2 ^ (k + 1)) V1 ∧
      ls'.Export.length = 2 ^ (k + 1) ∧ ∀ m ∈ ls'.Export, m = V1 := by
  obtain ⟨ls', hit, ht, -⟩ := iterateDerivate_doubling ctx (k + 1) 0
    (New NewSource w TestParameters) rfl rfl (by simp [New, DefaultSubsectionMinimumSize])
    hw (by omega)
  have hdu := DerivateUntil_eq_iterate ctx k
    (lt_of_le_of_lt (Nat.add_le_add_right hk 1) (by norm_num)) (k + 1) fuel
    (New NewSource w TestParameters) (by simp [New]) hfuel
  rw [Nat.zero_add] at ht
  refine ⟨ls', by rw [hdu, hit], ht, ?_, ?_⟩
  · simp only [LSystem.Export]; rw [ht, List.length_replicate]
  · intro m hm
    simp only [LSystem.Export] at hm
    rw [ht] at hm
    exact (List.mem_replicate.mp hm).2

/-- The doubling grammar at `k = 3` with four workers: the tier has `16` modules `V(1)`. -/
theorem doubling_grammar_doubles_witness :
    ∃ ls', DerivateUntil ⟨false⟩ 3 5 (New zeroSource 4 TestParameters) = some (.ok (none, ls')) ∧
      ls'.Export.length = 16 ∧ ∀ m ∈ ls'.Export, m = V1 := by
  obtain ⟨ls', h1, -, h3, h4⟩ :=
    doubling_grammar_doubles ⟨false⟩ zeroSource 4 3 (by decide) (by decide) 5 (by decide)
  exact ⟨ls', h1, h3, h4⟩

/-- C19 fails at `k = 32` with three workers, where the code loses a module. The tier of
the 33rd generation has `2 ^ 32` modules `V(1)`; on such a tier `splits` returns three
partitions of `1431655765` modules and the remainder `0`, taken of the length cut to 32
bits, so the last module is left to no worker and has no rule; the call returns a tier of
`2 ^ 33 - 2` modules instead of `2 ^ 33`. -/
theorem doubling_grammar_loses_modules :
    (∃ ls', DerivateUntil ⟨false⟩ 32 34 (New zeroSource 3 TestParameters)
        = some (.ok (none, ls')) ∧
      ls'.Export.length = 2 ^ 33 - 2 ∧ ls'.Export.length ≠ 2 ^ (32 + 1)) ∧
    splits (New zeroSource 3 (longParameters (2 ^ 32))) = .ok (3, 1431655765, 0) ∧
    3 * 1431655765 + 0 = 2 ^ 32 - 1 := by
  refine ⟨?_, by rw [splits_long]; norm_num, by norm_num⟩
  obtain ⟨ls32, hit, ht, hR, hm, hw⟩ := iterateDerivate_doubling ⟨false⟩ 32 0
    (New zeroSource 3 TestParameters) rfl rfl (by simp [New, DefaultSubsectionMinimumSize])
    (by simp [New]) (by omega)
  rw [Nat.zero_add] at ht
  have hm' : ls32.subsectionMinimumSize = 64 := hm
  have hw' : ls32.maxWorkers = 3 := hw
  have hlen : ls32.tier.length = 2 ^ 32 := by rw [ht, List.length_replicate]
  have hsp : splits ls32 = .ok (3, 1431655765, 0) := by
    simp only [splits, hlen, hm', hw']
    norm_num
  obtain ⟨ls', hd, ht', -⟩ := Derivate_doubling ⟨false⟩ ls32 hR
    (by rw [ht]; exact V1_letter _) (by rw [hlen]; norm_num) 3 1431655765 0 hsp
    (by rw [hlen]; norm_num)
  have hdu := DerivateUntil_eq_iterate ⟨false⟩ 32 (by norm_num) 33 34
    (New zeroSource 3 TestParameters) (by simp [New]) (by norm_num)
  have hlen' : ls'.Export.length = 2 ^ 33 - 2 := by
    simp only [LSystem.Export]
    rw [ht', List.length_replicate]
    norm_num
  refine ⟨ls', ?_, hlen', ?_⟩
  · rw [hdu, iterateDerivate_succ_last ⟨false⟩ 32 _ ls32 ls' hit hd]
  · rw [hlen']; norm_num

/-! ## The wrapped environment -/

theorem parseDigits_append :
    ∀ (xs ys : List Char) (k : Nat),
      parseDigits (xs ++ ys) k = (parseDigits xs k).bind (fun v => parseDigits ys v) := by
  intro xs
  induction xs with
  | nil => intro ys k; rfl
  | cons x xs ih =>
    intro ys k
    simp only [List.cons_append, parseDigits]
    cases digitValue x with
    | none => rfl
    | some d => exact ih ys _

theorem toDigitsCore_acc (b : Nat) :
    ∀ (fuel n : Nat) (acc : List Char),
      Nat.toDigitsCore b fuel n acc = Nat.toDigitsCore b fuel n [] ++ acc := by
  intro fuel
  induction fuel with
  | zero => intro n acc; rfl
  | succ fuel ih =>
    intro n acc
    simp only [Nat.toDigitsCore]
    split
    · rfl
    · rw [ih _ (_ :: acc), ih _ [_]]
      simp

theorem digitValue_digitChar (d : Nat) (h : d < 10) : digitValue (Nat.digitChar d) = some d := by
  interval_cases d <;> rfl

theorem parseDigits_toDigitsCore :
    ∀ (fuel n : Nat), n < fuel → parseDigits (Nat.toDigitsCore 10 fuel n []) 0 = some n := by
  intro fuel
  induction fuel with
  | zero => intro n h; omega
  | succ fuel ih =>
    intro n h
    simp only [Nat.toDigitsCore]
    split
    · rename_i h0
      simp only [parseDigits, digitValue_digitChar _ (Nat.mod_lt n (by norm_num))]
      congr 1; omega
    · rename_i h0
      rw [toDigitsCore_acc, parseDigits_append, ih (n / 10) (by omega)]
      simp only [Option.some_bind, parseDigits,
        digitValue_digitChar _ (Nat.mod_lt n (by norm_num))]
      congr 1; omega

theorem parseDigits_toDigits (n : Nat) : parseDigits (Nat.toDigits 10 n) 0 = some n :=
  parseDigits_toDigitsCore (n + 1) n (Nat.lt_succ_self n)

theorem splitSign_of_digit (c : Char) (cs : List Char) (hc : digitValue c ≠ none) :
    splitSign (c :: cs) = (false, c :: cs) := by
  unfold splitSign
  split
  · rename_i heq
    simp only [List.cons.injEq] at heq
    rw [heq.1] at hc
    exact absurd rfl hc
  · rename_i heq
    simp only [List.cons.injEq] at heq
    rw [heq.1] at hc
    exact absurd rfl hc
  · rfl

/-- Go `strconv.Atoi` on the decimal digits of `n`. -/
theorem Atoi_toDigits (n : Nat) :
    Atoi (Nat.toDigits 10 n) =
      if n < 2 ^ 63 then ((n : Int), none)
      else ((2 ^ 63 : Int) - 1, some "strconv.Atoi: value out of range") := by
  have hp := parseDigits_toDigits n
  cases hd : Nat.toDigits 10 n with
  | nil =>
    rw [hd] at hp
    simp only [parseDigits, Option.some.injEq] at hp
    subst hp
    simp [Nat.toDigits, Nat.toDigitsCore] at hd
  | cons c cs =>
    rw [hd] at hp
    have hc : digitValue c ≠ none := by
      intro h
      simp [parseDigits, h] at hp
    simp only [Atoi, splitSign_of_digit c cs hc, hp]
    rfl

theorem toList_prev_name (n : Nat) :
    (PrevPrefix ++ toString n).toList = PrevPrefix.toList ++ Nat.toDigits 10 n := by
  simp [toString, Nat.repr, String.toList, List.asString]

theorem HasPrefix_append (pre rest : String) : HasPrefix (pre ++ rest) pre = true := by
  simp [HasPrefix, String.toList]

/-- C16. For every list `prev` of predecessor parameters, every inner environment or none,
and every natural number `n`: `Get` on the name `prev_` followed by the decimal digits of
`n` returns `(prev[n], nil)` when `n < len(prev)`, and the value `0` with an error when
`n >= len(prev)`. The inner environment has no part in the result. The length of `prev`
is that of a Go slice, an `int`. -/
theorem Get_prev_serves_predecessor_parameter (inner : Option Environment) (prev : List F64)
    (n : Nat) (hprev : prev.length < 2 ^ 63) :
    (⟨inner, prev⟩ : wrappedEnvironment).Get (PrevPrefix ++ toString n) =
      if h : n < prev.length then (prev.get ⟨n, h⟩, none)
      else (F64.fin 0, some (if n < 2 ^ 63 then "call to unexistent previous variable"
                              else "strconv.Atoi: value out of range")) := by
  simp only [wrappedEnvironment.Get, HasPrefix_append, if_true, toList_prev_name]
  have hdrop : (PrevPrefix.toList ++ Nat.toDigits 10 n).drop PrevPrefix.length
      = Nat.toDigits 10 n := by
    rw [show PrevPrefix.length = PrevPrefix.toList.length from rfl, List.drop_left]
  rw [hdrop, Atoi_toDigits]
  by_cases h63 : n < 2 ^ 63
  · simp only [if_pos h63]
    by_cases hn : n < prev.length
    · have : ¬ ((n : Int) < 0 ∨ (prev.length : Int) ≤ n) := by omega
      simp only [this, if_false, dif_pos hn, Int.toNat_ofNat]
      rw [List.get?_eq_get hn]
    · have : ((n : Int) < 0 ∨ (prev.length : Int) ≤ n) := by omega
      simp only [this, if_true, dif_neg hn]
  · simp only [if_neg h63]
    rw [dif_neg (by omega)]

/-- Witness of C16 on the parameters `[1, 7]`: `prev_1` is `7`, and `prev_2` is an error,
the inner environment that knows every name notwithstanding. -/
theorem Get_prev_serves_predecessor_parameter_witness :
    (⟨some sevenEnvironment, [F64.fin 1, F64.fin 7]⟩ : wrappedEnvironment).Get "prev_1"
      = (F64.fin 7, none) ∧
    (⟨some sevenEnvironment, [F64.fin 1, F64.fin 7]⟩ : wrappedEnvironment).Get "prev_2"
      = (F64.fin 0, some "call to unexistent previous variable") :=
  ⟨Get_prev_serves_predecessor_parameter (some sevenEnvironment) [F64.fin 1, F64.fin 7] 1
      (by simp),
    Get_prev_serves_predecessor_parameter (some sevenEnvironment) [F64.fin 1, F64.fin 7] 2
      (by simp)⟩

theorem digitValue_of_not_isDigit (ch : Char) (h : ch.isDigit = false) :
    digitValue ch = none := by
  unfold digitValue
  rw [if_neg]
  intro hc
  have : ch.isDigit = true := by
    simp only [Char.isDigit, Bool.and_eq_true, decide_eq_true_eq]
    exact hc
  rw [h] at this
  cases this

theorem parseDigits_of_not_all_digits :
    ∀ (xs : List Char) (n : Nat), xs.all Char.isDigit = false → parseDigits xs n = none := by
  intro xs
  induction xs with
  | nil => intro n h; simp at h
  | cons x xs ih =>
    intro n h
    simp only [parseDigits]
    cases hx : x.isDigit with
    | false => rw [digitValue_of_not_isDigit x hx]
    | true =>
      have hrest : xs.all Char.isDigit = false := by
        simpa [List.all_cons, hx] using h
      cases digitValue x with
      | none => rfl
      | some d => exact ih _ hrest

/-- On a text without digits, or with a character that is no digit, the conversion
returns an error. -/
theorem Atoi_digits_error (neg : Bool) (digits : List Char)
    (h : (!digits.isEmpty && digits.all Char.isDigit) = false) :
    (match digits with
      | [] => ((0 : Int), some "strconv.Atoi: invalid syntax")
      | _ :: _ =>
        match parseDigits digits 0 with
        | none => (0, some "strconv.Atoi: invalid syntax")
        | some n =>
          if neg then
            if n ≤ 2 ^ 63 then (-(n : Int), none)
            else (-(2 ^ 63 : Int), some "strconv.Atoi: value out of range")
          else
            if n < 2 ^ 63 then ((n : Int), none)
            else ((2 ^ 63 : Int) - 1, some "strconv.Atoi: value out of range")).2 ≠ none := by
  cases digits with
  | nil => simp
  | cons c cs =>
    have hall : (c :: cs).all Char.isDigit = false := by simpa using h
    simp only [parseDigits_of_not_all_digits _ 0 hall]
    simp

/-- Go `strconv.Atoi` returns an error on every text that is not an integer in decimal
notation. -/
theorem Atoi_error_of_not_integer (s : List Char) (h : isIntegerText s = false) :
    (Atoi s).2 ≠ none := by
  unfold Atoi
  unfold isIntegerText at h
  split at h
  · simp only [splitSign]
    exact Atoi_digits_error true _ h
  · simp only [splitSign]
    exact Atoi_digits_error false _ h
  · rename_i hminus hplus
    have hs : splitSign s = (false, s) := by
      unfold splitSign
      split
      · exact absurd rfl (hminus _)
      · exact absurd rfl (hplus _)
      · rfl
    simp only [hs]
    exact Atoi_digits_error false _ h

/-- C17, amended. For the names that do not begin with `prev_`, `Get` returns exactly what
`Get` of the inner environment returns when there is one, and the undefined-variable error
when there is none. A name that begins with `prev_` is never handed to the inner
environment: the result of `Get` is the same whatever the inner environment, and when what
follows the prefix is not an integer (as in `prev_x`) `Get` returns the value `0` and the
error that `strconv.Atoi` returns for it, which is not `nil`. -/
theorem Get_delegates_other_names (inner : Option Environment) (prev : List F64) (v : String)
    (h : HasPrefix v PrevPrefix = false) :
    (⟨inner, prev⟩ : wrappedEnvironment).Get v =
      (match inner with
       | some inner => inner.Get v
       | none =>
         (F64.fin 0, some "call to undefined variable as there is no environment defined")) ∧
    (∀ (v' : String) (inner' : Option Environment), HasPrefix v' PrevPrefix = true →
      (⟨inner', prev⟩ : wrappedEnvironment).Get v'
        = (⟨none, prev⟩ : wrappedEnvironment).Get v') ∧
    (∀ (v' : String) (inner' : Option Environment), HasPrefix v' PrevPrefix = true →
      isIntegerText (v'.toList.drop PrevPrefix.length) = false →
      (Atoi (v'.toList.drop PrevPrefix.length)).2 ≠ none ∧
      (⟨inner', prev⟩ : wrappedEnvironment).Get v'
        = (F64.fin 0, (Atoi (v'.toList.drop PrevPrefix.length)).2)) := by
  refine ⟨?_, ?_, ?_⟩
  · simp only [wrappedEnvironment.Get, h]
    rfl
  · intro v' inner' h'
    simp only [wrappedEnvironment.Get, h', if_true]
  · intro v' inner' h' hint
    have herr := Atoi_error_of_not_integer _ hint
    refine ⟨herr, ?_⟩
    simp only [wrappedEnvironment.Get, h', if_true]
    cases hA : Atoi (v'.toList.drop PrevPrefix.length) with
    | mk n err =>
      rw [hA] at herr
      cases err with
      | none => exact absurd rfl herr
      | some e => rfl

/-- Witness of C17: the name `x` goes to the inner environment, and the name `prev_x` does
not: `Get` returns the error of `strconv.Atoi` on `x`. -/
theorem Get_delegates_other_names_witness :
    (⟨some sevenEnvironment, []⟩ : wrappedEnvironment).Get "x" = (F64.fin 7, none) ∧
    (⟨some sevenEnvironment, []⟩ : wrappedEnvironment).Get "prev_x"
      = (F64.fin 0, (Atoi ['x']).2) :=
  ⟨(Get_delegates_other_names (some sevenEnvironment) [] "x" (by decide)).1,
   ((Get_delegates_other_names (some sevenEnvironment) [] "x" (by decide)).2.2 "prev_x"
      (some sevenEnvironment) (by decide) (by decide)).2⟩

/-- C17, as stated, fails on the name `prev_x` with an inner environment that gives every
name the value `7`: `Get` returns the value `0` and the error that `strconv.Atoi` returns
for `x`, not what the inner environment returns. -/
theorem Get_prev_x_is_not_delegated :
    (⟨some sevenEnvironment, []⟩ : wrappedEnvironment).Get "prev_x"
      = (F64.fin 0, (Atoi ['x']).2) ∧
    (Atoi ['x']).2 ≠ none ∧
    sevenEnvironment.Get "prev_x" = (F64.fin 7, none) := by
  refine ⟨by decide, by decide, rfl⟩

/-! ## The pipeline -/

theorem ResolverInv.send {P : order → Prop} {st : Resolver} (h : ResolverInv P st) (o : order)
    (ho : o.seq = st.seq + 1) (hP : P o) (buffer : List (Option order))
    (hb : ∀ o', some o' ∈ buffer → some o' ∈ st.buffer) (mask : List Bool) (sub : List Nat) :
    ResolverInv P { seq := st.seq + 1, buffer := buffer, mask := mask,
                    subSelectCaseToOrderQueueIndex := sub, sent := st.sent ++ [o] } := by
  obtain ⟨h1, h2, h3, h4⟩ := h
  refine ⟨?_, ?_, ?_, ?_⟩
  · show List.map (fun o => o.seq) (st.sent ++ [o])
      = List.map Int.ofNat (List.range (st.sent ++ [o]).length)
    rw [List.length_append, List.length_singleton, List.range_succ, List.map_append,
      List.map_append, h1]
    simp only [List.map_cons, List.map_nil, ho, h2]
    rfl
  · show st.seq + 1 + 1 = ((st.sent ++ [o]).length : Int)
    rw [List.length_append, List.length_singleton, h2]
    push_cast
    rfl
  · intro o' ho'
    simp only [List.mem_append, List.mem_singleton] at ho'
    rcases ho' with ho' | rfl
    · exact h3 o' ho'
    · exact hP
  · intro o' ho'
    exact h4 o' (hb o' ho')

theorem ResolverInv.frame {P : order → Prop} {st : Resolver} (h : ResolverInv P st)
    (buffer : List (Option order)) (hb : ∀ o', some o' ∈ buffer → P o') (mask : List Bool)
    (sub : List Nat) :
    ResolverInv P { seq := st.seq, buffer := buffer, mask := mask,
                    subSelectCaseToOrderQueueIndex := sub, sent := st.sent } :=
  ⟨h.1, h.2.1, h.2.2.1, hb⟩

theorem checkBufferLoop_inv {P : order → Prop} (again : Resolver → Option Resolver)
    (hagain : ∀ st st', ResolverInv P st → again st = some st' → ResolverInv P st') :
    ∀ (remaining i : Nat) (st st' : Resolver), ResolverInv P st →
      checkBufferLoop again remaining i st = some st' → ResolverInv P st' := by
  intro remaining
  induction remaining with
  | zero =>
    intro i st st' h hc
    simp only [checkBufferLoop, Option.some.injEq] at hc
    exact hc ▸ h
  | succ remaining ih =>
    intro i st st' h hc
    simp only [checkBufferLoop] at hc
    split at hc
    · rename_i o hget
      split at hc
      · rename_i hseq
        split at hc
        · simp at hc
        · rename_i st1 hst1
          have hmem : some o ∈ st.buffer := List.get?_mem hget
          have hinv : ResolverInv P st1 := hagain _ st1
            (h.send o hseq (h.2.2.2 o hmem) _
              (fun o' ho' => by
                rcases List.mem_or_eq_of_mem_set ho' with h' | h'
                · exact h'
                · simp at h')
              _ _) hst1
          exact ih (i + 1) st1 st' hinv hc
      · exact ih (i + 1) st st' h hc
    · exact ih (i + 1) st st' h hc

theorem checkBuffer_inv {P : order → Prop} :
    ∀ (depth : Nat) (st st' : Resolver), ResolverInv P st →
      checkBuffer depth st = some st' → ResolverInv P st' := by
  intro depth
  induction depth with
  | zero => intro st st' _ hc; simp [checkBuffer] at hc
  | succ depth ih =>
    intro st st' h hc
    simp only [checkBuffer] at hc
    exact checkBufferLoop_inv _ ih _ 0 st st' h hc

theorem resolveSelected_inv {P : order → Prop} (st : Resolver) (ev : Selected)
    (h : ResolverInv P st) (hev : ∀ o, ev.recv = some o → P o) :
    (∀ done, resolveSelected st ev = .inl done → ResolverInv P done.2) ∧
    (∀ st', resolveSelected st ev = .inr st' → ResolverInv P st') := by
  cases hrecv : ev.recv with
  | none =>
    cases hidx : st.subSelectCaseToOrderQueueIndex.get? ev.chosen with
    | none =>
      have hrs : resolveSelected st ev = .inl (.panicked "index out of range", st) := by
        simp only [resolveSelected, hrecv, hidx]
      rw [hrs]
      refine ⟨fun done hd => ?_, fun st' hd => ?_⟩
      · cases hd; exact h
      · cases hd
    | some idx =>
      have hm : ResolverInv P { st with mask := st.mask.set idx true } :=
        h.frame _ h.2.2.2 _ _
      cases hcb : checkBuffer (st.buffer.length + 1) { st with mask := st.mask.set idx true } with
      | none =>
        have hrs : resolveSelected st ev
            = .inl (.nesting, { st with mask := st.mask.set idx true }) := by
          simp only [resolveSelected, hrecv, hidx, hcb]
        rw [hrs]
        refine ⟨fun done hd => ?_, fun st' hd => ?_⟩
        · cases hd; exact hm
        · cases hd
      | some st1 =>
        have hrs : resolveSelected st ev = .inr st1 := by
          simp only [resolveSelected, hrecv, hidx, hcb]
        rw [hrs]
        refine ⟨fun done hd => ?_, fun st' hd => ?_⟩
        · cases hd
        · cases hd; exact checkBuffer_inv _ _ st1 hm hcb
  | some o =>
    by_cases hseq : o.seq = st.seq + 1
    · have hs : ResolverInv P { st with sent := st.sent ++ [o], seq := st.seq + 1 } :=
        h.send o hseq (hev o hrecv) _ (fun _ h' => h') _ _
      cases hcb : checkBuffer (st.buffer.length + 1)
          { st with sent := st.sent ++ [o], seq := st.seq + 1 } with
      | none =>
        have hrs : resolveSelected st ev
            = .inl (.nesting, { st with sent := st.sent ++ [o], seq := st.seq + 1 }) := by
          simp only [resolveSelected, hrecv, hseq, if_true, hcb]
        rw [hrs]
        refine ⟨fun done hd => ?_, fun st' hd => ?_⟩
        · cases hd; exact hs
        · cases hd
      | some st1 =>
        have hrs : resolveSelected st ev
            = .inr { st1 with subSelectCaseToOrderQueueIndex := [] } := by
          simp only [resolveSelected, hrecv, hseq, if_true, hcb]
        rw [hrs]
        have hinv := checkBuffer_inv _ _ st1 hs hcb
        refine ⟨fun done hd => ?_, fun st' hd => ?_⟩
        · cases hd
        · cases hd; exact hinv.frame _ hinv.2.2.2 _ _
    · cases hidx : st.subSelectCaseToOrderQueueIndex.get? ev.chosen with
      | none =>
        have hrs : resolveSelected st ev = .inl (.panicked "index out of range", st) := by
          simp only [resolveSelected, hrecv, hseq, if_false, hidx]
        rw [hrs]
        refine ⟨fun done hd => ?_, fun st' hd => ?_⟩
        · cases hd; exact h
        · cases hd
      | some idx =>
        have hrs : resolveSelected st ev
            = .inr { st with buffer := st.buffer.set idx (some o)
                             subSelectCaseToOrderQueueIndex := [] } := by
          simp only [resolveSelected, hrecv, hseq, if_false, hidx]
        rw [hrs]
        refine ⟨fun done hd => ?_, fun st' hd => ?_⟩
        · cases hd
        · cases hd
          refine h.frame _ ?_ _ _
          intro o' ho'
          rcases List.mem_or_eq_of_mem_set ho' with h' | h'
          · exact h.2.2.2 o' h'
          · cases h'; exact hev o hrecv

theorem resolveLoop_inv {P : order → Prop} :
    ∀ (events : List Selected) (st : Resolver), ResolverInv P st →
      (∀ ev ∈ events, ∀ o, ev.recv = some o → P o) →
      ResolverInv P (resolveLoop events st).2 := by
  intro events
  induction events with
  | nil =>
    intro st h _
    unfold resolveLoop
    simp only
    split
    · split
      · exact h
      · rename_i st1 hst1; exact checkBuffer_inv _ _ st1 h hst1
    · split
      · exact h.frame _ h.2.2.2 _ _
      · exact h.frame _ h.2.2.2 _ _
  | cons ev rest ih =>
    intro st h hev
    unfold resolveLoop
    simp only
    split
    · split
      · exact h
      · rename_i st1 hst1; exact checkBuffer_inv _ _ st1 h hst1
    · split
      · exact h.frame _ h.2.2.2 _ _
      · have hsub : ResolverInv P { st with subSelectCaseToOrderQueueIndex :=
            st.subSelectCaseToOrderQueueIndex ++ subSelect st } := h.frame _ h.2.2.2 _ _
        obtain ⟨hl, hr⟩ := resolveSelected_inv _ ev hsub (hev ev (by simp))
        split
        · rename_i done hd; exact hl done hd
        · rename_i st' hd
          exact ih st' (hr st' hd) (fun ev' hev' => hev ev' (by simp [hev']))

theorem resolve_inv (P : order → Prop) (queues : Nat) (events : List Selected)
    (hev : ∀ ev ∈ events, ∀ o, ev.recv = some o → P o) :
    ResolverInv P (resolve queues events).2 := by
  apply resolveLoop_inv _ _ _ hev
  refine ⟨rfl, rfl, ?_, ?_⟩
  · intro o ho; simp at ho
  · intro o ho; simp at ho

theorem buffered_set_none (st : Resolver) (i : Nat) (o : order)
    (h : st.buffer.get? i = some (some o)) :
    (st.buffer.set i none).countP (fun slot => slot.isSome) + 1 = buffered st := by
  have hi : i < st.buffer.length := by
    rw [List.get?_eq_getElem?] at h
    exact (List.getElem?_eq_some_iff.mp h).1
  have hget : st.buffer[i] = some o := by
    rw [List.get?_eq_getElem?] at h
    exact (List.getElem?_eq_some_iff.mp h).2
  have hpos : 0 < st.buffer.countP (fun slot => slot.isSome) :=
    List.countP_pos_iff.mpr ⟨some o, List.get?_mem h, rfl⟩
  rw [List.countP_set _ _ _ _ hi, hget]
  simp only [Option.isSome_some, if_true, Option.isSome_none, Bool.false_eq_true, if_false,
    Nat.add_zero]
  unfold buffered
  omega

theorem checkBufferLoop_total (again : Resolver → Option Resolver) (d : Nat)
    (hagain : ∀ st, buffered st < d → ∃ st', again st = some st' ∧
      buffered st' ≤ buffered st ∧ st'.buffer.length = st.buffer.length) :
    ∀ (remaining i : Nat) (st : Resolver), buffered st ≤ d →
      ∃ st', checkBufferLoop again remaining i st = some st' ∧
        buffered st' ≤ buffered st ∧ st'.buffer.length = st.buffer.length := by
  intro remaining
  induction remaining with
  | zero => intro i st _; exact ⟨st, rfl, le_refl _, rfl⟩
  | succ remaining ih =>
    intro i st hd
    simp only [checkBufferLoop]
    split
    · rename_i o hget
      split
      · have hcount := buffered_set_none st i o hget
        obtain ⟨st1, h1, h2, h3⟩ := hagain
          { st with sent := st.sent ++ [o], seq := st.seq + 1, buffer := st.buffer.set i none }
          (by unfold buffered at hcount hd ⊢; simp only; omega)
        rw [h1]
        simp only [buffered] at h2 hcount hd
        obtain ⟨st', h4, h5, h6⟩ := ih (i + 1) st1 (by unfold buffered; omega)
        refine ⟨st', h4, ?_, ?_⟩
        · unfold buffered at h5 ⊢; omega
        · rw [h6, h3]; simp
      · exact ih (i + 1) st hd
    · exact ih (i + 1) st hd

/-- The calls of `checkBuffer` nest no deeper than there are orders in the buffer: with
more depth than that the model follows the call to its end. -/
theorem checkBuffer_total :
    ∀ (depth : Nat) (st : Resolver), buffered st < depth →
      ∃ st', checkBuffer depth st = some st' ∧
        buffered st' ≤ buffered st ∧ st'.buffer.length = st.buffer.length := by
  intro depth
  induction depth with
  | zero => intro st h; omega
  | succ depth ih =>
    intro st h
    simp only [checkBuffer]
    exact checkBufferLoop_total _ depth ih _ 0 st (by omega)

theorem checkBuffer_isSome (st : Resolver) :
    ∃ st', checkBuffer (st.buffer.length + 1) st = some st' := by
  obtain ⟨st', h, -⟩ := checkBuffer_total (st.buffer.length + 1) st
    (Nat.lt_succ_of_le (List.countP_le_length _))
  exact ⟨st', h⟩

theorem resolveSelected_not_nesting (st : Resolver) (ev : Selected) :
    ∀ done, resolveSelected st ev = .inl done → done.1 ≠ .nesting := by
  intro done hd
  unfold resolveSelected at hd
  split at hd
  · split at hd
    · cases hd; simp
    · rename_i idx _
      obtain ⟨st1, h1⟩ := checkBuffer_isSome { st with mask := st.mask.set idx true }
      simp only at h1 hd
      rw [h1] at hd
      cases hd
  · rename_i o _
    split at hd
    · obtain ⟨st1, h1⟩ := checkBuffer_isSome
        { st with sent := st.sent ++ [o], seq := st.seq + 1 }
      simp only at h1 hd
      rw [h1] at hd
      cases hd
    · split at hd
      · cases hd; simp
      · cases hd

theorem resolveLoop_not_nesting :
    ∀ (events : List Selected) (st : Resolver), (resolveLoop events st).1 ≠ .nesting := by
  intro events
  induction events with
  | nil =>
    intro st
    unfold resolveLoop
    simp only
    split
    · obtain ⟨st1, h1⟩ := checkBuffer_isSome st
      rw [h1]; simp
    · split <;> simp
  | cons ev rest ih =>
    intro st
    unfold resolveLoop
    simp only
    split
    · obtain ⟨st1, h1⟩ := checkBuffer_isSome st
      rw [h1]; simp
    · split
      · simp
      · split
        · rename_i done hd
          exact resolveSelected_not_nesting _ ev done hd
        · exact ih _

theorem getElem?_sequenceFrom :
    ∀ (input : List LSystem) (seq : Int) (k : Nat),
      (sequenceFrom input seq)[k]? = input[k]?.map (fun ls => ⟨ls, seq + k⟩) := by
  intro input
  induction input with
  | nil => intro seq k; simp [sequenceFrom]
  | cons ls rest ih =>
    intro seq k
    cases k with
    | zero => simp [sequenceFrom]
    | succ k =>
      simp only [sequenceFrom, List.getElem?_cons_succ, ih]
      cases rest[k]? with
      | none => rfl
      | some x =>
        simp only [Option.map_some', Option.some.injEq, order.mk.injEq, true_and]
        push_cast
        ring

theorem Processed.seq_eq {o0 o : order} (h : Processed o0 o) : o.seq = o0.seq := by
  obtain ⟨fuel, h⟩ := h
  unfold run at h
  split at h
  · cases h
  · cases h
  · simp only [Option.some.injEq, Except.ok.injEq] at h
    rw [← h]

/-- C14. For every number of worker queues and every sequence of what `resolve` receives
from them (orders and closings, on whatever queues, in whatever order): the orders that
`resolve` sends on carry the sequence numbers `0, 1, 2, ...` in this order, none left out
and none twice. When the orders received are those that the workers made of the orders of
`sequence`, the L-systems sent on are those submitted, worked on, in submission order. The
model follows every call of `checkBuffer` to its end. -/
theorem resolve_emits_in_submission_order (queues : Nat) (events : List Selected) :
    (resolve queues events).2.sent.map (fun o => o.seq)
      = (List.range (resolve queues events).2.sent.length).map Int.ofNat ∧
    (resolve queues events).1 ≠ .nesting ∧
    ∀ input : List LSystem,
      (∀ ev ∈ events, ∀ o, ev.recv = some o → ∃ o0 ∈ sequence input, Processed o0 o) →
      List.Forall₂ Processed
        ((sequence input).take (resolve queues events).2.sent.length)
        (resolve queues events).2.sent := by
  refine ⟨(resolve_inv (fun _ => True) queues events (fun _ _ _ _ => trivial)).1,
    resolveLoop_not_nesting _ _, ?_⟩
  intro input hev
  obtain ⟨hseq, -, hP, -⟩ :=
    resolve_inv (fun o => ∃ o0 ∈ sequence input, Processed o0 o) queues events hev
  generalize (resolve queues events).2.sent = sent at hseq hP
  have hseqi : ∀ (i : Nat) (hi : i < sent.length), (sent.get ⟨i, hi⟩).seq = (i : Int) := by
    intro i hi
    have := congrArg (fun l => l[i]?) hseq
    simp only [List.getElem?_map, List.getElem?_eq_getElem hi, Option.map_some',
      List.getElem?_range hi] at this
    simpa using this
  have hfrom : ∀ (i : Nat) (hi : i < sent.length),
      ∃ o0, (sequence input)[i]? = some o0 ∧ Processed o0 (sent.get ⟨i, hi⟩) := by
    intro i hi
    obtain ⟨o0, hmem, hpr⟩ := hP _ (List.get_mem sent i hi)
    obtain ⟨k, hk⟩ := List.mem_iff_getElem?.mp hmem
    have hk' := hk
    rw [sequence, getElem?_sequenceFrom] at hk'
    cases hin : input[k]? with
    | none => rw [hin] at hk'; simp at hk'
    | some ls =>
      rw [hin] at hk'
      simp only [Option.map_some', Option.some.injEq] at hk'
      have h1 : o0.seq = (k : Int) := by rw [← hk']; simp
      have h2 := hpr.seq_eq
      rw [hseqi i hi, h1] at h2
      have : i = k := by exact_mod_cast h2
      subst this
      exact ⟨o0, hk, hpr⟩
  have hlen : sent.length ≤ (sequence input).length := by
    by_contra hlt
    have hpos : 0 < sent.length := by omega
    obtain ⟨o0, h0, -⟩ := hfrom (sent.length - 1) (by omega)
    have := (List.getElem?_eq_some_iff.mp h0).1
    omega
  rw [List.forall₂_iff_get]
  refine ⟨by simp [hlen], ?_⟩
  intro i h1 h2
  obtain ⟨o0, h0, hpr⟩ := hfrom i h2
  have : ((sequence input).take sent.length).get ⟨i, h1⟩ = o0 := by
    have h3 : ((sequence input).take sent.length)[i]? = some o0 := by
      rw [List.getElem?_take_of_lt h2, h0]
    exact (List.getElem?_eq_some_iff.mp h3).2
  rw [this]
  exact hpr

theorem iterateDerivate_empty (ctx : Context) :
    ∀ (n : Nat) (ls : LSystem), ls.tier = [] → ls.subsectionMinimumSize = 64 →
      ls.currentTier + n < 2 ^ 64 →
      iterateDerivate ctx n ls = .ok (none, { ls with currentTier := ls.currentTier + n }) := by
  intro n
  induction n with
  | zero => intro ls _ _ _; rfl
  | succ n ih =>
    intro ls ht hm hc
    have hmod : (ls.currentTier + 1) % 2 ^ 64 = ls.currentTier + 1 :=
      Nat.mod_eq_of_lt (by omega)
    simp only [iterateDerivate, Derivate_empty ctx ls ht hm, hmod]
    have := ih { ls with currentTier := ls.currentTier + 1 } ht hm (by simp only; omega)
    rw [this]
    simp only [show ls.currentTier + 1 + n = ls.currentTier + (n + 1) by omega]

theorem run_submittedOrder (seq : Int) :
    run 17 (submittedOrder seq) = some (.ok (servedOrder seq)) := by
  have h := DerivateUntil_eq_iterate ⟨false⟩ 15 (by norm_num) 16 17
    (New zeroSource 1 emptyGrammar) (by simp [New]) (by norm_num)
  rw [iterateDerivate_empty ⟨false⟩ 16 _ rfl rfl (by simp [New])] at h
  simp only [run, submittedOrder, h]
  rfl

/-- Witness of C14 with two queues: the order `1` arrives first and waits in the buffer,
then the order `0` arrives; `resolve` sends on the order `0`, then the order `1`. -/
theorem resolve_emits_in_submission_order_witness :
    (resolve 2 swappedArrival).2.sent.map (fun o => o.seq) = [0, 1] ∧
    List.Forall₂ Processed [submittedOrder 0, submittedOrder 1]
      (resolve 2 swappedArrival).2.sent := by
  have h := resolve_emits_in_submission_order 2 swappedArrival
  have hlen : (resolve 2 swappedArrival).2.sent.length = 2 := by decide
  refine ⟨?_, ?_⟩
  · rw [h.1, hlen]; rfl
  · have h2 := h.2.2 [New zeroSource 1 emptyGrammar, New zeroSource 1 emptyGrammar] (by
      intro ev hev o ho
      simp only [swappedArrival, List.mem_cons, List.mem_singleton, List.not_mem_nil,
        or_false] at hev
      rcases hev with rfl | rfl
      · simp only [Option.some.injEq] at ho
        subst ho
        exact ⟨submittedOrder 1, by simp [sequence, sequenceFrom, submittedOrder],
          17, run_submittedOrder 1⟩
      · simp only [Option.some.injEq] at ho
        subst ho
        exact ⟨submittedOrder 0, by simp [sequence, sequenceFrom, submittedOrder],
          17, run_submittedOrder 0⟩)
    rw [hlen] at h2
    exact h2

/-- C15 fails with two queues. Queue `0` is closed by its worker while queue `1` has not
delivered anything yet and is not closed: `resolve` marks queue `0`, and at the next turn of
its loop it finds a mark, closes its output and returns. Nothing was sent on, and whatever
queue `1` still holds is never read. -/
theorem resolve_closes_on_first_closed_queue :
    (resolve 2 [⟨0, none⟩]).1 = .returned ∧
    (resolve 2 [⟨0, none⟩]).2.mask = [true, false] ∧
    (resolve 2 [⟨0, none⟩]).2.sent.length = 0 ∧
    ∀ later : List Selected, resolve 2 (⟨0, none⟩ :: later) = resolve 2 [⟨0, none⟩] := by
  refine ⟨by decide, by decide, by decide, ?_⟩
  intro later
  cases later with
  | nil => rfl
  | cons ev rest => rfl

/-! ## The text of a module -/

theorem intercalate_go_append (sep : String) :
    ∀ (l : List String) (x acc : String),
      String.intercalate.go (x ++ acc) sep l = x ++ String.intercalate.go acc sep l := by
  intro l
  induction l with
  | nil => intro x acc; rfl
  | cons a l ih =>
    intro x acc
    simp only [String.intercalate.go]
    rw [String.append_assoc, String.append_assoc, ← String.append_assoc acc, ih]

theorem intercalate_cons_cons (sep a b : String) (l : List String) :
    sep.intercalate (a :: b :: l) = a ++ sep ++ sep.intercalate (b :: l) := by
  simp only [String.intercalate, String.intercalate.go]
  rw [intercalate_go_append]

theorem stringLoop_eq (FormatFloat : F64 → String) (len : Nat) :
    ∀ (params : List F64) (i : Nat) (out : String), i + params.length = len →
      Module.stringLoop FormatFloat len params i out
        = out ++ ", ".intercalate (params.map FormatFloat) := by
  intro params
  induction params with
  | nil => intro i out _; simp [Module.stringLoop, String.intercalate]
  | cons p rest ih =>
    intro i out h
    simp only [Module.stringLoop]
    cases rest with
    | nil =>
      have : i + 1 = len := by simpa using h
      simp [this, Module.stringLoop, String.intercalate, String.intercalate.go]
    | cons q rest =>
      have hne : i + 1 ≠ len := by simp only [List.length_cons] at h; omega
      rw [if_pos hne, ih (i + 1) _ (by simp only [List.length_cons] at h ⊢; omega)]
      simp only [List.map_cons]
      rw [intercalate_cons_cons]
      simp only [String.append_assoc]

/-- C21. For every module, whatever the formatting of a float: `String()` is the letter
alone when the module has no parameter, and otherwise the letter, then `(`, then the
formatted parameters in positional order with `, ` between any two of them and nothing
after the last, then `)`. -/
theorem Module_String_renders (FormatFloat : F64 → String) (m : Module) :
    m.String FormatFloat = rendering FormatFloat m ∧
    (m.Parameters = [] → m.String FormatFloat = String.singleton m.Letter) ∧
    (m.Parameters ≠ [] → m.String FormatFloat =
      String.singleton m.Letter ++ "(" ++
        ", ".intercalate (m.Parameters.map FormatFloat) ++ ")") := by
  obtain ⟨letter, params⟩ := m
  cases params with
  | nil => exact ⟨rfl, fun _ => rfl, fun h => absurd rfl h⟩
  | cons p rest =>
    have h : Module.String FormatFloat ⟨letter, p :: rest⟩ =
        String.singleton letter ++ "(" ++
          ", ".intercalate ((p :: rest).map FormatFloat) ++ ")" := by
      simp only [Module.String, List.length_cons, Nat.add_one_ne_zero, if_false]
      rw [stringLoop_eq FormatFloat _ (p :: rest) 0 _ (by simp)]
    exact ⟨h, fun hnil => by simp at hnil, fun _ => h⟩

/-- Witness of C21: the texts of `V`, of `V(1)` and of `V(1, 2, -30)`. -/
theorem Module_String_renders_witness :
    Module.String formatWhole ⟨'V', []⟩ = "V" ∧
    Module.String formatWhole ⟨'V', [F64.fin 1]⟩ = "V(1)" ∧
    Module.String formatWhole ⟨'V', [F64.fin 1, F64.fin 2, F64.fin (-30)]⟩ = "V(1, 2, -30)" :=
  ⟨(Module_String_renders formatWhole ⟨'V', []⟩).1.trans (by decide!),
   (Module_String_renders formatWhole ⟨'V', [F64.fin 1]⟩).1.trans (by decide!),
   (Module_String_renders formatWhole ⟨'V', [F64.fin 1, F64.fin 2, F64.fin (-30)]⟩).1.trans
     (by decide!)⟩

/-! ## The shared generator -/

set_option maxRecDepth 100000 in
theorem race_in_order :
    tierOf (DerivateIn [0, 1] ⟨false⟩ (New raceSource 2 raceGrammar))
      = some [⟨'X', []⟩, ⟨'Y', []⟩] := by decide!

set_option maxRecDepth 100000 in
theorem race_swapped :
    tierOf (DerivateIn [1, 0] ⟨false⟩ (New raceSource 2 raceGrammar))
      = some [⟨'Y', []⟩, ⟨'X', []⟩] := by decide!

set_option maxRecDepth 100000 in
theorem race_splits : splits (New raceSource 2 raceGrammar) = .ok (2, 64, 0) := rfl

/-- C22 fails on a tier of 128 modules, cut into two partitions of 64, whose modules 0 and
64 each are matched by two rules of probability `0.5`, with a random source whose first two
numbers are `0` and `0.75`. Two L-systems built by `New` from these parameters give the
tier `[X, Y]` when worker 0 draws before worker 1, which is the order of `Derivate` here,
and the tier `[Y, X]` when worker 1 draws first: the generator is shared by the workers
and nothing orders their draws. -/
theorem shared_generator_depends_on_schedule :
    splits (New raceSource 2 raceGrammar) = .ok (2, 64, 0) ∧
    tierOf (DerivateIn [0, 1] ⟨false⟩ (New raceSource 2 raceGrammar))
      = some [⟨'X', []⟩, ⟨'Y', []⟩] ∧
    tierOf (DerivateIn [1, 0] ⟨false⟩ (New raceSource 2 raceGrammar))
      = some [⟨'Y', []⟩, ⟨'X', []⟩] ∧
    DerivateIn [0, 1] ⟨false⟩ (New raceSource 2 raceGrammar)
      = Derivate ⟨false⟩ (New raceSource 2 raceGrammar) :=
  ⟨race_splits, race_in_order, race_swapped,
    DerivateIn_range ⟨false⟩ _ 2 64 0 race_splits⟩

/-! ## `GeneralRule.Matches` and the bounds of its slices -/

theorem leftLoop_isSome (g : GeneralRule) (left : List Module)
    (hlen : g.WithLeft.length ≤ left.length) :
    ∀ (remaining : Nat) (i : Nat), i + remaining ≤ g.WithLeft.length →
      (g.leftLoop left remaining (i : Int)).isSome = true := by
  intro remaining
  induction remaining with
  | zero => intro i _; rfl
  | succ n ih =>
    intro i hi
    have h1 : index? left ((left.length : Int) - 1 - i) = some (left.get ⟨left.length - 1 - i, by omega⟩) := by
      have hnn : ¬ ((left.length : Int) - 1 - (i : Int) < 0) := by omega
      have : ((left.length : Int) - 1 - (i : Int)).toNat = left.length - 1 - i := by omega
      simp only [index?, if_neg hnn, this]
      exact List.get?_eq_get _
    have h2 : index? g.WithLeft ((g.WithLeft.length : Int) - 1 - i)
        = some (g.WithLeft.get ⟨g.WithLeft.length - 1 - i, by omega⟩) := by
      have hnn : ¬ ((g.WithLeft.length : Int) - 1 - (i : Int) < 0) := by omega
      have : ((g.WithLeft.length : Int) - 1 - (i : Int)).toNat = g.WithLeft.length - 1 - i := by
        omega
      simp only [index?, if_neg hnn, this]
      exact List.get?_eq_get _
    simp only [GeneralRule.leftLoop, h1, h2]
    split
    · rfl
    · have := ih (i + 1) (by omega)
      simpa using this

/-- A rule without right context never indexes out of range: its `Matches` returns a
boolean on every predecessor and every neighbourhood. -/
theorem Matches_returns_without_right_context (g : GeneralRule) (hr : g.WithRight = [])
    (predecessor : Module) (left right : List Module) :
    (g.Matches predecessor left right).isSome = true := by
  unfold GeneralRule.Matches
  split
  · rfl
  · split
    · rfl
    · split
      · rfl
      · rename_i hlen
        have hl : g.WithLeft.length ≤ left.length := by
          simp only [not_or, not_lt] at hlen
          exact hlen.1
        have h := leftLoop_isSome g left hl g.WithLeft.length 0 (by simp)
        simp only [Nat.cast_zero] at h
        cases hloop : g.leftLoop left g.WithLeft.length 0 with
        | none => rw [hloop] at h; simp at h
        | some b =>
          cases b with
          | false => rfl
          | true => simp [hr, GeneralRule.rightLoop]

/-- C23 fails for the rule `V > B -> Y`, which has a right context only, on the predecessor
`V` with an empty left neighbourhood and the right neighbourhood `[B]`, as at position 0 of
the tier `[V, B]`: the loop over the right context indexes `left[0]`, out of range, and the
call panics; so does the call of `Derivate` on that tier. -/
theorem Matches_indexes_out_of_range :
    ruleVBY.Matches ⟨'V', []⟩ [] [⟨'B', []⟩] = none ∧
    ruleVBY.toRule.Matches ⟨'V', []⟩ ([⟨'V', []⟩, ⟨'B', []⟩].take 0)
      ([⟨'V', []⟩, ⟨'B', []⟩].drop 1) = none ∧
    panicOf (Derivate ⟨false⟩ (New zeroSource 1 rightContextGrammar))
      = some "panic in Matches" :=
  ⟨by decide, by decide, by decide⟩

/-! ## Partitions of tiers of `2 ^ 32` modules and more -/

/-- On a tier of fewer than `2 ^ 32` modules the worker sections follow one another from
position 0 and end at the length of the tier. -/
theorem partitions_cover_short_tiers (ls : LSystem) (hm : 1 ≤ ls.subsectionMinimumSize)
    (hw : 1 ≤ ls.maxWorkers) (hL : ls.tier.length < 2 ^ 32) :
    ∃ sp size rem, splits ls = .ok (sp, size, rem) ∧
      Contiguous (sections size rem sp 0 0) 0 ∧
      sectionsEnd (sections size rem sp 0 0) 0 = ls.tier.length := by
  have hpos : 0 < clamp (ls.tier.length / ls.subsectionMinimumSize) 1 ls.maxWorkers := by
    unfold clamp; omega
  exact ⟨_, _, _, splits_of_small ls hm hw hL, sections_contiguous _ _ _ 0 0,
    sections_cover _ _ hpos⟩

/-- C24 fails on tiers of `2 ^ 32` modules and more, here with three workers and the
minimum size `64`. With `L = 2 ^ 32` modules `splits` returns three partitions of
`1431655765` modules and the remainder `0`: together `L - 1` modules, the last position is
in no partition, gets no rule, and `Derivate` returns `2 ^ 33 - 2` modules of the doubling
grammar. With `L = 2 ^ 32 + 2` modules the remainder is `2`: together `L + 2` modules, and
the third worker slices beyond the tier. -/
theorem partitions_miss_long_tiers :
    splits (New zeroSource 3 (longParameters (2 ^ 32))) = .ok (3, 1431655765, 0) ∧
    sections 1431655765 0 3 0 0
      = [(0, 1431655765), (1431655765, 1431655765), (2863311530, 1431655765)] ∧
    sectionsEnd (sections 1431655765 0 3 0 0) 0 = 2 ^ 32 - 1 ∧
    selectedRules (New zeroSource 3 (longParameters (2 ^ 32)))
      = .ok (List.replicate (2 ^ 32 - 1) (some testRule) ++ List.replicate 1 none) ∧
    (∃ ls', Derivate ⟨false⟩ (New zeroSource 3 (longParameters (2 ^ 32))) = .ok (none, ls') ∧
      ls'.tier.length = 2 ^ 33 - 2) ∧
    splits (New zeroSource 3 (longParameters (2 ^ 32 + 2))) = .ok (3, 1431655766, 2) ∧
    sectionsEnd (sections 1431655766 2 3 0 0) 0 = 2 ^ 32 + 4 ∧
    Derivate ⟨false⟩ (New zeroSource 3 (longParameters (2 ^ 32 + 2)))
      = .error "slice bounds out of range" := by
  have hsp : splits (New zeroSource 3 (longParameters (2 ^ 32))) = .ok (3, 1431655765, 0) := by
    rw [splits_long]; norm_num
  have hsp2 : splits (New zeroSource 3 (longParameters (2 ^ 32 + 2)))
      = .ok (3, 1431655766, 2) := by
    rw [splits_long]; norm_num
  have hR : (New zeroSource 3 (longParameters (2 ^ 32))).Parameters.Rules = [testRule] := rfl
  have hV : ∀ m ∈ (New zeroSource 3 (longParameters (2 ^ 32))).tier, m.Letter = 'V' :=
    V1_letter _
  have hlen := tier_length_long 3 (2 ^ 32)
  have hE : 3 * 1431655765 + min 3 0 = 2 ^ 32 - 1 := by norm_num
  have hE' : 3 * 1431655765 + min 3 0 ≤
      (New zeroSource 3 (longParameters (2 ^ 32))).tier.length := by
    rw [hlen]; norm_num
  refine ⟨hsp, by simp [sections], ?_, ?_, ?_, hsp2, ?_, ?_⟩
  · rw [sectionsEnd_sections]; norm_num
  · have h := selectedRules_doubling _ hR hV (by rw [hlen]; norm_num) 3 1431655765 0 hsp hE'
    rw [h, hlen, hE]
    have : 2 ^ 32 - (2 ^ 32 - 1) = 1 := by norm_num
    rw [this]
  · obtain ⟨ls', hd, ht, -⟩ := Derivate_doubling ⟨false⟩ _ hR hV (by rw [hlen]; norm_num)
      3 1431655765 0 hsp hE'
    refine ⟨ls', hd, ?_⟩
    rw [ht, List.length_replicate]
    norm_num
  · rw [sectionsEnd_sections]; norm_num
  · exact Derivate_long_overshoot ⟨false⟩ 3 (2 ^ 32 + 2) 3 1431655766 2 hsp2 (by norm_num)

/-! ## `parseExpression` -/

/-- The method `Get` of the wrapper calls itself and never gets to the environment:
whatever the room on the stack, the call ends in the overflow of the stack. -/
theorem wrapped_Get_overflows (wvfp : wrappedVariablesForExpression) :
    ∀ (stack : Nat) (name : String), wvfp.Get stack name = .error "stack overflow" := by
  intro stack
  induction stack with
  | zero => intro name; rfl
  | succ stack ih => intro name; simp only [wrappedVariablesForExpression.Get, ih]

theorem decimalParseFloat_expression :
    decimalParseFloat "x + 1" = (F64.fin 0, some "strconv.ParseFloat: invalid syntax") := by
  decide

theorem decimalParseFloat_scalar : decimalParseFloat "1.5" = (F64.fin (3 / 2), none) := by
  decide!

/-- C25 fails on the text `x + 1`, which is no float: `parseExpression` returns, without
error, the constant function that yields `0`, and never hands the text to the expression
compiler. The test of line 26 is inverted: whenever parsing the text as a float fails, the
result is the constant function of the value that came with the error; and for a text
that does parse as a float, such as `1.5`, the result is what the expression compiler
makes of it, its error included. -/
theorem parseExpression_inverts_the_test
    (NewEvaluableExpression : String → Option EvaluableExpression × Option String)
    (stack : Nat) :
    parseExpression decimalParseFloat NewEvaluableExpression stack "x + 1"
      = (some (fun _ => .ok (F64.fin 0)), none) ∧
    (∀ (ParseFloat : String → F64 × Option String) (s : String) (v : F64) (e : String),
      ParseFloat s = (v, some e) →
      parseExpression ParseFloat NewEvaluableExpression stack s
        = (some (fun _ => .ok v), none)) ∧
    (∀ e, NewEvaluableExpression "1.5" = (none, some e) →
      parseExpression decimalParseFloat NewEvaluableExpression stack "1.5"
        = (none, some ("Error while parsing expression: " ++ e))) ∧
    (∀ evaluable, NewEvaluableExpression "1.5" = (some evaluable, none) →
      ∃ f, parseExpression decimalParseFloat NewEvaluableExpression stack "1.5"
          = (some f, none) ∧
        ∀ env, f env =
          match evaluable.Eval ((⟨env⟩ : wrappedVariablesForExpression).Get stack) with
          | .error e => .error e
          | .ok (_, some err) => .error ("Error while evaluating " ++ err)
          | .ok (res, none) =>
            match res with
            | Value.float64 x => .ok x
            | _ => .error "Failure while casting") := by
  have general : ∀ (ParseFloat : String → F64 × Option String) (s : String) (v : F64)
      (e : String), ParseFloat s = (v, some e) →
      parseExpression ParseFloat NewEvaluableExpression stack s
        = (some (fun _ => .ok v), none) := by
    intro ParseFloat s v e h
    simp [parseExpression, h]
  refine ⟨general _ _ _ _ decimalParseFloat_expression, general, ?_, ?_⟩
  · intro e h
    simp [parseExpression, decimalParseFloat_scalar, h]
  · intro evaluable h
    refine ⟨_, by simp only [parseExpression, decimalParseFloat_scalar, h]; rfl, ?_⟩
    intro env
    rfl

/-! ## Derivate, whatever the order of the workers -/

theorem sizeSectionsIn_completes (ls : LSystem) (secs : List (Nat × Nat))
    (hM : ∀ r ∈ ls.Parameters.Rules, ∀ m l l', (r.Matches m l l').isSome = true)
    (hin : InBounds secs ls.tier.length) :
    ∀ (schedule : List Nat) (st : SizingState),
      ∃ st', sizeSectionsIn ls secs schedule st = .ok st' := by
  intro schedule
  induction schedule with
  | nil => intro st; exact ⟨st, rfl⟩
  | cons w schedule ih =>
    intro st
    simp only [sizeSectionsIn, List.get?_eq_getElem?]
    cases hget : secs[w]? with
    | none => exact ih st
    | some sec =>
      obtain ⟨cursor, thisSize⟩ := sec
      have hb : ¬ ls.tier.length < cursor + thisSize := by
        have := hin _ (mem_of_getElem?_eq_some hget)
        simp only at this
        omega
      obtain ⟨out, hcalc⟩ := calculateRules_completes ls st.rng
        ((st.rules.drop cursor).take thisSize) ((ls.tier.drop cursor).take thisSize) hM
      simp only [sizeSectionAt, if_neg hb, hcalc]
      exact ih _

/-- The selection of `Derivate` completes, in whatever order the workers run, on every
tier of fewer than `2 ^ 32` modules, for any positive subsection minimum size and number
of workers, as long as no call of `Matches` panics. -/
theorem selectedRulesIn_completes (ls : LSystem) (hmin : 0 < ls.subsectionMinimumSize)
    (hworkers : 0 < ls.maxWorkers) (hL : ls.tier.length < 2 ^ 32)
    (hM : ∀ r ∈ ls.Parameters.Rules, ∀ m l l', (r.Matches m l l').isSome = true)
    (schedule : List Nat) :
    ∃ rules, selectedRulesIn schedule ls = .ok rules := by
  have hsp := splits_of_small ls hmin hworkers hL
  have hpos : 0 < clamp (ls.tier.length / ls.subsectionMinimumSize) 1 ls.maxWorkers := by
    unfold clamp; omega
  have hcov := sections_cover ls.tier.length _ hpos
  have hin : InBounds (sections
      (ls.tier.length / clamp (ls.tier.length / ls.subsectionMinimumSize) 1 ls.maxWorkers)
      (ls.tier.length % clamp (ls.tier.length / ls.subsectionMinimumSize) 1 ls.maxWorkers)
      (clamp (ls.tier.length / ls.subsectionMinimumSize) 1 ls.maxWorkers) 0 0)
      ls.tier.length := by
    intro sec hsec
    have := contiguous_le_end _ 0 (sections_contiguous _ _ _ 0 0) sec hsec
    omega
  obtain ⟨st', hst⟩ := sizeSectionsIn_completes ls _ hM hin schedule
    ⟨List.replicate ls.tier.length none, ls.rng,
      List.replicate (clamp (ls.tier.length / ls.subsectionMinimumSize) 1 ls.maxWorkers) 0⟩
  exact ⟨st'.rules, by simp only [selectedRulesIn, hsp, hst]⟩

set_option maxRecDepth 100000 in
theorem twoPartition_splits :
    splits (New zeroSource 2 twoPartitionGrammar) = .ok (2, 64, 0) := rfl

set_option maxRecDepth 100000 in
theorem twoPartition_selected :
    selectedRulesIn [1, 0] (New zeroSource 2 twoPartitionGrammar) = .ok twoPartitionRules :=
  rfl

theorem twoPartition_writesExactly :
    ∀ r, some r ∈ twoPartitionRules → r.WritesExactly := by
  intro r hr
  simp only [twoPartitionRules, List.cons_append, List.mem_cons, List.mem_append,
    List.mem_replicate, Option.some.injEq, reduceCtorEq, and_false, false_or, or_false]
    at hr
  rcases hr with rfl | rfl | rfl
  · exact NewRuleNonParametric_writesExactly 'A' [⟨'X', []⟩] [] [] (F64.fin 1)
  · exact NewRuleNonParametric_writesExactly 'V' [⟨'Y', []⟩, ⟨'Z', []⟩] [] [] (F64.fin 1)
  · exact NewRuleNonParametric_writesExactly 'V' [⟨'Y', []⟩, ⟨'Z', []⟩] [] [] (F64.fin 1)

set_option maxRecDepth 100000 in
theorem twoPartition_sum : (twoPartitionRules.map outputSizeAt).sum = 5 := by decide

/-- C2, amended. Let the workers of `Derivate` run their first half in any order, for any
tier, rule set and number of partitions, and let the selection complete. Whenever
`Derivate` returns, the length of the new tier is the sum, over the positions of the input
tier, of `OutputSize()` of the rule selected there (`0` where none was selected) as the
additions in an `int` give it, that is wrapped around at `2 ^ 63`; so it is that sum itself
when the sum lies between `0` and `2 ^ 63`. `Derivate` does return when the selected rules
write what they announce and the sum is less than `2 ^ 63`. In partition order this is
`Derivate` itself. -/
theorem Derivate_length_is_sum_of_output_sizes (ctx : Context) (ls : LSystem)
    (sp size rem : Nat) (hsp : splits ls = .ok (sp, size, rem))
    (schedule : List Nat) (hsched : schedule.Perm (List.range sp))
    (rules : List (Option Rule)) (hsel : selectedRulesIn schedule ls = .ok rules) :
    (∀ e ls', DerivateIn schedule ctx ls = .ok (e, ls') →
      (ls'.tier.length : Int) = wrapInt ((rules.map outputSizeAt).sum) ∧
      (0 ≤ (rules.map outputSizeAt).sum → (rules.map outputSizeAt).sum < 2 ^ 63 →
        (ls'.tier.length : Int) = (rules.map outputSizeAt).sum)) ∧
    ((∀ r, some r ∈ rules → r.WritesExactly) → (rules.map outputSizeAt).sum < 2 ^ 63 →
      ∃ ls', DerivateIn schedule ctx ls = .ok (none, ls')) ∧
    (schedule = List.range sp → DerivateIn schedule ctx ls = Derivate ctx ls) := by
  refine ⟨fun e ls' hd => ?_, fun hw hfit => ?_, fun hrange => ?_⟩
  · have hlen := DerivateIn_length ctx ls sp size rem hsp schedule hsched rules hsel e ls' hd
    refine ⟨hlen, fun h0 h1 => ?_⟩
    rw [hlen, wrapInt_of_range (by omega) h1]
  · obtain ⟨ls', h, -⟩ :=
      DerivateIn_of_selection ctx ls sp size rem hsp schedule hsched rules hsel hw hfit
    exact ⟨ls', h⟩
  · rw [hrange]
    exact DerivateIn_range ctx ls sp size rem hsp

/-- Witness of C2 on a tier of 128 modules cut into two partitions, the worker of the
second partition running first: the rules selected at positions 0, 1 and 64 announce
`1 + 2 + 2` modules, and the new tier has length 5. -/
theorem Derivate_length_is_sum_of_output_sizes_witness :
    (∀ e ls', DerivateIn [1, 0] ⟨false⟩ (New zeroSource 2 twoPartitionGrammar) = .ok (e, ls') →
      (ls'.tier.length : Int) = 5) ∧
    ∃ ls', DerivateIn [1, 0] ⟨false⟩ (New zeroSource 2 twoPartitionGrammar) = .ok (none, ls') :=
  have h := Derivate_length_is_sum_of_output_sizes ⟨false⟩
    (New zeroSource 2 twoPartitionGrammar) 2 64 0 twoPartition_splits [1, 0] (by decide)
    twoPartitionRules twoPartition_selected
  ⟨fun e ls' hd => by
      have := (h.1 e ls' hd).2 (by rw [twoPartition_sum]; decide)
        (by rw [twoPartition_sum]; decide)
      rw [this, twoPartition_sum],
   h.2.1 twoPartition_writesExactly (by rw [twoPartition_sum]; decide)⟩

set_option maxRecDepth 100000 in
/-- C2, as stated, fails on the tier `[V, V, V, V]` with a single rule on `V` that announces
`2 ^ 62` modules and writes none: the rule is selected at the four positions, the sizes
add up to `2 ^ 64`, which an `int` holds as `0`, and `Derivate` returns with an empty
tier. -/
theorem Derivate_length_wraps_around :
    selectedRules (New zeroSource 1 announcingGrammar)
      = .ok [some announcingRule, some announcingRule, some announcingRule,
          some announcingRule] ∧
    (([some announcingRule, some announcingRule, some announcingRule,
        some announcingRule] : List (Option Rule)).map outputSizeAt).sum = 2 ^ 64 ∧
    tierOf (Derivate ⟨false⟩ (New zeroSource 1 announcingGrammar)) = some [] :=
  ⟨rfl, by decide, rfl⟩

/-! ## Context-sensitive general rules take precedence, in `Derivate` -/

end Gemolsyr
